import Mathlib

/-!
Shallow embedding of the PuzzleEval Kuboble engine
(src/kuboble_verifier.py and src/kuboble_generator.py).

Python strings are modelled as `List Char` (wrapped in `String` at the API
boundary), Python dicts as insertion-ordered association lists with unique
keys maintained by `dictSet`, Python ints as `Int` (positions) or `Nat`
(dimensions, counts), and operations that can raise (`dict[k]`, list index
assignment) as `Option`-valued functions where `none` models the exception.
`random.shuffle` is modelled by an explicit oracle `shuffles : Nat → List Pos`
giving the shuffled coordinate list of each generation attempt, and the two
unbounded `while` loops (the slide loop and the BFS queue loop) take explicit
fuel; the slide fuel is chosen large enough to be exact, and BFS fuel
exhaustion is mapped to `none`, which claims about successful results never
hit.
-/

namespace Kuboble

/-- Python whitespace as used by str.strip and str.split(): space, tab,
newline, carriage return, vertical tab, form feed. -/
def pyIsSpace (c : Char) : Bool :=
  c = ' ' || c = '\t' || c = '\n' || c = '\r' || c = Char.ofNat 11 || c = Char.ofNat 12

/-- Python str.strip(): drop whitespace from both ends. -/
def pyStrip (l : List Char) : List Char :=
  ((l.dropWhile pyIsSpace).reverse.dropWhile pyIsSpace).reverse

/-- Python str.split(sep) for a single-character separator generalised to a
predicate: split at every matching character, keeping empty pieces.
`splitPred p []` is `[[]]`, matching `''.split(';') == ['']`. -/
def splitPred (p : Char → Bool) : List Char → List (List Char)
  | [] => [[]]
  | c :: cs =>
    match splitPred p cs with
    | [] => [[]]
    | r :: rs => if p c then [] :: r :: rs else (c :: r) :: rs

/-- Python str.split(c) for one explicit separator character. -/
def splitSep (sep : Char) (l : List Char) : List (List Char) :=
  splitPred (fun c => c = sep) l

/-- Python str.split() with no argument: split on whitespace runs, dropping
empty pieces. -/
def pySplitWs (l : List Char) : List (List Char) :=
  (splitPred pyIsSpace l).filter (· ≠ [])

/-- Joining with a single separator character, the model of
`sep.join(parts)`. -/
def joinSep (sep : Char) : List (List Char) → List Char
  | [] => []
  | [r] => r
  | r :: rs => r ++ sep :: joinSep sep rs

/-- Grid positions `(row, col)`; Python ints, so `Int`. -/
abbrev Pos := Int × Int

/-- Python dict lookup `d.get(k)` / `k in d` on an association list. -/
def dictGet {α : Type} : List (Char × α) → Char → Option α
  | [], _ => none
  | (k', v) :: t, k => if k' = k then some v else dictGet t k

/-- Python dict assignment `d[k] = v`: overwrite in place if the key exists
(keeping insertion order), otherwise append. -/
def dictSet {α : Type} : List (Char × α) → Char → α → List (Char × α)
  | [], k, v => [(k, v)]
  | (k', v') :: t, k, v => if k' = k then (k, v) :: t else (k', v') :: dictSet t k v

/-- Python `del d[k]` on a unique-keyed association list (used only after a
membership check in the source, so the missing-key exception cannot fire). -/
def dictDel {α : Type} (d : List (Char × α)) (k : Char) : List (Char × α) :=
  d.filter (fun e => e.1 ≠ k)

/-- The board state: the fields of class KubobleGame. `grid` is the cached
character grid ('X' obstacles, piece characters, '.'), `pieces` and `targets`
are the two dicts, `width`/`height` the dimensions. -/
structure KubobleGame where
  grid : List (List Char)
  pieces : List (Char × Pos)
  targets : List (Char × Pos)
  width : Nat
  height : Nat
deriving DecidableEq, Repr

/-! ## Level parsing (KubobleGame._parse_level) -/

/-- Tokenisation of one row: strip, then space-separated tokens take
precedence, else dot-present rows split per character, else the whole row is
one combined token. Empty rows give no tokens. -/
def rowTokens (raw : List Char) : List (List Char) :=
  let row := pyStrip raw
  if row = [] then []
  else if row.contains ' ' then (splitSep ' ' row).filter (· ≠ [])
  else if row.contains '.' then row.map (fun c => [c])
  else [row]

/-- Classify one cell token into (optional piece, optional target): 'X' and
'.' are neither; a single letter is a piece (uppercase) or target
(lowercase); a multi-character token contributes its last uppercase letter as
piece and last lowercase letter as target. -/
def classifyToken (tok : List Char) : Option Char × Option Char :=
  if tok = ['X'] ∨ tok = ['.'] then (none, none)
  else
    match tok with
    | [ch] =>
      if 'a' ≤ ch ∧ ch ≤ 'z' then (none, some ch)
      else if 'A' ≤ ch ∧ ch ≤ 'Z' then (some ch, none)
      else (none, none)
    | _ =>
      tok.foldl
        (fun pt sub =>
          if 'a' ≤ sub ∧ sub ≤ 'z' then (pt.1, some sub)
          else if 'A' ≤ sub ∧ sub ≤ 'Z' then (some sub, pt.2)
          else pt)
        (none, none)

/-- Row-major accumulation of the pieces and targets dicts over the token
grid; a token at column `c ≥ width` is skipped (the source's break, dead
because width is the maximum row length). -/
def collectPT (width : Nat) (rows : List (List (List Char))) :
    List (Char × Pos) × List (Char × Pos) :=
  rows.enum.foldl
    (fun acc rt =>
      rt.2.enum.foldl
        (fun (acc : List (Char × Pos) × List (Char × Pos)) ct =>
          if width ≤ ct.1 then acc
          else
            let pt := classifyToken ct.2
            let tgts :=
              match pt.2 with
              | some t => dictSet acc.2 t ((rt.1 : Int), (ct.1 : Int))
              | none => acc.2
            let pcs :=
              match pt.1 with
              | some p => dictSet acc.1 p ((rt.1 : Int), (ct.1 : Int))
              | none => acc.1
            (pcs, tgts))
        acc)
    ([], [])

/-- The obstacle skeleton grid: 'X' exactly where the token grid has an "X"
token, '.' elsewhere, sized height × width. -/
def baseGridOf (height width : Nat) (rows : List (List (List Char))) :
    List (List Char) :=
  (List.range height).map fun r =>
    (List.range width).map fun c =>
      if r < rows.length ∧ c < (rows.getD r []).length ∧ (rows.getD r []).getD c [] = ['X']
      then 'X' else '.'

/-- In-bounds grid write (both indices already validated by the caller). -/
def gridSetNat (g : List (List Char)) (r c : Nat) (ch : Char) : List (List Char) :=
  g.set r ((g.getD r []).set c ch)

/-- Overlaying the piece characters onto the grid (the loop at the end of
_parse_level), with the source's bounds guard. -/
def overlayPieces (g0 : List (List Char)) (h w : Nat) (pieces : List (Char × Pos)) :
    List (List Char) :=
  pieces.foldl
    (fun g pr =>
      if 0 ≤ pr.2.1 ∧ pr.2.1 < (h : Int) ∧ 0 ≤ pr.2.2 ∧ pr.2.2 < (w : Int)
      then gridSetNat g pr.2.1.toNat pr.2.2.toNat pr.1 else g)
    g0

/-- KubobleGame._parse_level on the character list of the level string. -/
def _parse_level (chars : List Char) : KubobleGame :=
  let raw_rows := splitSep ';' (pyStrip chars)
  let height := raw_rows.length
  if height = 0 then ⟨[], [], [], 0, 0⟩
  else
    let processed := raw_rows.map rowTokens
    let width := (processed.map List.length).foldl Nat.max 0
    let pt := collectPT width processed
    let base := baseGridOf height width processed
    let grid := overlayPieces base height width pt.1
    ⟨grid, dictDel pt.1 'X', pt.2, width, height⟩

/-- KubobleGame(level_string): construct a game by parsing. -/
def mkGame (s : String) : KubobleGame := _parse_level s.data

/-! ## Win predicate, move generation, move application -/

/-- KubobleGame.is_win: false with no pieces; otherwise every piece must sit
exactly on the target named by its lowercase counterpart. -/
def is_win (g : KubobleGame) : Bool :=
  if g.pieces.isEmpty then false
  else
    g.pieces.all fun pr =>
      match dictGet g.targets pr.1.toLower with
      | none => false
      | some tp => pr.2 = tp

/-- Reading one grid cell; the callers check bounds against width/height
first, and on well-formed (rectangular) grids the default is never hit. -/
def gridGet (g : List (List Char)) (r c : Int) : Char :=
  (g.getD r.toNat []).getD c.toNat '.'

/-- Is some entry of `pieces` with a key other than `p` at `pos`? -/
def otherPieceAt (pieces : List (Char × Pos)) (p : Char) (pos : Pos) : Bool :=
  pieces.any fun e => e.1 ≠ p ∧ e.2 = pos

/-- One step in direction `d` from `cur`. -/
def stepPos (cur d : Pos) : Pos := (cur.1 + d.1, cur.2 + d.2)

/-- Is `pos` strictly inside the `h × w` board? -/
def inBoard (h w : Nat) (pos : Pos) : Bool :=
  0 ≤ pos.1 && pos.1 < (h : Int) && 0 ≤ pos.2 && pos.2 < (w : Int)

/-- The while loop of get_possible_moves: advance one cell at a time while
the next cell is on the board, not an 'X', and not another piece; return the
last valid cell. Fuel makes the recursion structural; the caller passes
enough for the loop to always exit through one of its three break
conditions. -/
def slideFrom (g : KubobleGame) (p : Char) (cur d : Pos) : Nat → Pos
  | 0 => cur
  | fuel + 1 =>
    let nxt := stepPos cur d
    if ¬ inBoard g.height g.width nxt then cur
    else if gridGet g.grid nxt.1 nxt.2 = 'X' then cur
    else if otherPieceAt g.pieces p nxt then cur
    else slideFrom g p nxt d fuel

/-- The four directions with their deltas, in source order. -/
def dirList : List (Int × Int × String) :=
  [(-1, 0, "up"), (1, 0, "down"), (0, -1, "left"), (0, 1, "right")]

/-- KubobleGame.get_possible_moves: for each piece and direction, if the
immediately adjacent cell is free, slide to the landing cell; emit the move
when the landing differs from the start. -/
def get_possible_moves (g : KubobleGame) : List (Char × Pos × String) :=
  (g.pieces.map fun pr =>
    dirList.filterMap fun dd =>
      let d : Pos := (dd.1, dd.2.1)
      let nxt := stepPos pr.2 d
      if ¬ inBoard g.height g.width nxt then none
      else if gridGet g.grid nxt.1 nxt.2 = 'X' then none
      else if otherPieceAt g.pieces pr.1 nxt then none
      else
        let land := slideFrom g pr.1 pr.2 d (g.height + g.width + 2)
        if land ≠ pr.2 then some (pr.1, land, dd.2.2) else none).flatten

/-- Python list index normalisation: 0 ≤ i < len is itself, negative indices
wrap once, anything else raises (none). -/
def pyIdx (len : Nat) (i : Int) : Option Nat :=
  if 0 ≤ i ∧ i < (len : Int) then some i.toNat
  else if -(len : Int) ≤ i ∧ i < 0 then some ((len : Int) + i).toNat
  else none

/-- Python `l[i] = a` as a total function returning none on IndexError. -/
def pySet {α : Type} (l : List α) (i : Int) (a : α) : Option (List α) :=
  (pyIdx l.length i).map fun n => l.set n a

/-- Python `grid[r][c] = ch` (read row, update, write row back). -/
def pyGridSet (g : List (List Char)) (pos : Pos) (ch : Char) :
    Option (List (List Char)) :=
  match pyIdx g.length pos.1 with
  | none => none
  | some rn =>
    match pySet (g.getD rn []) pos.2 ch with
    | none => none
    | some row => some (g.set rn row)

/-- KubobleGame.apply_move: clear the old cell, write the piece at the new
cell, update the pieces dict; targets, width and height are carried over.
`none` models the KeyError (absent piece) or IndexError (index out of
range). -/
def apply_move (g : KubobleGame) (p : Char) (newPos : Pos) : Option KubobleGame :=
  match dictGet g.pieces p with
  | none => none
  | some oldPos =>
    match pyGridSet g.grid oldPos '.' with
    | none => none
    | some g1 =>
      match pyGridSet g1 newPos p with
      | none => none
      | some g2 =>
        some ⟨g2, dictSet g.pieces p newPos, g.targets, g.width, g.height⟩

/-! ## Solution verification (verify_kuboble_solution) -/

/-- The outcome of the first loop of verify_kuboble_solution over the
semicolon fragments of the solution string. -/
inductive SolParse where
  | earlyWin
  | failed
  | done (ms : List (List Char × List Char))
deriving DecidableEq, Repr

/-- The four recognised direction names. -/
def dirNames : List (List Char) :=
  ["up".data, "down".data, "left".data, "right".data]

/-- The fragment-parsing loop: empty fragments are skipped, except that an
empty final fragment with nothing parsed yet returns the initial win check;
a non-empty fragment must split into exactly two tokens with a recognised
(case-insensitive) direction, else verification fails at once. -/
def parseSolFragments : List (List Char) → List (List Char × List Char) → SolParse
  | [], acc => .done acc
  | f :: fs, acc =>
    let raw := pyStrip f
    if raw = [] then
      if fs = [] ∧ acc = [] then .earlyWin else parseSolFragments fs acc
    else
      let parts := pySplitWs raw
      if parts.length ≠ 2 then .failed
      else
        let dir := (parts.getD 1 []).map Char.toLower
        if ¬ dirNames.contains dir then .failed
        else parseSolFragments fs (acc ++ [(parts.getD 0 [], dir)])

/-- The inner matching loop: the first possible move with the named piece
and direction whose landing differs from the piece's current position. -/
def findMatched (orig : Pos) (pc : Char) (dir : List Char) :
    List (Char × Pos × String) → Option (Char × Pos × String)
  | [] => none
  | (p, np, dn) :: ms =>
    if p = pc ∧ dn.data = dir ∧ np ≠ orig then some (p, np, dn)
    else findMatched orig pc dir ms

/-- The replay loop of verify_kuboble_solution: each parsed move must name a
present piece and match a legal move, which is then applied; at the end the
final state must be won. `none` only on an exception inside apply_move,
which the checks rule out. -/
def replayMoves (g : KubobleGame) : List (List Char × List Char) → Option Bool
  | [] => some (is_win g)
  | (pieceTok, dir) :: ms =>
    match pieceTok with
    | [pc] =>
      match dictGet g.pieces pc with
      | none => some false
      | some orig =>
        match findMatched orig pc dir (get_possible_moves g) with
        | none => some false
        | some m =>
          match apply_move g m.1 m.2.1 with
          | none => none
          | some g' => replayMoves g' ms
    | _ => some false

/-- verify_kuboble_solution: empty/whitespace solutions check the initial
win; otherwise parse the fragments and replay them. -/
def verify_kuboble_solution (level sol : String) : Option Bool :=
  let g := mkGame level
  if sol.data = [] ∨ pyStrip sol.data = [] then some (is_win g)
  else
    match parseSolFragments (splitSep ';' sol.data) [] with
    | .earlyWin => some (is_win g)
    | .failed => some false
    | .done ms =>
      if ms = [] ∧ pyStrip sol.data ≠ [] then some (is_win g)
      else replayMoves g ms

/-! ## Level serialisation (kuboble_generator._coords_to_level_string) -/

/-- Write a token into a token grid at in-range Nat indices. -/
def tokSet (g : List (List (List Char))) (r c : Nat) (tok : List Char) :
    List (List (List Char)) :=
  g.set r ((g.getD r []).set c tok)

/-- Read a token from a token grid. -/
def tokAt (g : List (List (List Char))) (r c : Nat) : List Char :=
  (g.getD r []).getD c []

/-- _coords_to_level_string: build a token grid from the obstacle, piece and
target positions ('Aa' for a piece on its own target, targets dropped when
their cell is taken), then join tokens with spaces and rows with
semicolons. -/
def _coords_to_level_string (width height : Nat) (pieces targets : List (Char × Pos))
    (obstacles : List Pos) : String :=
  let grid0 : List (List (List Char)) :=
    List.replicate height (List.replicate width ['.'])
  let grid1 :=
    obstacles.foldl
      (fun g rc =>
        if 0 ≤ rc.1 ∧ rc.1 < (height : Int) ∧ 0 ≤ rc.2 ∧ rc.2 < (width : Int)
        then tokSet g rc.1.toNat rc.2.toNat ['X'] else g)
      grid0
  let gt :=
    pieces.foldl
      (fun (acc : List (List (List Char)) × List (Char × Pos)) pr =>
        if 0 ≤ pr.2.1 ∧ pr.2.1 < (height : Int) ∧ 0 ≤ pr.2.2 ∧ pr.2.2 < (width : Int)
        then
          let tch := pr.1.toLower
          if dictGet acc.2 tch = some pr.2 then
            (tokSet acc.1 pr.2.1.toNat pr.2.2.toNat [pr.1, tch], dictDel acc.2 tch)
          else
            (tokSet acc.1 pr.2.1.toNat pr.2.2.toNat [pr.1], acc.2)
        else acc)
      (grid1, targets)
  let grid3 :=
    gt.2.foldl
      (fun g tr =>
        if 0 ≤ tr.2.1 ∧ tr.2.1 < (height : Int) ∧ 0 ≤ tr.2.2 ∧ tr.2.2 < (width : Int)
        then
          if tokAt g tr.2.1.toNat tr.2.2.toNat = ['.']
          then tokSet g tr.2.1.toNat tr.2.2.toNat [tr.1] else g
        else g)
      gt.1
  String.mk (joinSep ';' (grid3.map fun row => joinSep ' ' row))

/-! ## BFS solver (_is_solvable_bfs) -/

/-- Lexicographic order on (piece character, position) pairs, matching
Python tuple comparison in sorted(pieces.items()). -/
def pairLe (a b : Char × Pos) : Bool :=
  a.1 < b.1 ∨ (a.1 = b.1 ∧ (a.2.1 < b.2.1 ∨ (a.2.1 = b.2.1 ∧ a.2.2 ≤ b.2.2)))

/-- Insertion into a list sorted by pairLe. -/
def insPair (a : Char × Pos) : List (Char × Pos) → List (Char × Pos)
  | [] => [a]
  | b :: t => if pairLe a b then a :: b :: t else b :: insPair a t

/-- tuple(sorted(pieces.items())): the canonical visited-set key. -/
def sortPairs (l : List (Char × Pos)) : List (Char × Pos) :=
  l.foldr insPair []

/-- A BFS queue entry: (game state, move-string path, depth). -/
abbrev QEntry := KubobleGame × List (List Char) × Nat

/-- The result of expanding one dequeued state over its move list. -/
inductive ExpandOut where
  | found (p : List (List Char))
  | next (vis : List (List (Char × Pos))) (adds : List QEntry)
  | err
deriving Repr

/-- The inner loop of the BFS: apply each possible move; a winning successor
returns the extended path at once, an unvisited non-winning successor is
marked visited and queued. `err` models an exception inside apply_move
(impossible from well-formed states). -/
def bfsExpand (cur : KubobleGame) (path : List (List Char)) (d : Nat) :
    List (Char × Pos × String) → List (List (Char × Pos)) → List QEntry → ExpandOut
  | [], vis, adds => .next vis adds
  | (p, np, dn) :: ms, vis, adds =>
    match apply_move cur p np with
    | none => .err
    | some nxt =>
      let mstr := p :: ' ' :: dn.data
      if is_win nxt then .found (path ++ [mstr])
      else
        let key := sortPairs nxt.pieces
        if key ∈ vis then bfsExpand cur path d ms vis adds
        else bfsExpand cur path d ms (vis ++ [key]) (adds ++ [(nxt, path ++ [mstr], d + 1)])

/-- The BFS while loop over the FIFO queue, with fuel for termination; a
dequeued entry at depth ≥ max_depth is discarded without expansion. -/
def bfsLoop (maxd : Nat) : Nat → List QEntry → List (List (Char × Pos)) →
    Option (List (List Char))
  | 0, _, _ => none
  | _ + 1, [], _ => none
  | fuel + 1, (cur, path, d) :: rest, vis =>
    if maxd ≤ d then bfsLoop maxd fuel rest vis
    else
      match bfsExpand cur path d (get_possible_moves cur) vis [] with
      | .found p => some p
      | .err => none
      | .next vis' adds => bfsLoop maxd fuel (rest ++ adds) vis'

/-- _is_solvable_bfs at the level of move-string lists: the empty path for an
already-won start, else run the queue. -/
def _is_solvable_bfs_list (g : KubobleGame) (maxd fuel : Nat) :
    Option (List (List Char)) :=
  if is_win g then some []
  else bfsLoop maxd fuel [(g, [], 0)] [sortPairs g.pieces]

/-- _is_solvable_bfs: the path joined with ';' as the solution string. -/
def _is_solvable_bfs (g : KubobleGame) (maxd fuel : Nat) : Option String :=
  (_is_solvable_bfs_list g maxd fuel).map fun p => String.mk (joinSep ';' p)

/-! ## Level generation (generate_kuboble_level) -/

/-- Python list.pop(): remove and return the last element. -/
def pyPop {α : Type} (l : List α) : Option (α × List α) :=
  match l.getLast? with
  | none => none
  | some a => some (a, l.dropLast)

/-- The piece/target placement loop: pop a coordinate for each piece and its
target, stopping early when fewer than two coordinates remain. -/
def placePieces : Nat → Nat → List Pos → List (Char × Pos) → List (Char × Pos) →
    List (Char × Pos) × List (Char × Pos) × List Pos
  | 0, _, coords, ps, ts => (ps, ts, coords)
  | n + 1, i, coords, ps, ts =>
    if coords.length < 2 then (ps, ts, coords)
    else
      match pyPop coords with
      | none => (ps, ts, coords)
      | some (pieceC, coords1) =>
        match pyPop coords1 with
        | none => (ps, ts, coords1)
        | some (targC, coords2) =>
          let pch := Char.ofNat (65 + i)
          placePieces n (i + 1) coords2 (dictSet ps pch pieceC)
            (dictSet ts pch.toLower targC)

/-- The obstacle placement loop: pop one coordinate per obstacle while any
remain. -/
def placeObstacles : Nat → List Pos → List Pos → List Pos × List Pos
  | 0, coords, obs => (obs, coords)
  | n + 1, coords, obs =>
    if coords = [] then (obs, coords)
    else
      match pyPop coords with
      | none => (obs, coords)
      | some (c, coords') => placeObstacles n coords' (obs ++ [c])

/-- One generation attempt from an already-shuffled coordinate list: place
pieces, targets and obstacles, serialise, re-parse, reject trivial levels
when required, and run the solver. -/
def genAttempt (w h np no maxd fuel : Nat) (requireNT : Bool) (coords : List Pos) :
    Option (String × String) :=
  let pt := placePieces np 0 coords [] []
  if pt.1.length ≠ np then none
  else
    let ob := placeObstacles no pt.2.2 []
    let level := _coords_to_level_string w h pt.1 pt.2.1 ob.1
    let g := mkGame level
    if requireNT ∧ _is_solvable_bfs g 0 fuel = some "" then none
    else
      match _is_solvable_bfs g maxd fuel with
      | some sol => some (level, sol)
      | none => none

/-- The retry loop over generation attempts. -/
def genLoop (w h np no maxd fuel : Nat) (requireNT : Bool)
    (shuffles : Nat → List Pos) : Nat → Nat → Option (String × String)
  | 0, _ => none
  | n + 1, a =>
    match genAttempt w h np no maxd fuel requireNT (shuffles a) with
    | some r => some r
    | none => genLoop w h np no maxd fuel requireNT shuffles n (a + 1)

/-- generate_kuboble_level: the num_pieces == 0 short circuit, the two
configuration checks (as Except.error for the raised ValueError), then the
attempt loop; ok none is the "no solvable level found" outcome. -/
def generate_kuboble_level (w h np no maxAttempts maxd : Nat) (requireNT : Bool)
    (shuffles : Nat → List Pos) (fuel : Nat) : Except String (Option (String × String)) :=
  if np = 0 then .ok (some (_coords_to_level_string w h [] [] [], ""))
  else if 26 < np then .error "Number of pieces cannot exceed 26 (A-Z)."
  else if w * h < np * 2 + no then
    .error "Not enough cells for the requested pieces, targets, and obstacles."
  else .ok (genLoop w h np no maxd fuel requireNT shuffles maxAttempts 0)

/-! ## Basic lemmas about dicts and grids -/

theorem dictGet_dictSet_self {α : Type} (d : List (Char × α)) (k : Char) (v : α) :
    dictGet (dictSet d k v) k = some v := by
  induction d with
  | nil => simp [dictSet, dictGet]
  | cons e t ih =>
    by_cases h : e.1 = k
    · simp [dictSet, dictGet, h]
    · simp [dictSet, dictGet, h, ih]

theorem dictGet_dictSet_ne {α : Type} (d : List (Char × α)) (k k' : Char) (v : α)
    (h : k' ≠ k) : dictGet (dictSet d k v) k' = dictGet d k' := by
  induction d with
  | nil => simp [dictSet, dictGet, Ne.symm h]
  | cons e t ih =>
    by_cases he : e.1 = k
    · simp [dictSet, dictGet, he, Ne.symm h]
    · by_cases he' : e.1 = k'
      · simp [dictSet, dictGet, he, he', h]
      · simp [dictSet, dictGet, he, he', ih]

theorem dictSet_map_fst {α : Type} (d : List (Char × α)) (k : Char) (v : α)
    (h : dictGet d k ≠ none) : (dictSet d k v).map Prod.fst = d.map Prod.fst := by
  induction d with
  | nil => simp [dictGet] at h
  | cons e t ih =>
    by_cases he : e.1 = k
    · simp [dictSet, he]
    · simp [dictGet, he] at h
      simp [dictSet, he, ih h]

/-- Cell read at Nat indices (gridGet after toNat). -/
def cellAt (G : List (List Char)) (r c : Nat) : Char :=
  (G.getD r []).getD c '.'

theorem gridGet_eq_cellAt (G : List (List Char)) (r c : Int) :
    gridGet G r c = cellAt G r.toNat c.toNat := rfl

theorem getD_set_self {α : Type} (l : List α) (i : Nat) (a d : α) (h : i < l.length) :
    (l.set i a).getD i d = a := by
  simp [List.getD_eq_getElem?_getD, List.getElem?_set, h]

theorem getD_set_ne {α : Type} (l : List α) (i j : Nat) (a d : α) (h : i ≠ j) :
    (l.set i a).getD j d = l.getD j d := by
  simp [List.getD_eq_getElem?_getD, List.getElem?_set, h]

theorem cellAt_gridSetNat_self (G : List (List Char)) (r c : Nat) (ch : Char)
    (hr : r < G.length) (hc : c < (G.getD r []).length) :
    cellAt (gridSetNat G r c ch) r c = ch := by
  unfold cellAt gridSetNat
  rw [getD_set_self _ _ _ _ (by simpa using hr)]
  exact getD_set_self _ _ _ _ (by simpa using hc)

theorem cellAt_gridSetNat_ne (G : List (List Char)) (r c r' c' : Nat) (ch : Char)
    (h : r ≠ r' ∨ c ≠ c') : cellAt (gridSetNat G r' c' ch) r c = cellAt G r c := by
  unfold cellAt gridSetNat
  rcases h with h | h
  · rw [getD_set_ne _ _ _ _ _ (Ne.symm h)]
  · by_cases hr : r = r'
    · subst hr
      by_cases hlen : r < G.length
      · rw [getD_set_self _ _ _ _ (by simpa using hlen)]
        exact getD_set_ne _ _ _ _ _ (Ne.symm h)
      · rw [List.set_eq_of_length_le (by omega)]
    · rw [getD_set_ne _ _ _ _ _ (Ne.symm hr)]

/-- Rectangularity of the cached grid relative to the stored dimensions. -/
def WFGrid (g : KubobleGame) : Prop :=
  g.grid.length = g.height ∧ ∀ row ∈ g.grid, row.length = g.width

theorem pyIdx_of_inb (len : Nat) (i : Int) (h0 : 0 ≤ i) (h1 : i < (len : Int)) :
    pyIdx len i = some i.toNat := by
  simp [pyIdx, h0, h1]

theorem getD_mem_of_lt {α : Type} (l : List α) (i : Nat) (d : α) (h : i < l.length) :
    l.getD i d ∈ l := by
  rw [List.getD_eq_getElem l d h]
  exact l.getElem_mem h

theorem pyGridSet_of_inb (G : List (List Char)) (h w : Nat) (pos : Pos) (ch : Char)
    (hl : G.length = h) (hw : ∀ row ∈ G, row.length = w)
    (hb : inBoard h w pos = true) :
    pyGridSet G pos ch = some (gridSetNat G pos.1.toNat pos.2.toNat ch) := by
  simp only [inBoard, Bool.and_eq_true, decide_eq_true_eq] at hb
  obtain ⟨⟨⟨h1, h2⟩, h3⟩, h4⟩ := hb
  have hglen : pos.1.toNat < G.length := by omega
  have hrow : (G.getD pos.1.toNat []).length = w := hw _ (getD_mem_of_lt _ _ _ hglen)
  have e1 : pyIdx G.length pos.1 = some pos.1.toNat := pyIdx_of_inb _ _ h1 (by omega)
  have e2 : pyIdx (G.getD pos.1.toNat []).length pos.2 = some pos.2.toNat := by
    rw [hrow]
    exact pyIdx_of_inb _ _ h3 h4
  simp only [List.getD_eq_getElem?_getD] at e2
  simp [pyGridSet, pySet, e1, e2, gridSetNat, List.getD_eq_getElem?_getD]

theorem gridSetNat_length (G : List (List Char)) (r c : Nat) (ch : Char) :
    (gridSetNat G r c ch).length = G.length := by
  simp [gridSetNat]

theorem gridSetNat_rows (G : List (List Char)) (w : Nat) (r c : Nat) (ch : Char)
    (hw : ∀ row ∈ G, row.length = w) :
    ∀ row ∈ gridSetNat G r c ch, row.length = w := by
  by_cases hr : r < G.length
  · intro row hrow
    rcases List.mem_or_eq_of_mem_set hrow with h | h
    · exact hw row h
    · subst h
      simp only [List.length_set]
      exact hw _ (getD_mem_of_lt _ _ _ hr)
  · intro row hrow
    rw [gridSetNat, List.set_eq_of_length_le (by omega)] at hrow
    exact hw row hrow

/-- The characterisation of a successful apply_move on a rectangular grid:
both writes land in bounds, producing the two-cell grid update and the dict
update. -/
theorem apply_move_spec (g : KubobleGame) (p : Char) (old new : Pos)
    (hwf : WFGrid g) (hp : dictGet g.pieces p = some old)
    (hold : inBoard g.height g.width old = true)
    (hnew : inBoard g.height g.width new = true) :
    apply_move g p new =
      some ⟨gridSetNat (gridSetNat g.grid old.1.toNat old.2.toNat '.')
              new.1.toNat new.2.toNat p,
            dictSet g.pieces p new, g.targets, g.width, g.height⟩ := by
  obtain ⟨hl, hw⟩ := hwf
  have e1 := pyGridSet_of_inb g.grid g.height g.width old '.' hl hw hold
  have e2 := pyGridSet_of_inb (gridSetNat g.grid old.1.toNat old.2.toNat '.')
    g.height g.width new p (by rw [gridSetNat_length]; exact hl)
    (gridSetNat_rows _ _ _ _ _ hw) hnew
  simp [apply_move, hp, e1, e2]

theorem apply_move_absent (g : KubobleGame) (p : Char) (newPos : Pos)
    (h : dictGet g.pieces p = none) : apply_move g p newPos = none := by
  unfold apply_move
  rw [h]

/-! ## Claim C9 -/

/-- C9 fails as stated: apply_move with an obstacle cell as destination
erases the obstacle from the grid, so the result's obstacle cells are not
those of the input state. In level "A X" the cell (0,1) is an obstacle;
after apply_move of piece A onto (0,1) it no longer reads 'X'. -/
theorem C9_counterexample :
    gridGet (mkGame "A X").grid 0 1 = 'X' ∧
      apply_move (mkGame "A X") 'A' (0, 1) =
        some ⟨[['.', 'A']], [('A', (0, 1))], [], 2, 1⟩ ∧
      gridGet ([['.', 'A']] : List (List Char)) 0 1 ≠ 'X' := by
  refine ⟨by decide, by decide, by decide⟩

/-- C9 (corrected): for a state with a rectangular grid, a present piece p at
an in-bounds position, and an in-bounds destination d, where p is not the
obstacle symbol and neither p's current cell nor d is an obstacle cell,
apply_move succeeds and returns a state in which only p's position changed:
p maps to d, every other piece key keeps its value, the key order, targets,
width and height are unchanged, and the obstacle ('X') cells of the grid are
unchanged. apply_move fails (returns none, modelling the KeyError) whenever
the piece is absent. The original state is untouched (the model is pure, as
is the source, which copies the grid and dict before editing). -/
theorem C9_amended (g : KubobleGame) (p : Char) (old d : Pos)
    (hwf : WFGrid g) (hp : dictGet g.pieces p = some old)
    (hold : inBoard g.height g.width old = true)
    (hd : inBoard g.height g.width d = true)
    (hpx : p ≠ 'X')
    (holdx : gridGet g.grid old.1 old.2 ≠ 'X')
    (hdx : gridGet g.grid d.1 d.2 ≠ 'X') :
    (∃ g', apply_move g p d = some g' ∧
      dictGet g'.pieces p = some d ∧
      (∀ q, q ≠ p → dictGet g'.pieces q = dictGet g.pieces q) ∧
      g'.pieces.map Prod.fst = g.pieces.map Prod.fst ∧
      g'.targets = g.targets ∧ g'.width = g.width ∧ g'.height = g.height ∧
      (∀ r c : Nat, (cellAt g'.grid r c = 'X') ↔ (cellAt g.grid r c = 'X'))) ∧
    (∀ q, dictGet g.pieces q = none → apply_move g q d = none) := by
  have hL : g.grid.length = g.height := hwf.1
  have hd' := hd
  have hold' := hold
  simp only [inBoard, Bool.and_eq_true, decide_eq_true_eq] at hd' hold'
  obtain ⟨⟨⟨hd1, hd2⟩, hd3⟩, hd4⟩ := hd'
  obtain ⟨⟨⟨ho1, ho2⟩, ho3⟩, ho4⟩ := hold'
  constructor
  · refine ⟨_, apply_move_spec g p old d hwf hp hold hd, ?_, ?_, ?_, rfl, rfl, rfl, ?_⟩
    · exact dictGet_dictSet_self _ _ _
    · intro q hq
      exact dictGet_dictSet_ne _ _ _ _ hq
    · exact dictSet_map_fst _ _ _ (by rw [hp]; exact fun h => Option.noConfusion h)
    · intro r c
      by_cases hn : r = d.1.toNat ∧ c = d.2.toNat
      · obtain ⟨rfl, rfl⟩ := hn
        rw [cellAt_gridSetNat_self]
        · rw [gridGet_eq_cellAt] at hdx
          constructor
          · intro hx
            exact absurd hx.symm (Ne.symm hpx)
          · intro hx
            exact absurd hx hdx
        · rw [gridSetNat_length]
          omega
        · have hrows := gridSetNat_rows g.grid g.width old.1.toNat old.2.toNat '.' hwf.2
          have hlt : d.1.toNat < (gridSetNat g.grid old.1.toNat old.2.toNat '.').length := by
            rw [gridSetNat_length]
            omega
          rw [hrows _ (getD_mem_of_lt _ _ _ hlt)]
          omega
      · rw [cellAt_gridSetNat_ne _ _ _ _ _ _ (by tauto)]
        by_cases ho : r = old.1.toNat ∧ c = old.2.toNat
        · obtain ⟨rfl, rfl⟩ := ho
          rw [cellAt_gridSetNat_self]
          · rw [gridGet_eq_cellAt] at holdx
            constructor
            · intro hx
              exact absurd hx (by decide)
            · intro hx
              exact absurd hx holdx
          · omega
          · have hlt : old.1.toNat < g.grid.length := by omega
            rw [hwf.2 _ (getD_mem_of_lt _ _ _ hlt)]
            omega
        · rw [cellAt_gridSetNat_ne _ _ _ _ _ _ (by tauto)]
  · intro q hq
    exact apply_move_absent g q d hq

/-- Witness for C9_amended at the parsed level "A ." moving A to (0,1). -/
theorem C9_witness :
    ∃ g', apply_move (mkGame "A .") 'A' (0, 1) = some g' ∧
      dictGet g'.pieces 'A' = some (0, 1) := by
  obtain ⟨⟨g', h1, h2, _⟩, _⟩ :=
    C9_amended (mkGame "A .") 'A' (0, 0) (0, 1)
      (by constructor <;> decide) (by decide) (by decide) (by decide)
      (by decide) (by decide) (by decide)
  exact ⟨g', h1, h2⟩

/-! ## Claim C10 -/

/-- C10 (confirmed): apply_move performs no legality check on its
destination. For any state with a rectangular grid whose moving piece sits
in bounds, and ANY in-bounds destination d — an obstacle cell, an occupied
cell, or a cell unreachable by sliding — it succeeds and the piece ends at
d. (Slide physics are enforced only by get_possible_moves, so the guarantees
hold only for destinations drawn from it.) -/
theorem C10_no_legality_check (g : KubobleGame) (p : Char) (old d : Pos)
    (hwf : WFGrid g) (hp : dictGet g.pieces p = some old)
    (hold : inBoard g.height g.width old = true)
    (hd : inBoard g.height g.width d = true) :
    ∃ g', apply_move g p d = some g' ∧ dictGet g'.pieces p = some d := by
  refine ⟨_, apply_move_spec g p old d hwf hp hold hd, ?_⟩
  exact dictGet_dictSet_self _ _ _

/-- Witness for C10 at the parsed level "A X": destination (0,1) is an
obstacle cell, yet apply_move succeeds and puts A there. -/
theorem C10_witness :
    ∃ g', apply_move (mkGame "A X") 'A' (0, 1) = some g' ∧
      dictGet g'.pieces 'A' = some (0, 1) :=
  C10_no_legality_check (mkGame "A X") 'A' (0, 0) (0, 1)
    (by constructor <;> decide) (by decide) (by decide) (by decide)

/-! ## Claim C7 -/

/-- C7 fails as stated: with num_pieces = 0 and num_obstacles = 5 on a 1 by 1
grid, 2*num_pieces + num_obstacles exceeds the cell count, yet
generate_kuboble_level returns the empty level rather than a configuration
error, because the num_pieces == 0 short circuit runs before the checks. -/
theorem C7_counterexample :
    1 * 1 < 0 * 2 + 5 ∧
      generate_kuboble_level 1 1 0 5 1 5 true (fun _ => []) 10 =
        .ok (some (".", "")) := by
  exact ⟨by decide, rfl⟩

/-- C7 (corrected): generate_kuboble_level raises the configuration error
(modelled as Except.error, distinct from the ok-none search-exhaustion
result) whenever num_pieces ≥ 1 and either num_pieces > 26 or
2*num_pieces + num_obstacles exceeds width*height; with num_pieces = 0 it
instead returns the empty level with the empty solution regardless of the
capacity condition. -/
theorem C7_amended :
    (∀ w h np no ma maxd rnt sh fuel, 1 ≤ np →
        (26 < np ∨ w * h < np * 2 + no) →
        ∃ e, generate_kuboble_level w h np no ma maxd rnt sh fuel = .error e) ∧
    (∀ w h no ma maxd rnt sh fuel,
        generate_kuboble_level w h 0 no ma maxd rnt sh fuel =
          .ok (some (_coords_to_level_string w h [] [] [], ""))) := by
  constructor
  · intro w h np no ma maxd rnt sh fuel hnp hbad
    unfold generate_kuboble_level
    rw [if_neg (by omega)]
    by_cases h26 : 26 < np
    · rw [if_pos h26]
      exact ⟨_, rfl⟩
    · rw [if_neg h26]
      rcases hbad with hbad | hbad
      · omega
      · rw [if_pos hbad]
        exact ⟨_, rfl⟩
  · intro w h no ma maxd rnt sh fuel
    unfold generate_kuboble_level
    rw [if_pos rfl]

/-- Witness for C7_amended: a concrete configuration error (27 pieces) and a
concrete num_pieces = 0 return. -/
theorem C7_witness :
    (∃ e, generate_kuboble_level 1 1 27 0 1 5 true (fun _ => []) 10 = .error e) ∧
      generate_kuboble_level 3 1 0 0 1 5 true (fun _ => []) 10 =
        .ok (some (_coords_to_level_string 3 1 [] [] [], "")) :=
  ⟨C7_amended.1 1 1 27 0 1 5 true (fun _ => []) 10 (by decide) (Or.inl (by decide)),
   C7_amended.2 3 1 0 1 5 true (fun _ => []) 10⟩

/-! ## Lemmas about splitting and stripping -/

theorem splitPred_ne_nil (p : Char → Bool) (l : List Char) : splitPred p l ≠ [] := by
  cases l with
  | nil => simp [splitPred]
  | cons c cs =>
    simp only [splitPred]
    cases h : splitPred p cs with
    | nil => simp
    | cons r rs => by_cases hp : p c <;> simp [hp]

theorem mem_splitPred {p : Char → Bool} :
    ∀ {l f : List Char}, f ∈ splitPred p l → ∀ c ∈ f, c ∈ l ∧ p c = false := by
  intro l
  induction l with
  | nil =>
    intro f hf c hc
    simp only [splitPred, List.mem_singleton] at hf
    subst hf
    simp at hc
  | cons a t ih =>
    intro f hf c hc
    simp only [splitPred] at hf
    cases h : splitPred p t with
    | nil => exact absurd h (splitPred_ne_nil p t)
    | cons r rs =>
      rw [h] at hf
      dsimp only at hf
      by_cases hp : p a
      · rw [if_pos hp] at hf
        rcases List.mem_cons.mp hf with hf | hf
        · subst hf
          simp at hc
        · obtain ⟨h1, h2⟩ := ih (h ▸ hf) c hc
          exact ⟨List.mem_cons_of_mem _ h1, h2⟩
      · rw [if_neg hp] at hf
        rcases List.mem_cons.mp hf with hf | hf
        · subst hf
          rcases List.mem_cons.mp hc with hc | hc
          · subst hc
            exact ⟨List.mem_cons_self _ _, by simpa using hp⟩
          · obtain ⟨h1, h2⟩ := ih (h ▸ List.mem_cons_self r rs) c hc
            exact ⟨List.mem_cons_of_mem _ h1, h2⟩
        · obtain ⟨h1, h2⟩ := ih (h ▸ List.mem_cons_of_mem r hf) c hc
          exact ⟨List.mem_cons_of_mem _ h1, h2⟩

theorem pyStrip_eq_nil_iff (l : List Char) :
    pyStrip l = [] ↔ ∀ c ∈ l, pyIsSpace c = true := by
  unfold pyStrip
  rw [List.reverse_eq_nil_iff, List.dropWhile_eq_nil_iff]
  constructor
  · intro h c hc
    conv at hc => rw [← List.takeWhile_append_dropWhile (p := pyIsSpace) (l := l)]
    rcases List.mem_append.mp hc with hc | hc
    · exact List.mem_takeWhile_imp hc
    · exact h c (List.mem_reverse.mpr hc)
  · intro h x hx
    exact h x ((List.dropWhile_sublist _).subset (List.mem_reverse.mp hx))

theorem splitSep_ne_nil (sep : Char) (l : List Char) : splitSep sep l ≠ [] :=
  splitPred_ne_nil _ _

theorem parse_all_empty :
    ∀ fs : List (List Char), fs ≠ [] → (∀ f ∈ fs, pyStrip f = []) →
      parseSolFragments fs [] = .earlyWin := by
  intro fs
  induction fs with
  | nil => intro h; exact absurd rfl h
  | cons f fs ih =>
    intro _ hall
    have hf : pyStrip f = [] := hall f (List.mem_cons_self _ _)
    by_cases hfs : fs = []
    · subst hfs
      simp [parseSolFragments, hf]
    · have hrec := ih hfs fun x hx => hall x (List.mem_cons_of_mem _ hx)
      simp [parseSolFragments, hf, hfs, hrec]

/-! ## Claim C5 -/

/-- C5 (confirmed): a solution consisting only of semicolons and whitespace
(in particular the empty and whitespace-only solutions) verifies to exactly
the win predicate of the parsed level; the win predicate is false for any
state with zero pieces; hence such solutions verify false on the pieceless
level "." and on the level "A B ; b a" whose pieces stand on each other's
targets. -/
theorem C5_trivial_solutions :
    (∀ level sol : String, (∀ c ∈ sol.data, c = ';' ∨ pyIsSpace c = true) →
        verify_kuboble_solution level sol = some (is_win (mkGame level))) ∧
    (∀ g : KubobleGame, g.pieces = [] → is_win g = false) ∧
    verify_kuboble_solution "." ";;" = some false ∧
    verify_kuboble_solution "A B ; b a" "" = some false := by
  refine ⟨?_, ?_, by decide, by decide⟩
  · intro level sol hall
    by_cases h0 : sol.data = [] ∨ pyStrip sol.data = []
    · simp only [verify_kuboble_solution]
      rw [if_pos h0]
    · simp only [verify_kuboble_solution]
      rw [if_neg h0]
      have hfr : ∀ f ∈ splitSep ';' sol.data, pyStrip f = [] := by
        intro f hf
        rw [pyStrip_eq_nil_iff]
        intro c hc
        obtain ⟨hcl, hcp⟩ := mem_splitPred hf c hc
        rcases hall c hcl with hsemi | hsp
        · subst hsemi
          simp at hcp
        · exact hsp
      rw [parse_all_empty _ (splitSep_ne_nil ';' sol.data) hfr]
  · intro g hg
    simp [is_win, hg]

/-- Witness for C5 at the level "A ." and the delimiter-and-space-only
solution " ; ". -/
theorem C5_witness :
    verify_kuboble_solution "A ." " ; " = some (is_win (mkGame "A .")) :=
  C5_trivial_solutions.1 "A ." " ; " (by decide)

/-! ## The slide loop: specification of slideFrom -/

/-- The cell test of the slide loop: on the board, not an obstacle in the
cached grid, not occupied by a piece other than `p`. -/
def freeCellB (g : KubobleGame) (p : Char) (pos : Pos) : Bool :=
  inBoard g.height g.width pos &&
    !(gridGet g.grid pos.1 pos.2 == 'X') && !(otherPieceAt g.pieces p pos)

/-- The cell `n` steps from `cur` in direction `d`. -/
def offset (cur d : Pos) (n : Nat) : Pos :=
  (cur.1 + (n : Int) * d.1, cur.2 + (n : Int) * d.2)

theorem offset_zero (cur d : Pos) : offset cur d 0 = cur := by
  simp [offset]

theorem offset_one (cur d : Pos) : offset cur d 1 = stepPos cur d := by
  simp [offset, stepPos]

theorem offset_step (cur d : Pos) (n : Nat) :
    offset (stepPos cur d) d n = offset cur d (n + 1) := by
  unfold offset stepPos
  simp only [Prod.mk.injEq]
  constructor <;> (push_cast; ring)

theorem slideFrom_succ (g : KubobleGame) (p : Char) (cur d : Pos) (fuel : Nat) :
    slideFrom g p cur d (fuel + 1) =
      if freeCellB g p (stepPos cur d) = true
      then slideFrom g p (stepPos cur d) d fuel else cur := by
  simp only [slideFrom, freeCellB]
  by_cases h1 : inBoard g.height g.width (stepPos cur d) <;>
    by_cases h2 : gridGet g.grid (stepPos cur d).1 (stepPos cur d).2 = 'X' <;>
      by_cases h3 : otherPieceAt g.pieces p (stepPos cur d) <;>
        simp [h1, h2, h3]

/-- How much fuel the slide loop needs from `cur` in direction `d`: the
distance to the board edge it is marching toward. -/
def slideNeed (h w : Nat) (d cur : Pos) : Nat :=
  (if d.1 < 0 then cur.1 + 1
   else if 0 < d.1 then (h : Int) - cur.1
   else if d.2 < 0 then cur.2 + 1
   else (w : Int) - cur.2).toNat

/-- Full characterisation of the slide loop, given enough fuel: it lands
`n ≥ 0` cells away, every traversed cell (steps 1..n) passes the free-cell
test, and the cell one step beyond fails it. -/
theorem slideFrom_spec (g : KubobleGame) (p : Char) (d : Pos)
    (hd : d = (-1, 0) ∨ d = (1, 0) ∨ d = (0, -1) ∨ d = (0, 1)) :
    ∀ fuel cur, slideNeed g.height g.width d cur ≤ fuel →
      ∃ n : Nat, slideFrom g p cur d fuel = offset cur d n ∧
        (∀ k : Nat, 1 ≤ k → k ≤ n → freeCellB g p (offset cur d k) = true) ∧
        freeCellB g p (offset cur d (n + 1)) = false := by
  intro fuel
  induction fuel with
  | zero =>
    intro cur hfuel
    refine ⟨0, by simp [slideFrom, offset_zero], by omega, ?_⟩
    have hib : inBoard g.height g.width (offset cur d 1) = false := by
      rcases hd with rfl | rfl | rfl | rfl <;>
        (simp only [slideNeed] at hfuel
         simp only [inBoard, offset, Bool.and_eq_false_iff, decide_eq_false_iff_not,
           not_le, not_lt]
         omega)
    simp [freeCellB, hib]
  | succ fuel ih =>
    intro cur hfuel
    rw [slideFrom_succ]
    by_cases hfree : freeCellB g p (stepPos cur d) = true
    · rw [if_pos hfree]
      have hib : inBoard g.height g.width (stepPos cur d) = true := by
        simp only [freeCellB, Bool.and_eq_true] at hfree
        exact hfree.1.1
      have hneed : slideNeed g.height g.width d (stepPos cur d) ≤ fuel := by
        rcases hd with rfl | rfl | rfl | rfl <;>
          (simp only [inBoard, stepPos, Bool.and_eq_true, decide_eq_true_eq] at hib
           simp only [slideNeed, stepPos] at hfuel ⊢
           omega)
      obtain ⟨n, h1, h2, h3⟩ := ih (stepPos cur d) hneed
      refine ⟨n + 1, ?_, ?_, ?_⟩
      · rw [h1, offset_step]
      · intro k hk1 hk2
        match k, hk1 with
        | 1, _ => rw [offset_one]; exact hfree
        | (j + 2), _ =>
          rw [show j + 2 = (j + 1) + 1 by rfl, ← offset_step]
          exact h2 (j + 1) (by omega) (by omega)
      · rw [show n + 1 + 1 = (n + 1) + 1 by rfl, ← offset_step]
        exact h3
    · rw [if_neg hfree]
      refine ⟨0, offset_zero cur d |>.symm ▸ rfl, by omega, ?_⟩
      rw [offset_one]
      simpa using hfree

/-! ## Membership in get_possible_moves -/

theorem of_mem_get_possible_moves {g : KubobleGame} {m : Char × Pos × String}
    (hm : m ∈ get_possible_moves g) :
    ∃ (rc : Pos) (dd : Int × Int × String), (m.1, rc) ∈ g.pieces ∧ dd ∈ dirList ∧
      m.2.2 = dd.2.2 ∧
      freeCellB g m.1 (stepPos rc (dd.1, dd.2.1)) = true ∧
      m.2.1 = slideFrom g m.1 rc (dd.1, dd.2.1) (g.height + g.width + 2) ∧
      m.2.1 ≠ rc := by
  unfold get_possible_moves at hm
  rw [List.mem_flatten] at hm
  obtain ⟨inner, hinner, hmem⟩ := hm
  rw [List.mem_map] at hinner
  obtain ⟨pr, hpr, hinner⟩ := hinner
  subst hinner
  rw [List.mem_filterMap] at hmem
  obtain ⟨dd, hdd, heq⟩ := hmem
  dsimp only at heq
  by_cases h1 : inBoard g.height g.width (stepPos pr.2 (dd.1, dd.2.1))
  · rw [if_neg (by simpa using h1)] at heq
    by_cases h2 : gridGet g.grid (stepPos pr.2 (dd.1, dd.2.1)).1
        (stepPos pr.2 (dd.1, dd.2.1)).2 = 'X'
    · rw [if_pos h2] at heq
      exact absurd heq (by simp)
    · rw [if_neg h2] at heq
      by_cases h3 : otherPieceAt g.pieces pr.1 (stepPos pr.2 (dd.1, dd.2.1)) = true
      · rw [if_pos h3] at heq
        exact absurd heq (by simp)
      · rw [if_neg h3] at heq
        by_cases h4 : slideFrom g pr.1 pr.2 (dd.1, dd.2.1) (g.height + g.width + 2) ≠ pr.2
        · rw [if_pos h4] at heq
          obtain rfl := (Option.some_inj.mp heq).symm
          refine ⟨pr.2, dd, hpr, hdd, rfl, ?_, rfl, h4⟩
          simp [freeCellB, h1, h2, h3]
        · rw [if_neg h4] at heq
          exact absurd heq (by simp)
  · rw [if_pos (by simpa using h1)] at heq
    exact absurd heq (by simp)

theorem dictGet_of_mem_nodup {d : List (Char × Pos)} {k : Char} {v : Pos}
    (hmem : (k, v) ∈ d) (hnd : (d.map Prod.fst).Nodup) : dictGet d k = some v := by
  induction d with
  | nil => simp at hmem
  | cons e t ih =>
    rcases List.mem_cons.mp hmem with h | h
    · subst h
      simp [dictGet]
    · have hk : e.1 ≠ k := by
        intro hek
        have : k ∈ t.map Prod.fst := List.mem_map.mpr ⟨(k, v), h, rfl⟩
        rw [List.map_cons, List.nodup_cons] at hnd
        exact hnd.1 (hek ▸ this)
      rw [List.map_cons, List.nodup_cons] at hnd
      simp [dictGet, hk, ih h hnd.2]

/-! ## Claim C2 -/

/-- C2 (confirmed): every move (p, land, dir) emitted by get_possible_moves
(on a state with distinct piece keys) starts at p's position rc, moves n ≥ 1
cells in the unit direction d named by dir, lands at a cell different from
rc, every cell from the one adjacent to rc up to and including the landing
cell is on the board, not an obstacle ('X' in the grid), and not occupied by
another piece; and the cell one step beyond the landing cell is off the
board, an obstacle, or occupied by another piece — the slide is maximal. -/
theorem C2_slide_physics (g : KubobleGame) (p : Char) (land : Pos) (dir : String)
    (hnodup : (g.pieces.map Prod.fst).Nodup)
    (hm : (p, land, dir) ∈ get_possible_moves g) :
    ∃ (rc d : Pos) (n : Nat),
      dictGet g.pieces p = some rc ∧
      ((d = (-1, 0) ∧ dir = "up") ∨ (d = (1, 0) ∧ dir = "down") ∨
       (d = (0, -1) ∧ dir = "left") ∨ (d = (0, 1) ∧ dir = "right")) ∧
      1 ≤ n ∧ land = offset rc d n ∧ land ≠ rc ∧
      (∀ k : Nat, 1 ≤ k → k ≤ n →
        inBoard g.height g.width (offset rc d k) = true ∧
        gridGet g.grid (offset rc d k).1 (offset rc d k).2 ≠ 'X' ∧
        otherPieceAt g.pieces p (offset rc d k) = false) ∧
      (inBoard g.height g.width (offset rc d (n + 1)) = false ∨
       gridGet g.grid (offset rc d (n + 1)).1 (offset rc d (n + 1)).2 = 'X' ∨
       otherPieceAt g.pieces p (offset rc d (n + 1)) = true) := by
  obtain ⟨rc, dd, hmem, hdd, hdir, hfree, hland, hne⟩ := of_mem_get_possible_moves hm
  dsimp only at hmem hdir hfree hland hne
  have hdd' : dd = ((-1 : Int), (0 : Int), "up") ∨ dd = (1, 0, "down") ∨
      dd = (0, -1, "left") ∨ dd = (0, 1, "right") := by
    simpa [dirList] using hdd
  have hd4 : (dd.1, dd.2.1) = ((-1 : Int), (0 : Int)) ∨ (dd.1, dd.2.1) = ((1 : Int), (0 : Int)) ∨
      (dd.1, dd.2.1) = ((0 : Int), (-1 : Int)) ∨ (dd.1, dd.2.1) = ((0 : Int), (1 : Int)) := by
    rcases hdd' with rfl | rfl | rfl | rfl <;> simp
  have hfuel : slideNeed g.height g.width (dd.1, dd.2.1) rc ≤ g.height + g.width + 2 := by
    have hib : inBoard g.height g.width (stepPos rc (dd.1, dd.2.1)) = true := by
      simp only [freeCellB, Bool.and_eq_true] at hfree
      exact hfree.1.1
    rcases hd4 with h | h | h | h <;>
      (rw [h] at hib ⊢
       simp only [inBoard, stepPos, Bool.and_eq_true, decide_eq_true_eq] at hib
       simp only [slideNeed]
       omega)
  obtain ⟨n, h1, h2, h3⟩ := slideFrom_spec g p (dd.1, dd.2.1) hd4
    (g.height + g.width + 2) rc hfuel
  have hn1 : 1 ≤ n := by
    rcases Nat.eq_zero_or_pos n with h | h
    · subst h
      rw [h1, offset_zero] at hland
      exact absurd hland hne
    · exact h
  refine ⟨rc, (dd.1, dd.2.1), n, dictGet_of_mem_nodup hmem hnodup, ?_, hn1,
    by rw [hland, h1], by rw [hland, h1] at hne ⊢; exact hne, ?_, ?_⟩
  · rcases hdd' with rfl | rfl | rfl | rfl <;> (simp at hdir ⊢; tauto)
  · intro k hk1 hk2
    have := h2 k hk1 hk2
    simp only [freeCellB, Bool.and_eq_true, beq_iff_eq, Bool.not_eq_true',
      Bool.not_eq_eq_eq_not, Bool.not_true, beq_eq_false_iff_ne] at this
    exact ⟨this.1.1, this.1.2, this.2⟩
  · have := h3
    simp only [freeCellB, Bool.and_eq_false_iff, beq_iff_eq, Bool.not_eq_false',
      beq_eq_false_iff_ne, Bool.not_eq_false] at this
    rcases this with (h | h) | h
    · exact Or.inl h
    · exact Or.inr (Or.inl (by simpa using h))
    · exact Or.inr (Or.inr h)

/-- Witness for C2 at the level "A . ; . a" and its move A down. -/
theorem C2_witness :
    ∃ (rc d : Pos) (n : Nat),
      dictGet (mkGame "A. ;.a").pieces 'A' = some rc ∧
      ((d = (-1, 0) ∧ "down" = "up") ∨ (d = (1, 0) ∧ "down" = "down") ∨
       (d = (0, -1) ∧ "down" = "left") ∨ (d = (0, 1) ∧ "down" = "right")) ∧
      1 ≤ n ∧ ((1 : Int), (0 : Int)) = offset rc d n := by
  obtain ⟨rc, d, n, ha, hb, hc, hd, -⟩ :=
    C2_slide_physics (mkGame "A. ;.a") 'A' (1, 0) "down" (by decide) (by decide)
  exact ⟨rc, d, n, ha, hb, hc, hd⟩

/-! ## State well-formedness: the Good invariant

A well-formed search state consists of an obstacle skeleton `B` (a
rectangular grid of 'X' and '.') plus a pieces dict with distinct keys at
distinct in-bounds positions avoiding the 'X' cells, with the cached grid
equal to the skeleton overlaid with the piece characters. Parsed states are
Good and get_possible_moves/apply_move preserve Goodness with the same
skeleton. -/

/-- The keys of an association list. -/
def keysOf (d : List (Char × Pos)) : List Char := d.map Prod.fst

/-- The last entry of `pieces` at position `pos` (the overlay writes in list
order, so the last write wins). -/
def pieceAt : List (Char × Pos) → Pos → Option Char
  | [], _ => none
  | e :: t, pos =>
    match pieceAt t pos with
    | some p => some p
    | none => if e.2 = pos then some e.1 else none

/-- Entries at pairwise distinct positions. -/
def DistinctPos (pieces : List (Char × Pos)) : Prop :=
  ∀ e1 ∈ pieces, ∀ e2 ∈ pieces, e1.1 ≠ e2.1 → e1.2 ≠ e2.2

/-- A rectangular h × w obstacle skeleton of 'X' and '.' cells. -/
def BaseOk (B : List (List Char)) (h w : Nat) : Prop :=
  B.length = h ∧ (∀ row ∈ B, row.length = w) ∧
    ∀ row ∈ B, ∀ ch ∈ row, ch = 'X' ∨ ch = '.'

/-- The state invariant of the search. -/
def GoodState (g : KubobleGame) (B : List (List Char)) : Prop :=
  BaseOk B g.height g.width ∧
  (keysOf g.pieces).Nodup ∧
  (∀ k ∈ keysOf g.pieces, 'A' ≤ k ∧ k ≤ 'Z' ∧ k ≠ 'X') ∧
  (∀ e ∈ g.pieces, inBoard g.height g.width e.2 = true) ∧
  DistinctPos g.pieces ∧
  (∀ e ∈ g.pieces, cellAt B e.2.1.toNat e.2.2.toNat ≠ 'X') ∧
  g.grid = overlayPieces B g.height g.width g.pieces

theorem inBoard_iff {h w : Nat} {pos : Pos} :
    inBoard h w pos = true ↔
      0 ≤ pos.1 ∧ pos.1 < (h : Int) ∧ 0 ≤ pos.2 ∧ pos.2 < (w : Int) := by
  simp [inBoard, and_assoc]

theorem otherPieceAt_eq_false_iff {P : List (Char × Pos)} {p : Char} {pos : Pos} :
    otherPieceAt P p pos = false ↔ ∀ e ∈ P, e.1 = p ∨ e.2 ≠ pos := by
  simp only [otherPieceAt, List.any_eq_false, decide_eq_true_eq]
  constructor
  · intro h e he
    have := h e he
    tauto
  · intro h e he
    have := h e he
    tauto

theorem toNat_pair_ne {a b : Pos} (ha : 0 ≤ a.1 ∧ 0 ≤ a.2) (hb : 0 ≤ b.1 ∧ 0 ≤ b.2)
    (h : a ≠ b) : a.1.toNat ≠ b.1.toNat ∨ a.2.toNat ≠ b.2.toNat := by
  by_contra hcon
  push_neg at hcon
  apply h
  have h1 : a.1 = b.1 := by omega
  have h2 : a.2 = b.2 := by omega
  exact Prod.ext h1 h2

theorem mem_of_dictGet {α : Type} {d : List (Char × α)} {k : Char} {v : α}
    (h : dictGet d k = some v) : (k, v) ∈ d := by
  induction d with
  | nil => simp [dictGet] at h
  | cons e t ih =>
    by_cases he : e.1 = k
    · simp only [dictGet, if_pos he] at h
      obtain rfl := Option.some_inj.mp h
      rw [← he]
      exact List.mem_cons_self _ _
    · simp only [dictGet, if_neg he] at h
      exact List.mem_cons_of_mem _ (ih h)

theorem mem_entry_unique {d : List (Char × Pos)} {k : Char} {v1 v2 : Pos}
    (hnd : (keysOf d).Nodup) (h1 : (k, v1) ∈ d) (h2 : (k, v2) ∈ d) : v1 = v2 := by
  have e1 := dictGet_of_mem_nodup h1 hnd
  have e2 := dictGet_of_mem_nodup h2 hnd
  rw [e1] at e2
  exact Option.some_inj.mp e2

theorem mem_dictSet {α : Type} {d : List (Char × α)} {k : Char} {v : α} :
    ∀ e ∈ dictSet d k v, e ∈ d ∨ e = (k, v) := by
  induction d with
  | nil => simp [dictSet]
  | cons a t ih =>
    intro e he
    by_cases ha : a.1 = k
    · rw [dictSet, if_pos ha] at he
      rcases List.mem_cons.mp he with h | h
      · right; exact h
      · left; exact List.mem_cons_of_mem _ h
    · rw [dictSet, if_neg ha] at he
      rcases List.mem_cons.mp he with h | h
      · left; rw [h]; exact List.mem_cons_self _ _
      · rcases ih e h with h' | h'
        · left; exact List.mem_cons_of_mem _ h'
        · right; exact h'

theorem pieceAt_cons (e : Char × Pos) (t : List (Char × Pos)) (pos : Pos) :
    pieceAt (e :: t) pos =
      match pieceAt t pos with
      | some p => some p
      | none => if e.2 = pos then some e.1 else none := rfl

theorem pieceAt_eq_none_iff {l : List (Char × Pos)} {pos : Pos} :
    pieceAt l pos = none ↔ ∀ e ∈ l, e.2 ≠ pos := by
  induction l with
  | nil => simp [pieceAt]
  | cons e t ih =>
    constructor
    · intro h e' he'
      rw [pieceAt_cons] at h
      cases hp : pieceAt t pos with
      | some q =>
        rw [hp] at h
        exact absurd h (by simp)
      | none =>
        rw [hp] at h
        by_cases hepos : e.2 = pos
        · rw [if_pos hepos] at h
          exact absurd h (by simp)
        · rcases List.mem_cons.mp he' with h' | h'
          · rw [h']
            exact hepos
          · exact (ih.mp hp) e' h'
    · intro h
      have hp : pieceAt t pos = none :=
        ih.mpr fun e' he' => h e' (List.mem_cons_of_mem _ he')
      simp only [pieceAt_cons, hp]
      rw [if_neg (h e (List.mem_cons_self _ _))]

theorem pieceAt_mem {l : List (Char × Pos)} {pos : Pos} {p : Char}
    (h : pieceAt l pos = some p) : (p, pos) ∈ l := by
  induction l with
  | nil => simp [pieceAt] at h
  | cons e t ih =>
    simp only [pieceAt] at h
    cases hp : pieceAt t pos with
    | some q =>
      rw [hp] at h
      obtain rfl := Option.some_inj.mp h
      exact List.mem_cons_of_mem _ (ih hp)
    | none =>
      rw [hp] at h
      by_cases he : e.2 = pos
      · rw [if_pos he] at h
        obtain rfl := Option.some_inj.mp h
        rw [← he]
        exact List.mem_cons_self _ _
      · rw [if_neg he] at h
        exact absurd h (by simp)

theorem pieceAt_of_mem_unique {l : List (Char × Pos)} {pos : Pos} {k : Char}
    (hnd : (keysOf l).Nodup) (hdist : DistinctPos l) (hmem : (k, pos) ∈ l) :
    pieceAt l pos = some k := by
  induction l with
  | nil => simp at hmem
  | cons e t ih =>
    have hndt : (keysOf t).Nodup := by
      rw [keysOf, List.map_cons, List.nodup_cons] at hnd
      exact hnd.2
    have hdistt : DistinctPos t := fun a ha b hb =>
      hdist a (List.mem_cons_of_mem _ ha) b (List.mem_cons_of_mem _ hb)
    rcases List.mem_cons.mp hmem with h | h
    · have hek : e.1 = k := by rw [← h]
      have hknot : k ∉ keysOf t := by
        rw [keysOf, List.map_cons, List.nodup_cons] at hnd
        exact hek ▸ hnd.1
      have hnone : pieceAt t pos = none := by
        rw [pieceAt_eq_none_iff]
        intro e' he' hpos
        by_cases hk : e'.1 = k
        · exact hknot (hk ▸ List.mem_map.mpr ⟨e', he', rfl⟩)
        · exact absurd hpos (hdist e' (List.mem_cons_of_mem _ he') (k, pos) hmem hk)
      simp only [pieceAt_cons, hnone]
      have he2 : e.2 = pos := by rw [← h]
      rw [if_pos he2, hek]
    · simp only [pieceAt_cons, ih hndt hdistt h]

theorem pieceAt_dictSet (d : List (Char × Pos)) (k : Char) (old new : Pos)
    (hnd : (keysOf d).Nodup) (hk : dictGet d k = some old)
    (hfree : ∀ e ∈ d, e.1 ≠ k → e.2 ≠ new) (hdist : DistinctPos d) :
    pieceAt (dictSet d k new) new = some k ∧
    (old ≠ new → pieceAt (dictSet d k new) old = none) ∧
    (∀ pos, pos ≠ old → pos ≠ new → pieceAt (dictSet d k new) pos = pieceAt d pos) := by
  induction d with
  | nil => simp [dictGet] at hk
  | cons e t ih =>
    have hndt : (keysOf t).Nodup := by
      rw [keysOf, List.map_cons, List.nodup_cons] at hnd
      exact hnd.2
    have hdistt : DistinctPos t := fun a ha b hb =>
      hdist a (List.mem_cons_of_mem _ ha) b (List.mem_cons_of_mem _ hb)
    by_cases he : e.1 = k
    · have heo : e.2 = old := by simpa [dictGet, he] using hk
      have hkt : k ∉ keysOf t := by
        rw [keysOf, List.map_cons, List.nodup_cons] at hnd
        rw [← he]
        exact hnd.1
      have htnew : ∀ e' ∈ t, e'.2 ≠ new := by
        intro e' he'
        apply hfree e' (List.mem_cons_of_mem _ he')
        intro hke
        exact hkt (hke ▸ List.mem_map.mpr ⟨e', he', rfl⟩)
      have htold : ∀ e' ∈ t, e'.2 ≠ old := by
        intro e' he'
        have hke : e'.1 ≠ k := by
          intro hke
          exact hkt (hke ▸ List.mem_map.mpr ⟨e', he', rfl⟩)
        have := hdist e' (List.mem_cons_of_mem _ he') e (List.mem_cons_self _ _)
          (by rw [he]; exact hke)
        rw [heo] at this
        exact this
      rw [dictSet, if_pos he]
      refine ⟨?_, ?_, ?_⟩
      · have hnone : pieceAt t new = none := pieceAt_eq_none_iff.mpr htnew
        simp [pieceAt, hnone]
      · intro hon
        have hnone : pieceAt t old = none := pieceAt_eq_none_iff.mpr htold
        simp only [pieceAt, hnone]
        rw [if_neg (by simpa using (Ne.symm hon))]
      · intro pos hpo hpn
        simp only [pieceAt]
        cases hp : pieceAt t pos with
        | some q => rfl
        | none =>
          rw [if_neg (by simpa using (Ne.symm hpn)),
            if_neg (by rw [heo]; simpa using (Ne.symm hpo))]
    · have hk' : dictGet t k = some old := by simpa [dictGet, he] using hk
      have hfree' : ∀ e' ∈ t, e'.1 ≠ k → e'.2 ≠ new := fun e' he' =>
        hfree e' (List.mem_cons_of_mem _ he')
      obtain ⟨i1, i2, i3⟩ := ih hndt hk' hfree' hdistt
      have hene : e.2 ≠ new := hfree e (List.mem_cons_self _ _) he
      have heold : e.2 ≠ old := by
        have hmem : (k, old) ∈ t := mem_of_dictGet hk'
        exact hdist e (List.mem_cons_self _ _) (k, old) (List.mem_cons_of_mem _ hmem) he
      rw [dictSet, if_neg he]
      refine ⟨?_, ?_, ?_⟩
      · simp [pieceAt, i1]
      · intro hon
        simp only [pieceAt, i2 hon]
        rw [if_neg heold]
      · intro pos hpo hpn
        simp only [pieceAt, i3 pos hpo hpn]

theorem overlayPieces_cons (B : List (List Char)) (h w : Nat) (e : Char × Pos)
    (t : List (Char × Pos)) :
    overlayPieces B h w (e :: t) =
      overlayPieces
        (if 0 ≤ e.2.1 ∧ e.2.1 < (h : Int) ∧ 0 ≤ e.2.2 ∧ e.2.2 < (w : Int)
         then gridSetNat B e.2.1.toNat e.2.2.toNat e.1 else B) h w t := rfl

theorem overlayPieces_length (B : List (List Char)) (h w : Nat)
    (pieces : List (Char × Pos)) :
    (overlayPieces B h w pieces).length = B.length := by
  induction pieces generalizing B with
  | nil => rfl
  | cons e t ih =>
    rw [overlayPieces_cons, ih]
    split
    · rw [gridSetNat_length]
    · rfl

theorem overlayPieces_rows (B : List (List Char)) (h w w' : Nat)
    (pieces : List (Char × Pos)) (hr : ∀ row ∈ B, row.length = w') :
    ∀ row ∈ overlayPieces B h w pieces, row.length = w' := by
  induction pieces generalizing B with
  | nil => exact hr
  | cons e t ih =>
    rw [overlayPieces_cons]
    apply ih
    split
    · exact gridSetNat_rows _ _ _ _ _ hr
    · exact hr

theorem cellAt_overlayPieces (h w : Nat) (pieces : List (Char × Pos)) :
    ∀ B : List (List Char), B.length = h → (∀ row ∈ B, row.length = w) →
      ∀ r c : Nat, r < h → c < w →
        cellAt (overlayPieces B h w pieces) r c =
          (pieceAt pieces ((r : Int), (c : Int))).getD (cellAt B r c) := by
  induction pieces with
  | nil => intro B hl hr r c hrh hcw; simp [overlayPieces, pieceAt]
  | cons e t ih =>
    intro B hl hr r c hrh hcw
    rw [overlayPieces_cons]
    by_cases hg : 0 ≤ e.2.1 ∧ e.2.1 < (h : Int) ∧ 0 ≤ e.2.2 ∧ e.2.2 < (w : Int)
    · rw [if_pos hg]
      rw [ih _ (by rw [gridSetNat_length]; exact hl) (gridSetNat_rows _ _ _ _ _ hr)
        r c hrh hcw]
      cases hp : pieceAt t ((r : Int), (c : Int)) with
      | some q => simp [pieceAt, hp]
      | none =>
        simp only [pieceAt, hp]
        by_cases he : e.2 = ((r : Int), (c : Int))
        · rw [if_pos he]
          have h1 : e.2.1.toNat = r := by rw [he]; simp
          have h2 : e.2.2.toNat = c := by rw [he]; simp
          rw [h1, h2, cellAt_gridSetNat_self B r c e.1 (by omega)
            (by rw [hr _ (getD_mem_of_lt _ _ _ (by omega))]; omega)]
          rfl
        · have hne : e.2.1.toNat ≠ r ∨ e.2.2.toNat ≠ c := by
            by_contra hcon
            push_neg at hcon
            apply he
            have : e.2.1 = (r : Int) ∧ e.2.2 = (c : Int) := by omega
            exact Prod.ext this.1 this.2
          rw [cellAt_gridSetNat_ne _ _ _ _ _ _ (by tauto)]
          rw [if_neg he]
    · rw [if_neg hg]
      rw [ih B hl hr r c hrh hcw]
      cases hp : pieceAt t ((r : Int), (c : Int)) with
      | some q => simp [pieceAt, hp]
      | none =>
        simp only [pieceAt, hp]
        have he : e.2 ≠ ((r : Int), (c : Int)) := by
          intro hcon
          apply hg
          rw [hcon]
          refine ⟨by omega, by omega, by omega, by omega⟩
        rw [if_neg he]

theorem cellAt_overlay_pos (B : List (List Char)) (h w : Nat)
    (pieces : List (Char × Pos)) (hl : B.length = h) (hr : ∀ row ∈ B, row.length = w)
    (pos : Pos) (hpos : inBoard h w pos = true) :
    cellAt (overlayPieces B h w pieces) pos.1.toNat pos.2.toNat =
      (pieceAt pieces pos).getD (cellAt B pos.1.toNat pos.2.toNat) := by
  obtain ⟨h1, h2, h3, h4⟩ := inBoard_iff.mp hpos
  have e1 : ((pos.1.toNat : Int), (pos.2.toNat : Int)) = pos := by
    have : (pos.1.toNat : Int) = pos.1 := Int.toNat_of_nonneg h1
    have : (pos.2.toNat : Int) = pos.2 := Int.toNat_of_nonneg h3
    exact Prod.ext (by omega) (by omega)
  rw [cellAt_overlayPieces h w pieces B hl hr pos.1.toNat pos.2.toNat
    (by omega) (by omega), e1]

theorem baseOk_cell {B : List (List Char)} {h w : Nat} (hB : BaseOk B h w)
    (r c : Nat) : cellAt B r c = 'X' ∨ cellAt B r c = '.' := by
  by_cases hr : r < B.length
  · have hrow : B.getD r [] ∈ B := getD_mem_of_lt _ _ _ hr
    by_cases hc : c < (B.getD r []).length
    · exact hB.2.2 _ hrow _ (getD_mem_of_lt _ _ _ hc)
    · right
      unfold cellAt
      rw [List.getD_eq_default (B.getD r []) '.' (by omega)]
  · right
    unfold cellAt
    rw [List.getD_eq_default B [] (by omega)]
    rfl

theorem grid_ext {G1 G2 : List (List Char)} (h w : Nat)
    (l1 : G1.length = h) (l2 : G2.length = h)
    (r1 : ∀ row ∈ G1, row.length = w) (r2 : ∀ row ∈ G2, row.length = w)
    (hc : ∀ r c : Nat, r < h → c < w → cellAt G1 r c = cellAt G2 r c) : G1 = G2 := by
  apply List.ext_getElem (by omega)
  intro i h1 h2
  apply List.ext_getElem
  · rw [r1 _ (G1.getElem_mem h1), r2 _ (G2.getElem_mem h2)]
  intro j hj1 hj2
  have hcell := hc i j (by omega) (by rw [← r1 _ (G1.getElem_mem h1)]; omega)
  unfold cellAt at hcell
  rw [List.getD_eq_getElem G1 [] h1, List.getD_eq_getElem G2 [] h2,
    List.getD_eq_getElem _ '.' hj1, List.getD_eq_getElem _ '.' hj2] at hcell
  exact hcell

theorem freeCellB_iff {g : KubobleGame} {p : Char} {pos : Pos} :
    freeCellB g p pos = true ↔
      inBoard g.height g.width pos = true ∧
      gridGet g.grid pos.1 pos.2 ≠ 'X' ∧
      otherPieceAt g.pieces p pos = false := by
  simp [freeCellB, and_assoc]

/-- A move emitted by get_possible_moves names a present piece, lands on a
free cell, and moves it. -/
theorem gpm_spec {g : KubobleGame} {p : Char} {land : Pos} {dir : String}
    (hnd : (keysOf g.pieces).Nodup) (hm : (p, land, dir) ∈ get_possible_moves g) :
    ∃ rc, dictGet g.pieces p = some rc ∧ land ≠ rc ∧ freeCellB g p land = true := by
  obtain ⟨rc, dd, hmem, hdd, hdir, hfree, hland, hne⟩ := of_mem_get_possible_moves hm
  dsimp only at hmem hdir hfree hland hne
  have hdd' : dd = ((-1 : Int), (0 : Int), "up") ∨ dd = (1, 0, "down") ∨
      dd = (0, -1, "left") ∨ dd = (0, 1, "right") := by
    simpa [dirList] using hdd
  have hd4 : (dd.1, dd.2.1) = ((-1 : Int), (0 : Int)) ∨ (dd.1, dd.2.1) = ((1 : Int), (0 : Int)) ∨
      (dd.1, dd.2.1) = ((0 : Int), (-1 : Int)) ∨ (dd.1, dd.2.1) = ((0 : Int), (1 : Int)) := by
    rcases hdd' with rfl | rfl | rfl | rfl <;> simp
  have hfuel : slideNeed g.height g.width (dd.1, dd.2.1) rc ≤ g.height + g.width + 2 := by
    have hib : inBoard g.height g.width (stepPos rc (dd.1, dd.2.1)) = true := by
      simp only [freeCellB, Bool.and_eq_true] at hfree
      exact hfree.1.1
    rcases hd4 with h | h | h | h <;>
      (rw [h] at hib ⊢
       simp only [inBoard, stepPos, Bool.and_eq_true, decide_eq_true_eq] at hib
       simp only [slideNeed]
       omega)
  obtain ⟨n, h1, h2, h3⟩ := slideFrom_spec g p (dd.1, dd.2.1) hd4
    (g.height + g.width + 2) rc hfuel
  have hn1 : 1 ≤ n := by
    rcases Nat.eq_zero_or_pos n with h | h
    · subst h
      rw [h1, offset_zero] at hland
      exact absurd hland hne
    · exact h
  refine ⟨rc, dictGet_of_mem_nodup hmem hnd, by rw [hland, h1] at hne ⊢; exact hne, ?_⟩
  rw [hland, h1]
  exact h2 n hn1 (le_refl n)

/-- get_possible_moves preserves the Good invariant through apply_move: the
move succeeds and the successor is Good with the same skeleton, targets and
dimensions, its pieces dict being the single-key update. -/
theorem good_step {g : KubobleGame} {B : List (List Char)} {p : Char} {land : Pos}
    {dir : String} (hg : GoodState g B) (hm : (p, land, dir) ∈ get_possible_moves g) :
    ∃ g', apply_move g p land = some g' ∧ GoodState g' B ∧
      g'.pieces = dictSet g.pieces p land ∧ g'.targets = g.targets ∧
      g'.width = g.width ∧ g'.height = g.height := by
  obtain ⟨hB, hnd, hrange, hinb, hdist, hnotX, hgrid⟩ := hg
  obtain ⟨rc, hget, hne, hfreeL⟩ := gpm_spec hnd hm
  have hrcmem : (p, rc) ∈ g.pieces := mem_of_dictGet hget
  obtain ⟨hlinb, hlX, hlop⟩ := freeCellB_iff.mp hfreeL
  have hBl : B.length = g.height := hB.1
  have hBr : ∀ row ∈ B, row.length = g.width := hB.2.1
  have hshape1 : g.grid.length = g.height := by
    rw [hgrid, overlayPieces_length, hBl]
  have hshape2 : ∀ row ∈ g.grid, row.length = g.width := by
    rw [hgrid]
    exact overlayPieces_rows _ _ _ _ _ hBr
  have hrcinb : inBoard g.height g.width rc = true := hinb _ hrcmem
  have happly := apply_move_spec g p rc land ⟨hshape1, hshape2⟩ hget hrcinb hlinb
  have hfreeEntries : ∀ e ∈ g.pieces, e.1 ≠ p → e.2 ≠ land := by
    intro e he hep
    rcases otherPieceAt_eq_false_iff.mp hlop e he with h | h
    · exact absurd h hep
    · exact h
  have hpa := pieceAt_dictSet g.pieces p rc land hnd hget hfreeEntries hdist
  have hpanone : pieceAt g.pieces land = none := by
    rw [pieceAt_eq_none_iff]
    intro e he hepos
    by_cases hep : e.1 = p
    · have : e = (p, rc) := by
        have h2 : e.2 = rc := by
          have := mem_entry_unique hnd (show (p, e.2) ∈ g.pieces by
            rw [← hep]; exact (by simpa using he)) hrcmem
          exact this
        calc e = (e.1, e.2) := rfl
        _ = (p, rc) := by rw [hep, h2]
      rw [this] at hepos
      simp only at hepos
      exact hne (by rw [← hepos])
    · exact absurd hepos (hfreeEntries e he hep)
  have hlandXB : cellAt B land.1.toNat land.2.toNat ≠ 'X' := by
    have := cellAt_overlay_pos B g.height g.width g.pieces hBl hBr land hlinb
    rw [hpanone] at this
    simp only [Option.getD_none] at this
    rw [gridGet_eq_cellAt, hgrid, this] at hlX
    exact hlX
  have hkeys : keysOf (dictSet g.pieces p land) = keysOf g.pieces :=
    dictSet_map_fst _ _ _ (by rw [hget]; exact fun h => Option.noConfusion h)
  refine ⟨_, happly, ⟨hB, by rw [hkeys]; exact hnd, by rw [hkeys]; exact hrange,
    ?_, ?_, ?_, ?_⟩, rfl, rfl, rfl, rfl⟩
  · intro e he
    rcases mem_dictSet e he with h | h
    · exact hinb e h
    · rw [h]
      exact hlinb
  · intro e1 he1 e2 he2 hne12
    rcases mem_dictSet e1 he1 with h1 | h1 <;> rcases mem_dictSet e2 he2 with h2 | h2
    · exact hdist e1 h1 e2 h2 hne12
    · rw [h2]
      intro hcon
      exact hfreeEntries e1 h1 (by rw [h2] at hne12; simpa using hne12) hcon
    · rw [h1]
      intro hcon
      exact hfreeEntries e2 h2 (by rw [h1] at hne12; simpa using (Ne.symm hne12)) hcon.symm
    · rw [h1, h2] at hne12
      simp at hne12
  · intro e he
    rcases mem_dictSet e he with h | h
    · exact hnotX e h
    · rw [h]
      exact hlandXB
  · -- the updated grid equals the overlay of the updated dict
    have hrcnn : 0 ≤ rc.1 ∧ 0 ≤ rc.2 := by
      obtain ⟨a, _, b, _⟩ := inBoard_iff.mp hrcinb
      exact ⟨a, b⟩
    have hlandnn : 0 ≤ land.1 ∧ 0 ≤ land.2 := by
      obtain ⟨a, _, b, _⟩ := inBoard_iff.mp hlinb
      exact ⟨a, b⟩
    apply grid_ext g.height g.width
    · rw [gridSetNat_length, gridSetNat_length, hshape1]
    · rw [overlayPieces_length, hBl]
    · exact gridSetNat_rows _ _ _ _ _ (gridSetNat_rows _ _ _ _ _ hshape2)
    · exact overlayPieces_rows _ _ _ _ _ hBr
    · intro r c hr hc
      have hrhs := cellAt_overlayPieces g.height g.width (dictSet g.pieces p land)
        B hBl hBr r c hr hc
      rw [hrhs]
      by_cases hcl : ((r : Int), (c : Int)) = land
      · have e1 : land.1.toNat = r := by rw [← hcl]; simp
        have e2 : land.2.toNat = c := by rw [← hcl]; simp
        rw [e1, e2]
        rw [cellAt_gridSetNat_self _ _ _ _ (by rw [gridSetNat_length]; omega)
          (by rw [gridSetNat_rows _ g.width _ _ _ hshape2 _
                (getD_mem_of_lt _ _ _ (by rw [gridSetNat_length]; omega))]; omega)]
        rw [hcl, hpa.1]
        rfl
      · have hclN : land.1.toNat ≠ r ∨ land.2.toNat ≠ c := by
          rcases toNat_pair_ne hlandnn ⟨by omega, by omega⟩
            (show land ≠ ((r : Int), (c : Int)) from fun h => hcl h.symm) with h | h
          · left; simpa using h
          · right; simpa using h
        rw [cellAt_gridSetNat_ne _ _ _ _ _ _ (by tauto)]
        by_cases hco : ((r : Int), (c : Int)) = rc
        · have e1 : rc.1.toNat = r := by rw [← hco]; simp
          have e2 : rc.2.toNat = c := by rw [← hco]; simp
          rw [e1, e2]
          rw [cellAt_gridSetNat_self _ _ _ _ (by omega)
            (by rw [hshape2 _ (getD_mem_of_lt _ _ _ (by omega))]; omega)]
          rw [hco, hpa.2.1 (Ne.symm hne), Option.getD_none]
          have hbc := baseOk_cell hB r c
          have hBrc : cellAt B r c ≠ 'X' := by
            have := hnotX _ hrcmem
            rw [← hco] at this
            simpa using this
          rcases hbc with h | h
          · exact absurd h hBrc
          · rw [h]
        · have hcoN : rc.1.toNat ≠ r ∨ rc.2.toNat ≠ c := by
            rcases toNat_pair_ne hrcnn ⟨by omega, by omega⟩
              (show rc ≠ ((r : Int), (c : Int)) from fun h => hco h.symm) with h | h
            · left; simpa using h
            · right; simpa using h
          rw [cellAt_gridSetNat_ne _ _ _ _ _ _ (by tauto)]
          rw [hpa.2.2 ((r : Int), (c : Int)) hco hcl]
          rw [hgrid]
          exact cellAt_overlayPieces g.height g.width g.pieces B hBl hBr r c hr hc

/-! ## The parser establishes the Good invariant -/

theorem foldl_preserve {α β : Type} (P : β → Prop) (f : β → α → β) :
    ∀ (l : List α) (init : β), P init → (∀ b a, a ∈ l → P b → P (f b a)) →
      P (l.foldl f init) := by
  intro l
  induction l with
  | nil => intro init h _; exact h
  | cons a t ih =>
    intro init h hstep
    exact ih (f init a) (hstep init a (List.mem_cons_self _ _) h)
      fun b x hx hb => hstep b x (List.mem_cons_of_mem _ hx) hb

theorem classifyToken_piece_range {tok : List Char} {p : Char}
    (h : (classifyToken tok).1 = some p) : 'A' ≤ p ∧ p ≤ 'Z' := by
  unfold classifyToken at h
  by_cases hx : tok = ['X'] ∨ tok = ['.']
  · rw [if_pos hx] at h
    simp at h
  · rw [if_neg hx] at h
    match tok, h with
    | [ch], h =>
      dsimp only at h
      by_cases hlo : 'a' ≤ ch ∧ ch ≤ 'z'
      · rw [if_pos hlo] at h
        simp at h
      · rw [if_neg hlo] at h
        by_cases hup : 'A' ≤ ch ∧ ch ≤ 'Z'
        · rw [if_pos hup] at h
          obtain rfl := Option.some_inj.mp h
          exact hup
        · rw [if_neg hup] at h
          simp at h
    | [], h => simp at h
    | c1 :: c2 :: rest, h =>
      revert h
      have : ∀ (l : List Char) (init : Option Char × Option Char),
          (∀ q, init.1 = some q → 'A' ≤ q ∧ q ≤ 'Z') →
          ∀ q, (l.foldl (fun pt sub =>
            if 'a' ≤ sub ∧ sub ≤ 'z' then (pt.1, some sub)
            else if 'A' ≤ sub ∧ sub ≤ 'Z' then (some sub, pt.2)
            else pt) init).1 = some q → 'A' ≤ q ∧ q ≤ 'Z' := by
        intro l
        induction l with
        | nil => intro init h q hq; exact h q hq
        | cons s t ih =>
          intro init h q hq
          rw [List.foldl_cons] at hq
          apply ih _ _ q hq
          intro q' hq'
          by_cases h1 : 'a' ≤ s ∧ s ≤ 'z'
          · rw [if_pos h1] at hq'
            exact h q' hq'
          · rw [if_neg h1] at hq'
            by_cases h2 : 'A' ≤ s ∧ s ≤ 'Z'
            · rw [if_pos h2] at hq'
              obtain rfl := Option.some_inj.mp hq'
              exact h2
            · rw [if_neg h2] at hq'
              exact h q' hq'
      intro h
      dsimp only at h
      exact this (c1 :: c2 :: rest) (none, none) (by simp) p h

theorem keysOf_dictSet {α : Type} (d : List (Char × α)) (k : Char) (v : α) :
    (dictSet d k v).map Prod.fst =
      if k ∈ d.map Prod.fst then d.map Prod.fst else d.map Prod.fst ++ [k] := by
  induction d with
  | nil => simp [dictSet]
  | cons e t ih =>
    by_cases he : e.1 = k
    · rw [dictSet, if_pos he]
      simp [he]
    · rw [dictSet, if_neg he]
      by_cases hk : k ∈ t.map Prod.fst
      · simp only [List.map_cons, ih, if_pos hk]
        rw [if_pos (List.mem_cons_of_mem _ hk)]
      · simp only [List.map_cons, ih, if_neg hk]
        rw [if_neg (by
          intro hcon
          rcases List.mem_cons.mp hcon with h | h
          · exact he h.symm
          · exact hk h)]
        simp

theorem nodup_keys_dictSet {α : Type} {d : List (Char × α)} (k : Char) (v : α)
    (hnd : (d.map Prod.fst).Nodup) : ((dictSet d k v).map Prod.fst).Nodup := by
  rw [keysOf_dictSet]
  by_cases hk : k ∈ d.map Prod.fst
  · rw [if_pos hk]
    exact hnd
  · rw [if_neg hk]
    rw [List.nodup_append]
    refine ⟨hnd, List.nodup_singleton k, ?_⟩
    intro a ha hb
    simp only [List.mem_singleton] at hb
    subst hb
    exact hk ha

theorem mem_dictDel_iff {α : Type} {d : List (Char × α)} {k : Char} {e : Char × α} :
    e ∈ dictDel d k ↔ e ∈ d ∧ e.1 ≠ k := by
  unfold dictDel
  rw [List.mem_filter]
  simp

theorem nodup_keys_dictDel {α : Type} {d : List (Char × α)} (k : Char)
    (hnd : (d.map Prod.fst).Nodup) : ((dictDel d k).map Prod.fst).Nodup :=
  ((List.filter_sublist d).map Prod.fst).nodup hnd

theorem le_foldl_max (l : List Nat) : ∀ (a : Nat), a ≤ l.foldl Nat.max a ∧
    ∀ x ∈ l, x ≤ l.foldl Nat.max a := by
  induction l with
  | nil => intro a; exact ⟨le_refl a, by simp⟩
  | cons b t ih =>
    intro a
    constructor
    · calc a ≤ Nat.max a b := Nat.le_max_left a b
      _ ≤ t.foldl Nat.max (Nat.max a b) := (ih (Nat.max a b)).1
    · intro x hx
      rcases List.mem_cons.mp hx with h | h
      · subst h
        calc x ≤ Nat.max a x := Nat.le_max_right a x
        _ ≤ t.foldl Nat.max (Nat.max a x) := (ih (Nat.max a x)).1
      · exact (ih (Nat.max a b)).2 x h

/-- The invariant of the pieces dict built by collectPT: every entry records
the (unique) piece letter of the token at its cell, and the cell indices are
within the token grid and the final width. -/
def CellPieceInv (rows : List (List (List Char))) (w : Nat)
    (d : List (Char × Pos)) : Prop :=
  ∀ e ∈ d, ∃ r c : Nat, e.2 = ((r : Int), (c : Int)) ∧ r < rows.length ∧
    c < (rows.getD r []).length ∧ c < w ∧
    (classifyToken ((rows.getD r []).getD c [])).1 = some e.1

theorem distinctPos_of_cellPieceInv {rows : List (List (List Char))} {w : Nat}
    {d : List (Char × Pos)} (h : CellPieceInv rows w d) : DistinctPos d := by
  intro e1 h1 e2 h2 hne hcon
  obtain ⟨r1, c1, hp1, _, _, _, hc1⟩ := h e1 h1
  obtain ⟨r2, c2, hp2, _, _, _, hc2⟩ := h e2 h2
  rw [hp1, hp2] at hcon
  have hr : r1 = r2 ∧ c1 = c2 := by
    have h1 := congrArg Prod.fst hcon
    have h2 := congrArg Prod.snd hcon
    simp at h1 h2
    exact ⟨h1, h2⟩
  rw [hr.1, hr.2] at hc1
  rw [hc1] at hc2
  exact hne (Option.some_inj.mp hc2)

theorem mem_enum_getD {α : Type} (d : α) {l : List α} {p : Nat × α}
    (h : p ∈ l.enum) : p.1 < l.length ∧ l.getD p.1 d = p.2 := by
  have h1 := List.fst_lt_of_mem_enum h
  have h2 : l[p.1]? = some p.2 := by
    rw [← List.mem_enum_iff_getElem?]
    exact h
  constructor
  · exact h1
  · rw [List.getD_eq_getElem?_getD, h2]
    rfl

theorem collectPT_inv (rows : List (List (List Char))) (w : Nat) :
    ((collectPT w rows).1.map Prod.fst).Nodup ∧ CellPieceInv rows w (collectPT w rows).1 := by
  unfold collectPT
  apply foldl_preserve
    (fun acc : List (Char × Pos) × List (Char × Pos) =>
      (acc.1.map Prod.fst).Nodup ∧ CellPieceInv rows w acc.1)
  · exact ⟨List.nodup_nil, by intro e he; simp at he⟩
  · intro acc rt hrt hacc
    obtain ⟨hrlt, hrget⟩ := mem_enum_getD [] hrt
    apply foldl_preserve
      (fun acc : List (Char × Pos) × List (Char × Pos) =>
        (acc.1.map Prod.fst).Nodup ∧ CellPieceInv rows w acc.1)
    · exact hacc
    · intro b ct hct hb
      by_cases hcw : w ≤ ct.1
      · rw [if_pos hcw]
        exact hb
      · rw [if_neg hcw]
        obtain ⟨hclt, hcget⟩ := mem_enum_getD [] hct
        cases hcls : (classifyToken ct.2).1 with
        | none =>
          simp only [hcls]
          exact hb
        | some pch =>
          simp only [hcls]
          refine ⟨nodup_keys_dictSet _ _ hb.1, ?_⟩
          intro e he
          rcases mem_dictSet e he with h | h
          · exact hb.2 e h
          · subst h
            exact ⟨rt.1, ct.1, rfl, hrlt, by rw [hrget]; omega, by omega,
              by rw [hrget, hcget]; exact hcls⟩

theorem baseGridOf_shape (h w : Nat) (rows : List (List (List Char))) :
    (baseGridOf h w rows).length = h ∧
    (∀ row ∈ baseGridOf h w rows, row.length = w) ∧
    (∀ row ∈ baseGridOf h w rows, ∀ ch ∈ row, ch = 'X' ∨ ch = '.') := by
  refine ⟨by simp [baseGridOf], ?_, ?_⟩
  · intro row hrow
    obtain ⟨r, _, rfl⟩ := List.mem_map.mp hrow
    simp
  · intro row hrow ch hch
    obtain ⟨r, _, rfl⟩ := List.mem_map.mp hrow
    obtain ⟨c, _, rfl⟩ := List.mem_map.mp hch
    split
    · left; rfl
    · right; rfl

/-- The obstacle skeleton of a state: its cached grid with every piece cell
blanked to '.'. -/
def stripPieces (g : KubobleGame) : List (List Char) :=
  overlayPieces g.grid g.height g.width (g.pieces.map fun e => (('.' : Char), e.2))

theorem pieceAt_map_dot (l : List (Char × Pos)) (pos : Pos) :
    pieceAt (l.map fun e => (('.' : Char), e.2)) pos =
      (pieceAt l pos).map fun _ => '.' := by
  induction l with
  | nil => rfl
  | cons e t ih =>
    rw [List.map_cons, pieceAt_cons, pieceAt_cons, ih]
    cases hp : pieceAt t pos with
    | some q => rfl
    | none => by_cases he : e.2 = pos <;> simp [he]

theorem cells_of_cellAt {B : List (List Char)} {h w : Nat} (P : Char → Prop)
    (hl : B.length = h) (hr : ∀ row ∈ B, row.length = w)
    (hc : ∀ r c : Nat, r < h → c < w → P (cellAt B r c)) :
    ∀ row ∈ B, ∀ ch ∈ row, P ch := by
  intro row hrow ch hch
  obtain ⟨r, hrlt, hreq⟩ := List.mem_iff_getElem.mp hrow
  obtain ⟨c, hclt, hceq⟩ := List.mem_iff_getElem.mp hch
  have hcw : c < w := by rw [← hr row hrow]; exact hclt
  have := hc r c (by omega) hcw
  unfold cellAt at this
  rw [List.getD_eq_getElem B [] (by omega), hreq,
    List.getD_eq_getElem row '.' (by omega), hceq] at this
  exact this

theorem good_assembled (processed : List (List (List Char))) (W H : Nat)
    (targets : List (Char × Pos)) (hH : processed.length = H)
    (hW : W = (processed.map List.length).foldl Nat.max 0) :
    GoodState
      ⟨overlayPieces (baseGridOf H W processed) H W (collectPT W processed).1,
        dictDel (collectPT W processed).1 'X', targets, W, H⟩
      (stripPieces
        ⟨overlayPieces (baseGridOf H W processed) H W (collectPT W processed).1,
          dictDel (collectPT W processed).1 'X', targets, W, H⟩) := by
  obtain ⟨hnodAP, hinvAP⟩ := collectPT_inv processed W
  have hdistAP : DistinctPos (collectPT W processed).1 :=
    distinctPos_of_cellPieceInv hinvAP
  set AP := (collectPT W processed).1 with hAPdef
  set P' := dictDel AP 'X' with hP'def
  obtain ⟨hbl, hbr, hbcells⟩ := baseGridOf_shape H W processed
  set base := baseGridOf H W processed with hbasedef
  set G := overlayPieces base H W AP with hGdef
  have hGlen : G.length = H := by rw [hGdef, overlayPieces_length, hbl]
  have hGrows : ∀ row ∈ G, row.length = W := by
    rw [hGdef]
    exact overlayPieces_rows _ _ _ _ _ hbr
  have hbaseOk : BaseOk base H W := ⟨hbl, hbr, hbcells⟩
  have hsub : ∀ e ∈ P', e ∈ AP ∧ e.1 ≠ 'X' := fun e he => mem_dictDel_iff.mp he
  have hndP' : (keysOf P').Nodup := nodup_keys_dictDel _ hnodAP
  have hdistP' : DistinctPos P' := fun a ha b hb =>
    hdistAP a (hsub a ha).1 b (hsub b hb).1
  have hinbAP : ∀ e ∈ AP, inBoard H W e.2 = true := by
    intro e he
    obtain ⟨r, c, hpos, hrlt, _, hcw, _⟩ := hinvAP e he
    rw [hpos, inBoard_iff]
    refine ⟨by omega, by omega, by omega, by omega⟩
  have hinbP' : ∀ e ∈ P', inBoard H W e.2 = true := fun e he => hinbAP e (hsub e he).1
  have hcellG : ∀ r c : Nat, r < H → c < W →
      cellAt G r c = (pieceAt AP ((r : Int), (c : Int))).getD (cellAt base r c) :=
    fun r c hr hc => cellAt_overlayPieces H W AP base hbl hbr r c hr hc
  -- the skeleton B
  set B := overlayPieces G H W (P'.map fun e => (('.' : Char), e.2)) with hBdef
  have hBlen : B.length = H := by rw [hBdef, overlayPieces_length, hGlen]
  have hBrows : ∀ row ∈ B, row.length = W := by
    rw [hBdef]
    exact overlayPieces_rows _ _ _ _ _ hGrows
  have hcellB : ∀ r c : Nat, r < H → c < W →
      cellAt B r c =
        ((pieceAt P' ((r : Int), (c : Int))).map fun _ => '.').getD (cellAt G r c) := by
    intro r c hr hc
    rw [hBdef, cellAt_overlayPieces H W _ G hGlen hGrows r c hr hc, pieceAt_map_dot]
  have hstrip : stripPieces
      ⟨G, P', targets, W, H⟩ = B := rfl
  rw [hstrip]
  -- cell classification of B
  have hBclass : ∀ r c : Nat, r < H → c < W → cellAt B r c = 'X' ∨ cellAt B r c = '.' := by
    intro r c hr hc
    rw [hcellB r c hr hc]
    cases hp' : pieceAt P' ((r : Int), (c : Int)) with
    | some q => right; rfl
    | none =>
      simp only [Option.map_none', Option.getD_none]
      rw [hcellG r c hr hc]
      cases hap : pieceAt AP ((r : Int), (c : Int)) with
      | some k =>
        by_cases hkx : k = 'X'
        · left
          rw [hkx]
          rfl
        · exfalso
          have hmem : (k, ((r : Int), (c : Int))) ∈ AP := pieceAt_mem hap
          have hmem' : (k, ((r : Int), (c : Int))) ∈ P' :=
            mem_dictDel_iff.mpr ⟨hmem, hkx⟩
          exact (pieceAt_eq_none_iff.mp hp') _ hmem' rfl
      | none =>
        simp only [Option.getD_none]
        exact baseOk_cell hbaseOk r c
  refine ⟨⟨hBlen, hBrows, ?_⟩, hndP', ?_, ?_, hdistP', ?_, ?_⟩
  · exact cells_of_cellAt _ hBlen hBrows hBclass
  · -- key range
    intro k hk
    obtain ⟨e, he, hek⟩ := List.mem_map.mp hk
    obtain ⟨heAP, hex⟩ := hsub e he
    obtain ⟨r, c, _, _, _, _, hcls⟩ := hinvAP e heAP
    have := classifyToken_piece_range hcls
    exact ⟨hek ▸ this.1, hek ▸ this.2, hek ▸ hex⟩
  · exact hinbP'
  · -- pieces not on 'X' cells of B
    intro e he
    have hinb := hinbP' e he
    have := cellAt_overlay_pos G H W (P'.map fun x => (('.' : Char), x.2))
      hGlen hGrows e.2 hinb
    rw [← hBdef] at this
    rw [this, pieceAt_map_dot, pieceAt_of_mem_unique hndP' hdistP'
      (show (e.1, e.2) ∈ P' from he)]
    simp only [Option.map_some', Option.getD_some]
    decide
  · -- the grid is the skeleton overlaid with the pieces
    apply grid_ext H W hGlen
    · rw [overlayPieces_length, hBlen]
    · exact hGrows
    · exact overlayPieces_rows _ _ _ _ _ hBrows
    · intro r c hr hc
      rw [cellAt_overlayPieces H W P' B hBlen hBrows r c hr hc]
      cases hp' : pieceAt P' ((r : Int), (c : Int)) with
      | some k =>
        have hmem : (k, ((r : Int), (c : Int))) ∈ P' := pieceAt_mem hp'
        have hap : pieceAt AP ((r : Int), (c : Int)) = some k :=
          pieceAt_of_mem_unique hnodAP hdistAP (hsub _ hmem).1
        rw [hcellG r c hr hc, hap]
        rfl
      | none =>
        rw [hcellB r c hr hc, hp']
        rfl

theorem parse_good (chars : List Char) :
    GoodState (_parse_level chars) (stripPieces (_parse_level chars)) := by
  have hne : splitSep ';' (pyStrip chars) ≠ [] := splitSep_ne_nil _ _
  have hlen : ¬ (splitSep ';' (pyStrip chars)).length = 0 := by
    simpa [List.length_eq_zero] using hne
  have heq : _parse_level chars =
      ⟨overlayPieces
          (baseGridOf (splitSep ';' (pyStrip chars)).length
            ((((splitSep ';' (pyStrip chars)).map rowTokens).map List.length).foldl Nat.max 0)
            ((splitSep ';' (pyStrip chars)).map rowTokens))
          (splitSep ';' (pyStrip chars)).length
          ((((splitSep ';' (pyStrip chars)).map rowTokens).map List.length).foldl Nat.max 0)
          (collectPT
            ((((splitSep ';' (pyStrip chars)).map rowTokens).map List.length).foldl Nat.max 0)
            ((splitSep ';' (pyStrip chars)).map rowTokens)).1,
        dictDel
          (collectPT
            ((((splitSep ';' (pyStrip chars)).map rowTokens).map List.length).foldl Nat.max 0)
            ((splitSep ';' (pyStrip chars)).map rowTokens)).1 'X',
        (collectPT
          ((((splitSep ';' (pyStrip chars)).map rowTokens).map List.length).foldl Nat.max 0)
          ((splitSep ';' (pyStrip chars)).map rowTokens)).2,
        ((((splitSep ';' (pyStrip chars)).map rowTokens).map List.length).foldl Nat.max 0),
        (splitSep ';' (pyStrip chars)).length⟩ := by
    simp only [_parse_level]
    rw [if_neg hlen]
  rw [heq]
  exact good_assembled _ _ _ _ (by rw [List.length_map]) rfl

/-! ## Claim C8: invariants of reachable states -/

/-- States reachable by repeatedly drawing a move from get_possible_moves
and applying it. -/
inductive ReachableFrom (g0 : KubobleGame) : KubobleGame → Prop where
  | refl : ReachableFrom g0 g0
  | step {g g' : KubobleGame} {m : Char × Pos × String} :
      ReachableFrom g0 g → m ∈ get_possible_moves g →
      apply_move g m.1 m.2.1 = some g' → ReachableFrom g0 g'

theorem reachable_good {g0 : KubobleGame} {B : List (List Char)} (h0 : GoodState g0 B) :
    ∀ {g}, ReachableFrom g0 g → GoodState g B ∧ g.targets = g0.targets ∧
      g.width = g0.width ∧ g.height = g0.height := by
  intro g h
  induction h with
  | refl => exact ⟨h0, rfl, rfl, rfl⟩
  | step hr hm happ ih =>
    obtain ⟨hg, ht, hw, hh⟩ := ih
    obtain ⟨g'', happ', hg', _, ht', hw', hh'⟩ := good_step hg hm
    rw [happ] at happ'
    obtain rfl := Option.some_inj.mp happ'
    exact ⟨hg', ht'.trans ht, hw'.trans hw, hh'.trans hh⟩

theorem cellAt_oob {G : List (List Char)} {h w : Nat} (hl : G.length = h)
    (hr : ∀ row ∈ G, row.length = w) {r c : Nat} (hout : h ≤ r ∨ w ≤ c) :
    cellAt G r c = '.' := by
  rcases hout with hout | hout
  · unfold cellAt
    rw [List.getD_eq_default G [] (by omega)]
    rfl
  · by_cases hrlt : r < G.length
    · unfold cellAt
      rw [List.getD_eq_default (G.getD r []) '.'
        (by rw [hr _ (getD_mem_of_lt _ _ _ hrlt)]; omega)]
    · unfold cellAt
      rw [List.getD_eq_default G [] (by omega)]
      rfl

/-- In a Good state the 'X' cells of the cached grid are exactly those of
the skeleton. -/
theorem good_X_cells {g : KubobleGame} {B : List (List Char)} (hg : GoodState g B) :
    ∀ r c : Nat, cellAt g.grid r c = 'X' ↔ cellAt B r c = 'X' := by
  obtain ⟨hB, hnd, hrange, hinb, hdist, hnotX, hgrid⟩ := hg
  have hBl : B.length = g.height := hB.1
  have hBr : ∀ row ∈ B, row.length = g.width := hB.2.1
  intro r c
  by_cases hin : r < g.height ∧ c < g.width
  · rw [hgrid, cellAt_overlayPieces g.height g.width g.pieces B hBl hBr r c hin.1 hin.2]
    cases hp : pieceAt g.pieces ((r : Int), (c : Int)) with
    | some k =>
      have hmem := pieceAt_mem hp
      have hkx : k ≠ 'X' := (hrange k (List.mem_map.mpr ⟨_, hmem, rfl⟩)).2.2
      have hBX : cellAt B r c ≠ 'X' := by
        have := hnotX _ hmem
        simpa using this
      simp only [Option.getD_some]
      exact ⟨fun h => absurd h hkx, fun h => absurd h hBX⟩
    | none =>
      simp only [Option.getD_none]
  · have hout : g.height ≤ r ∨ g.width ≤ c := by omega
    rw [cellAt_oob hBl hBr hout,
      cellAt_oob (by rw [hgrid, overlayPieces_length, hBl])
        (by rw [hgrid]; exact overlayPieces_rows _ _ _ _ _ hBr) hout]

/-- C8 (confirmed): along any chain of get_possible_moves moves applied with
apply_move from a parsed level, no piece sits on an obstacle ('X') cell, no
two distinct pieces share a cell, and the obstacle cells, targets, width and
height all remain those of the initial parsed state. -/
theorem C8_reachable_invariants (lvl : String) (g : KubobleGame)
    (h : ReachableFrom (mkGame lvl) g) :
    (∀ e ∈ g.pieces, gridGet g.grid e.2.1 e.2.2 ≠ 'X') ∧
    DistinctPos g.pieces ∧
    (∀ r c : Nat, (cellAt g.grid r c = 'X') ↔ (cellAt (mkGame lvl).grid r c = 'X')) ∧
    g.targets = (mkGame lvl).targets ∧
    g.width = (mkGame lvl).width ∧ g.height = (mkGame lvl).height := by
  have h0 := parse_good lvl.data
  obtain ⟨hg, ht, hw, hh⟩ := reachable_good h0 h
  obtain ⟨hB, hnd, hrange, hinb, hdist, hnotX, hgrid⟩ := hg
  refine ⟨?_, hdist, ?_, ht, hw, hh⟩
  · intro e he
    have hin := hinb e he
    rw [gridGet_eq_cellAt, hgrid,
      cellAt_overlay_pos _ g.height g.width g.pieces hB.1 hB.2.1 e.2 hin,
      pieceAt_of_mem_unique hnd hdist (show (e.1, e.2) ∈ g.pieces from he)]
    exact (hrange e.1 (List.mem_map.mpr ⟨e, he, rfl⟩)).2.2
  · intro r c
    rw [good_X_cells ⟨hB, hnd, hrange, hinb, hdist, hnotX, hgrid⟩ r c]
    rw [← good_X_cells (parse_good lvl.data) r c]
    constructor <;> (intro hx; rw [hh, hw] at *; exact hx)

/-- Witness for C8 at a one-step reachable state of the level "A . a". -/
theorem C8_witness :
    ∃ g, ReachableFrom (mkGame "A . a") g ∧
      g.targets = (mkGame "A . a").targets ∧ g.width = (mkGame "A . a").width := by
  obtain ⟨_, _, _, ht, hw, _⟩ :=
    C8_reachable_invariants "A . a" (mkGame "A . a") ReachableFrom.refl
  exact ⟨mkGame "A . a", ReachableFrom.refl, ht, hw⟩

/-! ## Claim C6: totality of the verifier and its failure modes -/

theorem findMatched_eq_none_iff {orig : Pos} {pc : Char} {dir : List Char}
    {l : List (Char × Pos × String)} :
    findMatched orig pc dir l = none ↔
      ∀ m ∈ l, ¬(m.1 = pc ∧ m.2.2.data = dir ∧ m.2.1 ≠ orig) := by
  induction l with
  | nil => simp [findMatched]
  | cons m t ih =>
    unfold findMatched
    by_cases hm : m.1 = pc ∧ m.2.2.data = dir ∧ m.2.1 ≠ orig
    · rw [if_pos hm]
      simp only [iff_false_intro (Option.some_ne_none _), false_iff]  -- some ≠ none
      intro hall
      exact hall m (List.mem_cons_self _ _) hm
    · rw [if_neg hm, ih]
      constructor
      · intro h m' hm'
        rcases List.mem_cons.mp hm' with h' | h'
        · rw [h']; exact hm
        · exact h m' h'
      · intro h m' hm'
        exact h m' (List.mem_cons_of_mem _ hm')

theorem findMatched_some {orig : Pos} {pc : Char} {dir : List Char}
    {l : List (Char × Pos × String)} {m : Char × Pos × String}
    (h : findMatched orig pc dir l = some m) :
    m ∈ l ∧ m.1 = pc ∧ m.2.2.data = dir ∧ m.2.1 ≠ orig := by
  induction l with
  | nil => simp [findMatched] at h
  | cons m' t ih =>
    unfold findMatched at h
    by_cases hm : m'.1 = pc ∧ m'.2.2.data = dir ∧ m'.2.1 ≠ orig
    · rw [if_pos hm] at h
      obtain rfl := Option.some_inj.mp h
      exact ⟨List.mem_cons_self _ _, hm⟩
    · rw [if_neg hm] at h
      obtain ⟨h1, h2⟩ := ih h
      exact ⟨List.mem_cons_of_mem _ h1, h2⟩

/-- The replay loop when every move succeeds, returning the final state. -/
def replayRun (g : KubobleGame) : List (List Char × List Char) → Option KubobleGame
  | [] => some g
  | (pieceTok, dir) :: ms =>
    match pieceTok with
    | [pc] =>
      match dictGet g.pieces pc with
      | none => none
      | some orig =>
        match findMatched orig pc dir (get_possible_moves g) with
        | none => none
        | some m =>
          match apply_move g m.1 m.2.1 with
          | none => none
          | some g' => replayRun g' ms
    | _ => none

/-- A replay move that fails immediately at state g: the piece token is not
a present single piece, or no matching move with a changed position
exists. -/
def moveFails (g : KubobleGame) (tok dir : List Char) : Bool :=
  match tok with
  | [pc] =>
    match dictGet g.pieces pc with
    | none => true
    | some orig => (findMatched orig pc dir (get_possible_moves g)).isNone
  | _ => true

theorem replayMoves_of_run {g gf : KubobleGame} {ms : List (List Char × List Char)}
    (h : replayRun g ms = some gf) : replayMoves g ms = some (is_win gf) := by
  induction ms generalizing g with
  | nil =>
    simp only [replayRun] at h
    obtain rfl := Option.some_inj.mp h
    rfl
  | cons mv t ih =>
    obtain ⟨tok, dir⟩ := mv
    match tok with
    | [] => simp [replayRun] at h
    | pc :: c2 :: rest => simp [replayRun] at h
    | [pc] =>
      simp only [replayRun] at h
      simp only [replayMoves]
      cases hget : dictGet g.pieces pc with
      | none => exact Option.noConfusion (by simp only [hget] at h; exact h : (none : Option KubobleGame) = some _)
      | some orig =>
        simp only [hget] at h ⊢
        cases hfind : findMatched orig pc dir (get_possible_moves g) with
        | none => exact Option.noConfusion (by simp only [hfind] at h; exact h : (none : Option KubobleGame) = some _)
        | some m =>
          simp only [hfind] at h ⊢
          cases happ : apply_move g m.1 m.2.1 with
          | none => exact Option.noConfusion (by simp only [happ] at h; exact h : (none : Option KubobleGame) = some _)
          | some g' =>
            simp only [happ] at h ⊢
            exact ih h

theorem replayMoves_append_of_run {g gi : KubobleGame}
    {ms1 rest : List (List Char × List Char)} (h : replayRun g ms1 = some gi) :
    replayMoves g (ms1 ++ rest) = replayMoves gi rest := by
  induction ms1 generalizing g with
  | nil =>
    simp only [replayRun] at h
    obtain rfl := Option.some_inj.mp h
    rfl
  | cons mv t ih =>
    obtain ⟨tok, dir⟩ := mv
    match tok with
    | [] => simp [replayRun] at h
    | pc :: c2 :: rest2 => simp [replayRun] at h
    | [pc] =>
      simp only [replayRun] at h
      simp only [List.cons_append, replayMoves]
      cases hget : dictGet g.pieces pc with
      | none => exact Option.noConfusion (by simp only [hget] at h; exact h : (none : Option KubobleGame) = some _)
      | some orig =>
        simp only [hget] at h ⊢
        cases hfind : findMatched orig pc dir (get_possible_moves g) with
        | none => exact Option.noConfusion (by simp only [hfind] at h; exact h : (none : Option KubobleGame) = some _)
        | some m =>
          simp only [hfind] at h ⊢
          cases happ : apply_move g m.1 m.2.1 with
          | none => exact Option.noConfusion (by simp only [happ] at h; exact h : (none : Option KubobleGame) = some _)
          | some g' =>
            simp only [happ] at h ⊢
            exact ih h

theorem replayMoves_fail_step {g : KubobleGame} {tok dir : List Char}
    {ms : List (List Char × List Char)} (h : moveFails g tok dir = true) :
    replayMoves g ((tok, dir) :: ms) = some false := by
  match tok with
  | [] => rfl
  | pc :: c2 :: rest => rfl
  | [pc] =>
    simp only [moveFails] at h
    simp only [replayMoves]
    cases hget : dictGet g.pieces pc with
    | none => simp only [hget]
    | some orig =>
      simp only [hget] at h ⊢
      cases hfind : findMatched orig pc dir (get_possible_moves g) with
      | none => simp only [hfind]
      | some m => simp only [hfind] at h; simp at h

theorem replayMoves_isSome {B : List (List Char)} :
    ∀ (ms : List (List Char × List Char)) (g : KubobleGame), GoodState g B →
      (replayMoves g ms).isSome = true := by
  intro ms
  induction ms with
  | nil => intro g _; rfl
  | cons mv t ih =>
    intro g hg
    obtain ⟨tok, dir⟩ := mv
    match tok with
    | [] => rfl
    | pc :: c2 :: rest => rfl
    | [pc] =>
      simp only [replayMoves]
      cases hget : dictGet g.pieces pc with
      | none => simp only [hget, Option.isSome_some]
      | some orig =>
        simp only [hget]
        cases hfind : findMatched orig pc dir (get_possible_moves g) with
        | none => simp only [hfind, Option.isSome_some]
        | some m =>
          simp only [hfind]
          obtain ⟨hmem, _, _, _⟩ := findMatched_some hfind
          have hm3 : (m.1, m.2.1, m.2.2) ∈ get_possible_moves g := hmem
          obtain ⟨g', happ, hg', _, _, _, _⟩ := good_step hg hm3
          simp only [happ]
          exact ih g' hg'

theorem parse_all_empty_general :
    ∀ (fs : List (List Char)) (acc : List (List Char × List Char)),
      (∀ f ∈ fs, pyStrip f = []) →
      parseSolFragments fs acc = .done acc ∨ parseSolFragments fs acc = .earlyWin := by
  intro fs
  induction fs with
  | nil => intro acc _; left; rfl
  | cons f t ih =>
    intro acc hall
    have hf : pyStrip f = [] := hall f (List.mem_cons_self _ _)
    by_cases hcond : t = [] ∧ acc = []
    · right
      simp [parseSolFragments, hf, hcond.1, hcond.2]
    · have := ih acc fun x hx => hall x (List.mem_cons_of_mem _ hx)
      simpa [parseSolFragments, hf, hcond] using this

theorem parse_bad :
    ∀ (fs : List (List Char)) (acc : List (List Char × List Char)),
      (∃ f ∈ fs, pyStrip f ≠ [] ∧
        ((pySplitWs (pyStrip f)).length ≠ 2 ∨
          ¬ dirNames.contains (((pySplitWs (pyStrip f)).getD 1 []).map Char.toLower))) →
      parseSolFragments fs acc = .failed := by
  intro fs
  induction fs with
  | nil =>
    intro acc h
    obtain ⟨f, hf, _⟩ := h
    simp at hf
  | cons f t ih =>
    intro acc h
    obtain ⟨f', hf', hbad⟩ := h
    by_cases hstrip : pyStrip f = []
    · rcases List.mem_cons.mp hf' with rfl | hft
      · exact absurd hstrip hbad.1
      · have htne : ¬(t = [] ∧ acc = []) := by
          intro hcon
          rw [hcon.1] at hft
          simp at hft
        rw [show parseSolFragments (f :: t) acc = parseSolFragments t acc from by
          simp [parseSolFragments, hstrip, htne]]
        exact ih acc ⟨f', hft, hbad⟩
    · simp only [parseSolFragments]
      rw [if_neg hstrip]
      by_cases hb1 : (pySplitWs (pyStrip f)).length ≠ 2
      · rw [if_pos hb1]
      · rw [if_neg hb1]
        by_cases hb2 : ¬ dirNames.contains
            (((pySplitWs (pyStrip f)).getD 1 []).map Char.toLower)
        · rw [if_pos (by simpa using hb2)]
        · rw [if_neg (by simpa using hb2)]
          rcases List.mem_cons.mp hf' with rfl | hft
          · rcases hbad.2 with hc | hc
            · exact absurd hc hb1
            · exact absurd hc hb2
          · exact ih _ ⟨f', hft, hbad⟩

theorem pyStrip_sol_ne_nil {sol : String} {c : Char} (hc : c ∈ sol.data)
    (hsp : pyIsSpace c = false) : ¬(sol.data = [] ∨ pyStrip sol.data = []) := by
  intro hcon
  rcases hcon with h | h
  · rw [h] at hc
    simp at hc
  · have := (pyStrip_eq_nil_iff sol.data).mp h c hc
    rw [hsp] at this
    exact Bool.noConfusion this

/-- C6 (confirmed): verify_kuboble_solution is total (never raises, modelled
as always returning some boolean), and it returns false whenever some
non-empty solution fragment does not split into exactly two tokens or names
an unrecognised direction (these are checked for the whole solution before
any replay), and false whenever replay reaches a move naming an absent
piece or a move with no matching changed-position entry in
get_possible_moves, regardless of the content of any later moves. -/
theorem C6_verifier_failure_modes :
    (∀ level sol : String, (verify_kuboble_solution level sol).isSome = true) ∧
    (∀ level sol : String,
      (∃ f ∈ splitSep ';' sol.data, pyStrip f ≠ [] ∧
        ((pySplitWs (pyStrip f)).length ≠ 2 ∨
          ¬ dirNames.contains (((pySplitWs (pyStrip f)).getD 1 []).map Char.toLower))) →
      verify_kuboble_solution level sol = some false) ∧
    (∀ (level sol : String) (ms1 ms2 : List (List Char × List Char))
        (tok dir : List Char) (gi : KubobleGame),
      parseSolFragments (splitSep ';' sol.data) [] = .done (ms1 ++ (tok, dir) :: ms2) →
      replayRun (mkGame level) ms1 = some gi →
      moveFails gi tok dir = true →
      verify_kuboble_solution level sol = some false) := by
  refine ⟨?_, ?_, ?_⟩
  · intro level sol
    simp only [verify_kuboble_solution]
    by_cases h0 : sol.data = [] ∨ pyStrip sol.data = []
    · rw [if_pos h0]
      rfl
    · rw [if_neg h0]
      cases hp : parseSolFragments (splitSep ';' sol.data) [] with
      | earlyWin => rfl
      | failed => rfl
      | done ms =>
        dsimp only
        by_cases hms : ms = [] ∧ pyStrip sol.data ≠ []
        · rw [if_pos hms]
          rfl
        · rw [if_neg hms]
          exact replayMoves_isSome ms (mkGame level) (parse_good level.data)
  · intro level sol hbad
    have hfail := parse_bad (splitSep ';' sol.data) [] hbad
    obtain ⟨f, hf, hfs, _⟩ := hbad
    have hchar : ∃ c ∈ f, pyIsSpace c = false := by
      have hno : ¬ ∀ c ∈ f, pyIsSpace c = true :=
        fun hall => hfs ((pyStrip_eq_nil_iff f).mpr hall)
      push_neg at hno
      obtain ⟨c, hcf, hcsp⟩ := hno
      exact ⟨c, hcf, by simpa using hcsp⟩
    obtain ⟨c, hcf, hcsp⟩ := hchar
    have hcsol : c ∈ sol.data := (mem_splitPred hf c hcf).1
    simp only [verify_kuboble_solution]
    rw [if_neg (pyStrip_sol_ne_nil hcsol hcsp), hfail]
  · intro level sol ms1 ms2 tok dir gi hpars hrun hfails
    by_cases h0 : sol.data = [] ∨ pyStrip sol.data = []
    · exfalso
      have hallsp : ∀ c ∈ sol.data, pyIsSpace c = true := by
        rcases h0 with h | h
        · rw [h]
          intro c hc
          simp at hc
        · exact (pyStrip_eq_nil_iff sol.data).mp h
      have hfr : ∀ f ∈ splitSep ';' sol.data, pyStrip f = [] := by
        intro f hf
        rw [pyStrip_eq_nil_iff]
        intro c hc
        exact hallsp c (mem_splitPred hf c hc).1
      rcases parse_all_empty_general (splitSep ';' sol.data) [] hfr with h | h <;>
        rw [hpars] at h
      · have := (SolParse.done.injEq _ _).mp h
        simp at this
      · exact SolParse.noConfusion h
    · simp only [verify_kuboble_solution]
      rw [if_neg h0, hpars]
      dsimp only
      rw [if_neg (by simp)]
      rw [replayMoves_append_of_run hrun]
      exact replayMoves_fail_step hfails

/-- Witness for C6: a malformed move ("A up down"), and a replay failure on
an absent piece ("C down"), both on the level "A. ;.a". -/
theorem C6_witness :
    (verify_kuboble_solution "A. ;.a" "A up down").isSome = true ∧
    verify_kuboble_solution "A. ;.a" "A up down" = some false ∧
    verify_kuboble_solution "A. ;.a" "C down" = some false := by
  refine ⟨C6_verifier_failure_modes.1 "A. ;.a" "A up down",
    C6_verifier_failure_modes.2.1 "A. ;.a" "A up down" ?_,
    C6_verifier_failure_modes.2.2 "A. ;.a" "C down" [] []
      "C".data "down".data (mkGame "A. ;.a") (by decide) rfl (by decide)⟩
  refine ⟨"A up down".data, by decide, by decide, Or.inl (by decide)⟩

/-! ## Joining and re-splitting move strings -/

theorem splitPred_no_match {p : Char → Bool} :
    ∀ {l : List Char}, (∀ c ∈ l, p c = false) → splitPred p l = [l] := by
  intro l
  induction l with
  | nil => intro _; rfl
  | cons c t ih =>
    intro h
    have hc : p c = false := h c (List.mem_cons_self _ _)
    have ht := ih fun x hx => h x (List.mem_cons_of_mem _ hx)
    simp only [splitPred, ht, hc]
    simp

theorem splitPred_chunk {p : Char → Bool} {sep : Char} (hsep : p sep = true) :
    ∀ {r l : List Char}, (∀ c ∈ r, p c = false) →
      splitPred p (r ++ sep :: l) = r :: splitPred p l := by
  intro r
  induction r with
  | nil =>
    intro l _
    simp only [List.nil_append, splitPred, hsep]
    cases h : splitPred p l with
    | nil => exact absurd h (splitPred_ne_nil p l)
    | cons a t => simp
  | cons c t ih =>
    intro l h
    have hc : p c = false := h c (List.mem_cons_self _ _)
    have ht := ih (l := l) fun x hx => h x (List.mem_cons_of_mem _ hx)
    simp only [List.cons_append, splitPred, hc]
    rw [show t.append (sep :: l) = t ++ sep :: l from rfl, ht]
    simp

theorem splitSep_joinSep {sep : Char} :
    ∀ {rs : List (List Char)}, rs ≠ [] → (∀ r ∈ rs, ∀ c ∈ r, (c = sep) = False) →
      splitSep sep (joinSep sep rs) = rs := by
  intro rs
  induction rs with
  | nil => intro h; exact absurd rfl h
  | cons r t ih =>
    intro _ hall
    have hr : ∀ c ∈ r, decide (c = sep) = false := by
      intro c hc
      simp [hall r (List.mem_cons_self _ _) c hc]
    cases t with
    | nil =>
      show splitPred _ r = [r]
      exact splitPred_no_match hr
    | cons r2 t2 =>
      show splitPred _ (r ++ sep :: joinSep sep (r2 :: t2)) = _
      rw [splitPred_chunk (by simp) hr]
      have := ih (by simp) fun x hx => hall x (List.mem_cons_of_mem _ hx)
      rw [show splitSep sep (joinSep sep (r2 :: t2)) = splitPred (fun c => decide (c = sep)) (joinSep sep (r2 :: t2)) from rfl] at this
      rw [this]

theorem mem_of_mem_joinSep {sep : Char} {c : Char} :
    ∀ {rs : List (List Char)} {r : List Char}, r ∈ rs → c ∈ r → c ∈ joinSep sep rs := by
  intro rs
  induction rs with
  | nil => intro r h; simp at h
  | cons a t ih =>
    intro r hr hc
    cases t with
    | nil =>
      simp only [List.mem_singleton] at hr
      subst hr
      exact hc
    | cons b t2 =>
      show c ∈ a ++ sep :: joinSep sep (b :: t2)
      rcases List.mem_cons.mp hr with h | h
      · subst h
        exact List.mem_append_left _ hc
      · exact List.mem_append_right _ (List.mem_cons_of_mem _ (ih h hc))

theorem mem_joinSep_sub {sep : Char} {c : Char} :
    ∀ {rs : List (List Char)}, c ∈ joinSep sep rs → c = sep ∨ ∃ r ∈ rs, c ∈ r := by
  intro rs
  induction rs with
  | nil => intro h; simp [joinSep] at h
  | cons a t ih =>
    cases t with
    | nil =>
      intro h
      exact Or.inr ⟨a, List.mem_cons_self _ _, h⟩
    | cons b t2 =>
      intro h
      rcases List.mem_append.mp h with h | h
      · exact Or.inr ⟨a, List.mem_cons_self _ _, h⟩
      · rcases List.mem_cons.mp h with h | h
        · exact Or.inl h
        · rcases ih h with h' | ⟨r, hr, hcr⟩
          · exact Or.inl h'
          · exact Or.inr ⟨r, List.mem_cons_of_mem _ hr, hcr⟩

theorem pyStrip_eq_self {l : List Char}
    (h1 : ∀ c, l.head? = some c → pyIsSpace c = false)
    (h2 : ∀ c, l.getLast? = some c → pyIsSpace c = false) : pyStrip l = l := by
  unfold pyStrip
  have hd : l.dropWhile pyIsSpace = l := by
    cases l with
    | nil => rfl
    | cons c t =>
      rw [List.dropWhile_cons_of_neg]
      rw [h1 c rfl]
      simp
  rw [hd]
  have hd2 : l.reverse.dropWhile pyIsSpace = l.reverse := by
    cases hrev : l.reverse with
    | nil => rfl
    | cons c t =>
      rw [List.dropWhile_cons_of_neg]
      have : l.getLast? = some c := by
        rw [← List.head?_reverse, hrev]
        rfl
      rw [h2 c this]
      simp
  rw [hd2, List.reverse_reverse]

/-! ## The shape of BFS move strings -/

/-- The shape of a move string built by the solver: a piece letter, a
space, and one of the four direction names. -/
def MoveStr (m : List Char) : Prop :=
  ∃ (p : Char) (dn : String), m = p :: ' ' :: dn.data ∧ ('A' ≤ p ∧ p ≤ 'Z') ∧
    (dn = "up" ∨ dn = "down" ∨ dn = "left" ∨ dn = "right")

/-- The verifier's parsed (piece token, lowered direction) pair of a move
string. -/
def movePair (m : List Char) : List Char × List Char :=
  ([m.headD ' '], (m.drop 2).map Char.toLower)

theorem upper_not_space {p : Char} (h : 'A' ≤ p ∧ p ≤ 'Z') : pyIsSpace p = false := by
  obtain ⟨h1, h2⟩ := h
  rw [Char.le_def] at h1 h2
  simp only [pyIsSpace, Bool.or_eq_false_iff, decide_eq_false_iff_not]
  refine ⟨⟨⟨⟨⟨?_, ?_⟩, ?_⟩, ?_⟩, ?_⟩, ?_⟩ <;>
    (intro hcon; subst hcon; revert h1 h2; decide)

theorem dir_char_facts {dn : String}
    (hdn : dn = "up" ∨ dn = "down" ∨ dn = "left" ∨ dn = "right") :
    ∀ c ∈ dn.data, ¬c = ';' ∧ pyIsSpace c = false := by
  rcases hdn with rfl | rfl | rfl | rfl <;> decide

theorem upper_ne_semi {p : Char} (h : 'A' ≤ p ∧ p ≤ 'Z') : p ≠ ';' := by
  obtain ⟨h1, h2⟩ := h
  rw [Char.le_def] at h1 h2
  intro hcon
  subst hcon
  simp at h1 h2

theorem moveStr_no_semi {m : List Char} (hm : MoveStr m) :
    ∀ c ∈ m, (c = ';') = False := by
  obtain ⟨p, dn, rfl, hp, hdn⟩ := hm
  intro c hc
  simp only [eq_iff_iff, iff_false]
  rcases List.mem_cons.mp hc with rfl | hc
  · exact upper_ne_semi hp
  · rcases List.mem_cons.mp hc with rfl | hc
    · decide
    · exact (dir_char_facts hdn c hc).1

theorem moveStr_strip {m : List Char} (hm : MoveStr m) : pyStrip m = m := by
  obtain ⟨p, dn, rfl, hp, hdn⟩ := hm
  apply pyStrip_eq_self
  · intro c hc
    obtain rfl := Option.some_inj.mp hc
    exact upper_not_space hp
  · intro c hc
    rcases hdn with rfl | rfl | rfl | rfl
    · rw [show (p :: ' ' :: ("up" : String).data) = [p, ' ', 'u'] ++ ['p'] from rfl] at hc
      simp at hc
      subst hc
      decide
    · rw [show (p :: ' ' :: ("down" : String).data) = [p, ' ', 'd', 'o', 'w'] ++ ['n'] from rfl] at hc
      simp at hc
      subst hc
      decide
    · rw [show (p :: ' ' :: ("left" : String).data) = [p, ' ', 'l', 'e', 'f'] ++ ['t'] from rfl] at hc
      simp at hc
      subst hc
      decide
    · rw [show (p :: ' ' :: ("right" : String).data) = [p, ' ', 'r', 'i', 'g', 'h'] ++ ['t'] from rfl] at hc
      simp at hc
      subst hc
      decide

theorem moveStr_splitWs {p : Char} {dn : String} (hp : 'A' ≤ p ∧ p ≤ 'Z')
    (hdn : dn = "up" ∨ dn = "down" ∨ dn = "left" ∨ dn = "right") :
    pySplitWs (p :: ' ' :: dn.data) = [[p], dn.data] := by
  have hstep : splitPred pyIsSpace (p :: ' ' :: dn.data) = [p] :: splitPred pyIsSpace dn.data := by
    have := @splitPred_chunk pyIsSpace ' ' (by decide)
      (r := [p]) (l := dn.data)
      (by intro c hc; simp only [List.mem_singleton] at hc; subst hc; exact upper_not_space hp)
    simpa using this
  have hdnsplit : splitPred pyIsSpace dn.data = [dn.data] := by
    apply splitPred_no_match
    rcases hdn with rfl | rfl | rfl | rfl <;> decide
  unfold pySplitWs
  rw [hstep, hdnsplit]
  have hdne : dn.data ≠ [] := by
    rcases hdn with rfl | rfl | rfl | rfl <;> decide
  simp [hdne]

theorem moveStr_pair {p : Char} {dn : String} (hp : 'A' ≤ p ∧ p ≤ 'Z')
    (hdn : dn = "up" ∨ dn = "down" ∨ dn = "left" ∨ dn = "right") :
    movePair (p :: ' ' :: dn.data) = ([p], dn.data) := by
  unfold movePair
  rcases hdn with rfl | rfl | rfl | rfl <;> simp

theorem dir_lower_self {dn : String}
    (hdn : dn = "up" ∨ dn = "down" ∨ dn = "left" ∨ dn = "right") :
    dn.data.map Char.toLower = dn.data := by
  rcases hdn with rfl | rfl | rfl | rfl <;> decide

theorem dirNames_contains {dn : String}
    (hdn : dn = "up" ∨ dn = "down" ∨ dn = "left" ∨ dn = "right") :
    dirNames.contains dn.data = true := by
  rcases hdn with rfl | rfl | rfl | rfl <;> decide

/-- Parsing a list of solver-shaped fragments accumulates exactly their
movePair forms. -/
theorem parse_moveStrs :
    ∀ (π : List (List Char)) (acc : List (List Char × List Char)),
      (∀ m ∈ π, MoveStr m) →
      parseSolFragments π acc = .done (acc ++ π.map movePair) := by
  intro π
  induction π with
  | nil => intro acc _; simp [parseSolFragments]
  | cons m rest ih =>
    intro acc hall
    have hm := hall m (List.mem_cons_self _ _)
    obtain ⟨p, dn, rfl, hp, hdn⟩ := hm
    have hstrip : pyStrip (p :: ' ' :: dn.data) = p :: ' ' :: dn.data :=
      moveStr_strip ⟨p, dn, rfl, hp, hdn⟩
    have hsplit := moveStr_splitWs hp hdn
    simp only [parseSolFragments, hstrip, hsplit]
    rw [if_neg (by simp)]
    rw [if_neg (by simp)]
    rw [if_neg (by
      intro hcon
      exact hcon (by
        simp only [List.getD_cons_succ, List.getD_cons_zero]
        rw [dir_lower_self hdn]
        exact dirNames_contains hdn))]
    rw [ih _ fun x hx => hall x (List.mem_cons_of_mem _ hx)]
    simp only [List.getD_cons_succ, List.getD_cons_zero]
    rw [dir_lower_self hdn, List.map_cons, moveStr_pair hp hdn]
    rw [List.append_assoc]
    rfl

/-! ## BFS soundness: the returned path replays to a winning state -/

theorem gpm_unique {g : KubobleGame} (hnd : (keysOf g.pieces).Nodup)
    {p : Char} {np1 np2 : Pos} {dn : String}
    (h1 : (p, np1, dn) ∈ get_possible_moves g)
    (h2 : (p, np2, dn) ∈ get_possible_moves g) : np1 = np2 := by
  obtain ⟨rc1, dd1, hmem1, hdd1, hdir1, _, hland1, _⟩ := of_mem_get_possible_moves h1
  obtain ⟨rc2, dd2, hmem2, hdd2, hdir2, _, hland2, _⟩ := of_mem_get_possible_moves h2
  dsimp only at hmem1 hdir1 hland1 hmem2 hdir2 hland2
  have hrc : rc1 = rc2 := mem_entry_unique hnd hmem1 hmem2
  have hdd1' : dd1 = ((-1 : Int), (0 : Int), "up") ∨ dd1 = (1, 0, "down") ∨
      dd1 = (0, -1, "left") ∨ dd1 = (0, 1, "right") := by
    simpa [dirList] using hdd1
  have hdd2' : dd2 = ((-1 : Int), (0 : Int), "up") ∨ dd2 = (1, 0, "down") ∨
      dd2 = (0, -1, "left") ∨ dd2 = (0, 1, "right") := by
    simpa [dirList] using hdd2
  rcases hdd1' with rfl | rfl | rfl | rfl <;> rcases hdd2' with rfl | rfl | rfl | rfl <;>
    first
      | exact absurd (hdir1.symm.trans hdir2) (by decide)
      | rw [hland1, hland2, hrc]

theorem replayRun_append (ms1 ms2 : List (List Char × List Char)) :
    ∀ g, replayRun g (ms1 ++ ms2) =
      (replayRun g ms1).bind fun gi => replayRun gi ms2 := by
  induction ms1 with
  | nil => intro g; simp [replayRun]
  | cons mv t ih =>
    intro g
    obtain ⟨tok, dir⟩ := mv
    match tok with
    | [] => simp [replayRun]
    | pc :: c2 :: rest => simp [replayRun]
    | [pc] =>
      simp only [List.cons_append, replayRun]
      cases hget : dictGet g.pieces pc with
      | none => simp
      | some orig =>
        cases hfind : findMatched orig pc dir (get_possible_moves g) with
        | none => simp [hfind]
        | some m =>
          cases happ : apply_move g m.1 m.2.1 with
          | none => simp [hfind, happ]
          | some g' => simpa [hfind, happ] using ih g'

theorem replayRun_step {g : KubobleGame} {B : List (List Char)} (hg : GoodState g B)
    {p : Char} {np : Pos} {dn : String} (hm : (p, np, dn) ∈ get_possible_moves g)
    {g' : KubobleGame} (happ : apply_move g p np = some g') :
    replayRun g [([p], dn.data)] = some g' := by
  have hnd := hg.2.1
  obtain ⟨rc, hget, hne, _⟩ := gpm_spec hnd hm
  simp only [replayRun, hget]
  cases hfind : findMatched rc p dn.data (get_possible_moves g) with
  | none =>
    exact absurd ⟨rfl, rfl, hne⟩ (findMatched_eq_none_iff.mp hfind (p, np, dn) hm)
  | some m =>
    obtain ⟨hmem, h1, h2, _⟩ := findMatched_some hfind
    have hdn2 : m.2.2 = dn := by
      rcases hdd : m.2.2 with ⟨l⟩
      rcases dn with ⟨l2⟩
      rw [hdd] at h2
      have hl : l = l2 := by simpa using h2
      rw [hl]
    have hmem' : (p, m.2.1, dn) ∈ get_possible_moves g := by
      have hme : m = (m.1, m.2.1, m.2.2) := rfl
      rw [hme, h1, hdn2] at hmem
      exact hmem
    have hland : m.2.1 = np := gpm_unique hnd hmem' hm
    simp only [h1, hland, happ]

/-- The piece letter is an uppercase non-X key and the direction one of the
four names, for every move emitted from a good state. -/
theorem gpm_move_shape {g : KubobleGame} {B : List (List Char)} (hg : GoodState g B)
    {p : Char} {np : Pos} {dn : String} (hm : (p, np, dn) ∈ get_possible_moves g) :
    ('A' ≤ p ∧ p ≤ 'Z') ∧
      (dn = "up" ∨ dn = "down" ∨ dn = "left" ∨ dn = "right") := by
  obtain ⟨rc, dd, hmem, hdd, hdir, _, _, _⟩ := of_mem_get_possible_moves hm
  dsimp only at hmem hdir
  constructor
  · have hk : p ∈ keysOf g.pieces := List.mem_map.mpr ⟨(p, rc), hmem, rfl⟩
    have := hg.2.2.1 p hk
    exact ⟨this.1, this.2.1⟩
  · have hdd' : dd = ((-1 : Int), (0 : Int), "up") ∨ dd = (1, 0, "down") ∨
        dd = (0, -1, "left") ∨ dd = (0, 1, "right") := by
      simpa [dirList] using hdd
    rcases hdd' with rfl | rfl | rfl | rfl
    · exact Or.inl hdir
    · exact Or.inr (Or.inl hdir)
    · exact Or.inr (Or.inr (Or.inl hdir))
    · exact Or.inr (Or.inr (Or.inr hdir))

/-- Soundness data carried for every BFS queue entry: the state is good and
the stored path replays from the start state to exactly that state. -/
def QSound (g0 : KubobleGame) (B : List (List Char)) (q : List QEntry) : Prop :=
  ∀ e ∈ q, GoodState e.1 B ∧ (∀ m ∈ e.2.1, MoveStr m) ∧
    replayRun g0 (e.2.1.map movePair) = some e.1

theorem bfsExpand_sound {g0 cur : KubobleGame} {B : List (List Char)}
    {path : List (List Char)} {d : Nat} (hcur : GoodState cur B)
    (hpm : ∀ m ∈ path, MoveStr m)
    (hpr : replayRun g0 (path.map movePair) = some cur) :
    ∀ (ms : List (Char × Pos × String)) (vis : List (List (Char × Pos)))
      (adds : List QEntry),
      (∀ m ∈ ms, m ∈ get_possible_moves cur) →
      QSound g0 B adds →
      (match bfsExpand cur path d ms vis adds with
       | .found π => π ≠ [] ∧ (∀ m ∈ π, MoveStr m) ∧
           ∃ gf, replayRun g0 (π.map movePair) = some gf ∧ is_win gf = true
       | .next _ adds2 => QSound g0 B adds2
       | .err => False) := by
  intro ms
  induction ms with
  | nil =>
    intro vis adds _ hadds
    exact hadds
  | cons mv rest ih =>
    intro vis adds hsub hadds
    obtain ⟨p, np, dn⟩ := mv
    have hmv : (p, np, dn) ∈ get_possible_moves cur := hsub _ (List.mem_cons_self _ _)
    obtain ⟨g', happ, hg', hpieces, _, _, _⟩ := good_step hcur hmv
    have hrest : ∀ m ∈ rest, m ∈ get_possible_moves cur :=
      fun m hm => hsub m (List.mem_cons_of_mem _ hm)
    have hshape := gpm_move_shape hcur hmv
    have hms : MoveStr (p :: ' ' :: dn.data) := ⟨p, dn, rfl, hshape.1, hshape.2⟩
    have hpm' : ∀ m ∈ path ++ [p :: ' ' :: dn.data], MoveStr m := by
      intro m hm
      rcases List.mem_append.mp hm with h | h
      · exact hpm m h
      · rw [List.mem_singleton] at h
        subst h
        exact hms
    have hrep' : replayRun g0 ((path ++ [p :: ' ' :: dn.data]).map movePair) = some g' := by
      rw [List.map_append, replayRun_append, hpr]
      simp only [List.map_cons, List.map_nil, moveStr_pair hshape.1 hshape.2,
        Option.some_bind]
      exact replayRun_step hcur hmv happ
    simp only [bfsExpand, happ]
    by_cases hwin : is_win g' = true
    · rw [if_pos hwin]
      exact ⟨by simp, hpm', g', hrep', hwin⟩
    · rw [if_neg hwin]
      by_cases hkey : sortPairs g'.pieces ∈ vis
      · rw [if_pos hkey]
        exact ih vis adds hrest hadds
      · rw [if_neg hkey]
        apply ih _ _ hrest
        intro e he
        rcases List.mem_append.mp he with h | h
        · exact hadds e h
        · rw [List.mem_singleton] at h
          subst h
          exact ⟨hg', hpm', hrep'⟩

theorem bfsLoop_sound {g0 : KubobleGame} {B : List (List Char)} {maxd : Nat} :
    ∀ (fuel : Nat) (q : List QEntry) (vis : List (List (Char × Pos)))
      (π : List (List Char)),
      QSound g0 B q → bfsLoop maxd fuel q vis = some π →
      π ≠ [] ∧ (∀ m ∈ π, MoveStr m) ∧
        ∃ gf, replayRun g0 (π.map movePair) = some gf ∧ is_win gf = true := by
  intro fuel
  induction fuel with
  | zero => intro q vis π _ h; simp [bfsLoop] at h
  | succ n ih =>
    intro q vis π hq h
    cases q with
    | nil => simp [bfsLoop] at h
    | cons e rest =>
      obtain ⟨cur, path, d⟩ := e
      obtain ⟨hcur, hpm, hpr⟩ := hq (cur, path, d) (List.mem_cons_self _ _)
      have hrest : QSound g0 B rest := fun x hx => hq x (List.mem_cons_of_mem _ hx)
      simp only [bfsLoop] at h
      by_cases hd : maxd ≤ d
      · rw [if_pos hd] at h
        exact ih rest vis π hrest h
      · rw [if_neg hd] at h
        have hexp := bfsExpand_sound (d := d) hcur hpm hpr (get_possible_moves cur) vis []
          (fun m hm => hm) (fun x hx => absurd hx (List.not_mem_nil x))
        cases hbe : bfsExpand cur path d (get_possible_moves cur) vis [] with
        | found π2 =>
          rw [hbe] at h hexp
          dsimp only at h hexp
          obtain rfl := Option.some_inj.mp h
          exact hexp
        | err =>
          rw [hbe] at hexp
          exact hexp.elim
        | next vis2 adds =>
          rw [hbe] at h hexp
          dsimp only at h hexp
          apply ih (rest ++ adds) vis2 π _ h
          intro x hx
          rcases List.mem_append.mp hx with h1 | h1
          · exact hrest x h1
          · exact hexp x h1

theorem verify_nil_sol (lvl : String) :
    verify_kuboble_solution lvl "" = some (is_win (mkGame lvl)) := by
  simp only [verify_kuboble_solution]
  rw [if_pos (Or.inl trivial)]

theorem is_win_empty {g : KubobleGame} (h : g.pieces = []) : is_win g = false := by
  unfold is_win
  rw [h]
  rfl

/-- A successful BFS result replays through the verifier: the solver's
solution string is accepted on the same level. -/
theorem solvable_verify {lvl sol : String} {maxd fuel : Nat}
    (h : _is_solvable_bfs (mkGame lvl) maxd fuel = some sol) :
    verify_kuboble_solution lvl sol = some true := by
  unfold _is_solvable_bfs at h
  rw [Option.map_eq_some'] at h
  obtain ⟨π, hlist, hsol⟩ := h
  subst hsol
  unfold _is_solvable_bfs_list at hlist
  by_cases hwin : is_win (mkGame lvl) = true
  · rw [if_pos hwin] at hlist
    obtain rfl := Option.some_inj.mp hlist
    rw [show String.mk (joinSep ';' ([] : List (List Char))) = "" from rfl]
    rw [verify_nil_sol lvl, hwin]
  · rw [if_neg hwin] at hlist
    have hstart : QSound (mkGame lvl) (stripPieces (mkGame lvl)) [(mkGame lvl, [], 0)] := by
      intro e he
      rw [List.mem_singleton] at he
      subst he
      exact ⟨parse_good lvl.data, fun m hm => absurd hm (List.not_mem_nil m), rfl⟩
    obtain ⟨hne, hms, gf, hrep, hwinf⟩ := bfsLoop_sound fuel _ _ π hstart hlist
    obtain ⟨m0, πt, rfl⟩ : ∃ m0 πt, π = m0 :: πt := by
      cases π with
      | nil => exact absurd rfl hne
      | cons a b => exact ⟨a, b, rfl⟩
    obtain ⟨p0, dn0, hm0eq, hp0, hdn0⟩ := hms m0 (List.mem_cons_self _ _)
    have hp0mem : p0 ∈ joinSep ';' (m0 :: πt) := by
      apply mem_of_mem_joinSep (List.mem_cons_self m0 πt)
      rw [hm0eq]
      exact List.mem_cons_self _ _
    have hcond : ¬(joinSep ';' (m0 :: πt) = [] ∨ pyStrip (joinSep ';' (m0 :: πt)) = []) :=
      @pyStrip_sol_ne_nil ⟨joinSep ';' (m0 :: πt)⟩ p0 hp0mem (upper_not_space hp0)
    have hsplit : splitSep ';' (joinSep ';' (m0 :: πt)) = m0 :: πt := by
      apply splitSep_joinSep (by simp)
      intro r hr c hc
      exact moveStr_no_semi (hms r hr) c hc
    simp only [verify_kuboble_solution]
    rw [hsplit, parse_moveStrs _ [] hms]
    rw [List.nil_append]
    have hcond2 : ¬(List.map movePair (m0 :: πt) = [] ∧
        pyStrip (joinSep ';' (m0 :: πt)) ≠ []) := by simp
    simp only [if_neg hcond, if_neg hcond2]
    rw [replayMoves_of_run hrep, hwinf]

/-! ## The num_pieces = 0 level parses to a pieceless state -/

theorem classify_none {tok : List Char}
    (h : ∀ c ∈ tok, ¬('A' ≤ c ∧ c ≤ 'Z')) : (classifyToken tok).1 = none := by
  unfold classifyToken
  by_cases hx : tok = ['X'] ∨ tok = ['.']
  · rw [if_pos hx]
  · rw [if_neg hx]
    match tok, h with
    | [], _ => rfl
    | [ch], h =>
      dsimp only
      by_cases hlo : 'a' ≤ ch ∧ ch ≤ 'z'
      · rw [if_pos hlo]
      · rw [if_neg hlo]
        rw [if_neg (h ch (List.mem_cons_self _ _))]
    | c1 :: c2 :: rest, h =>
      dsimp only
      have := foldl_preserve (fun pt : Option Char × Option Char => pt.1 = none)
        (fun pt sub =>
          if 'a' ≤ sub ∧ sub ≤ 'z' then (pt.1, some sub)
          else if 'A' ≤ sub ∧ sub ≤ 'Z' then (some sub, pt.2)
          else pt)
        (c1 :: c2 :: rest) (none, none) rfl ?_
      · exact this
      · intro b a ha hb
        dsimp only
        by_cases hlo : 'a' ≤ a ∧ a ≤ 'z'
        · rw [if_pos hlo]
          exact hb
        · rw [if_neg hlo, if_neg (h a ha)]
          exact hb

theorem pyStrip_subset {l : List Char} : ∀ c ∈ pyStrip l, c ∈ l := by
  intro c hc
  unfold pyStrip at hc
  rw [List.mem_reverse] at hc
  have h1 := (List.dropWhile_sublist _).subset hc
  rw [List.mem_reverse] at h1
  exact (List.dropWhile_sublist _).subset h1

theorem rowTokens_chars {raw tok : List Char} (htok : tok ∈ rowTokens raw) :
    ∀ c ∈ tok, c ∈ raw := by
  intro c hc
  simp only [rowTokens] at htok
  by_cases h0 : pyStrip raw = []
  · rw [if_pos h0] at htok
    simp at htok
  · rw [if_neg h0] at htok
    by_cases hsp : (pyStrip raw).contains ' '
    · rw [if_pos hsp] at htok
      have hmem := List.mem_filter.mp htok
      have h1 : tok ∈ splitPred (fun x => decide (x = ' ')) (pyStrip raw) := hmem.1
      exact pyStrip_subset _ (mem_splitPred h1 c hc).1
    · rw [if_neg hsp] at htok
      by_cases hdot : (pyStrip raw).contains '.'
      · rw [if_pos hdot] at htok
        obtain ⟨x, hx, rfl⟩ := List.mem_map.mp htok
        rw [List.mem_singleton] at hc
        subst hc
        exact pyStrip_subset _ hx
      · rw [if_neg hdot] at htok
        rw [List.mem_singleton] at htok
        subst htok
        exact pyStrip_subset _ hc

theorem collectPT_no_upper {rows : List (List (List Char))} {w : Nat}
    (h : ∀ tk ∈ rows, ∀ tok ∈ tk, ∀ c ∈ tok, ¬('A' ≤ c ∧ c ≤ 'Z')) :
    (collectPT w rows).1 = [] := by
  have hinv := (collectPT_inv rows w).2
  rw [List.eq_nil_iff_forall_not_mem]
  intro e he
  obtain ⟨r, c, _, hr, hc, _, hcls⟩ := hinv e he
  have htk : rows.getD r [] ∈ rows := getD_mem_of_lt _ _ _ hr
  have htok : (rows.getD r []).getD c [] ∈ rows.getD r [] := getD_mem_of_lt _ _ _ hc
  rw [classify_none (fun x hx => h _ htk _ htok x hx)] at hcls
  exact Option.noConfusion hcls

theorem parse_no_upper {chars : List Char}
    (h : ∀ c ∈ chars, ¬('A' ≤ c ∧ c ≤ 'Z')) : (_parse_level chars).pieces = [] := by
  have hne : splitSep ';' (pyStrip chars) ≠ [] := splitSep_ne_nil _ _
  have hlen : ¬ (splitSep ';' (pyStrip chars)).length = 0 := by
    simpa [List.length_eq_zero] using hne
  simp only [_parse_level]
  rw [if_neg hlen]
  dsimp only
  have hAP : (collectPT
      ((((splitSep ';' (pyStrip chars)).map rowTokens).map List.length).foldl Nat.max 0)
      ((splitSep ';' (pyStrip chars)).map rowTokens)).1 = [] := by
    apply collectPT_no_upper
    intro tk htk tok htok c hc
    obtain ⟨raw, hraw, rfl⟩ := List.mem_map.mp htk
    have hcraw : c ∈ raw := rowTokens_chars htok c hc
    have h1 : raw ∈ splitPred (fun x => decide (x = ';')) (pyStrip chars) := hraw
    have h2 : c ∈ pyStrip chars := (mem_splitPred h1 c hcraw).1
    exact h c (pyStrip_subset _ h2)
  rw [hAP]
  rfl

theorem coords_empty_no_upper (w h : Nat) :
    ∀ c ∈ (_coords_to_level_string w h [] [] []).data, ¬('A' ≤ c ∧ c ≤ 'Z') := by
  intro c hc
  have hred : (_coords_to_level_string w h [] [] []).data =
      joinSep ';' ((List.replicate h (List.replicate w (['.'] : List Char))).map
        fun row => joinSep ' ' row) := rfl
  rw [hred] at hc
  rcases mem_joinSep_sub hc with rfl | ⟨r, hr, hcr⟩
  · decide
  · obtain ⟨row, hrow, rfl⟩ := List.mem_map.mp hr
    have hrow' := List.eq_of_mem_replicate hrow
    subst hrow'
    rcases mem_joinSep_sub hcr with rfl | ⟨t, ht, hct⟩
    · decide
    · have ht' := List.eq_of_mem_replicate ht
      subst ht'
      rw [List.mem_singleton] at hct
      subst hct
      decide

/-! ## Generator plumbing: successful attempts come from the solver -/

theorem genAttempt_solvable {w h np no maxd fuel : Nat} {rnt : Bool}
    {coords : List Pos} {lvl sol : String}
    (hga : genAttempt w h np no maxd fuel rnt coords = some (lvl, sol)) :
    _is_solvable_bfs (mkGame lvl) maxd fuel = some sol := by
  simp only [genAttempt] at hga
  split at hga
  · exact Option.noConfusion hga
  · split at hga
    · exact Option.noConfusion hga
    · split at hga
      · rename_i sol2 hsol2
        have hpair := Option.some_inj.mp hga
        rw [Prod.ext_iff] at hpair
        obtain ⟨he1, he2⟩ := hpair
        dsimp only at he1 he2
        rw [← he1, ← he2]
        exact hsol2
      · exact Option.noConfusion hga

theorem genLoop_solvable {w h np no maxd fuel : Nat} {rnt : Bool}
    {sh : Nat → List Pos} :
    ∀ (n a : Nat) {lvl sol : String},
      genLoop w h np no maxd fuel rnt sh n a = some (lvl, sol) →
      _is_solvable_bfs (mkGame lvl) maxd fuel = some sol := by
  intro n
  induction n with
  | zero =>
    intro a lvl sol hx
    exact Option.noConfusion hx
  | succ k ih =>
    intro a lvl sol hx
    simp only [genLoop] at hx
    cases hga : genAttempt w h np no maxd fuel rnt (sh a) with
    | some r =>
      rw [hga] at hx
      dsimp only at hx
      obtain rfl := Option.some_inj.mp hx
      exact genAttempt_solvable hga
    | none =>
      rw [hga] at hx
      dsimp only at hx
      exact ih (a + 1) hx

/-- C1 (counterexample to the claim as stated): with num_pieces = 0 the
generator returns the pair (".", ""), but verify_kuboble_solution on that
pair returns false, because the parsed level has no pieces and a pieceless
state is not won. -/
theorem C1_counterexample :
    generate_kuboble_level 1 1 0 0 1 5 true (fun _ => []) 10 =
      .ok (some (".", "")) ∧
    verify_kuboble_solution "." "" = some false := by
  constructor
  · rfl
  · rfl

/-- C1 (amended): every (level, solution) pair returned by
generate_kuboble_level with num_pieces ≥ 1 is accepted by
verify_kuboble_solution; the num_pieces = 0 special case instead returns an
empty solution whose pair verifies false (the level parses to a pieceless
state, which is not won). -/
theorem C1_amended (w h np no maxAttempts maxd : Nat) (rnt : Bool)
    (sh : Nat → List Pos) (fuel : Nat) (lvl sol : String)
    (hgen : generate_kuboble_level w h np no maxAttempts maxd rnt sh fuel =
      .ok (some (lvl, sol))) :
    (1 ≤ np → verify_kuboble_solution lvl sol = some true) ∧
    (np = 0 → sol = "" ∧ verify_kuboble_solution lvl sol = some false) := by
  constructor
  · intro hnp
    unfold generate_kuboble_level at hgen
    rw [if_neg (by omega)] at hgen
    by_cases h26 : 26 < np
    · rw [if_pos h26] at hgen
      exact Except.noConfusion hgen
    · rw [if_neg h26] at hgen
      by_cases hcap : w * h < np * 2 + no
      · rw [if_pos hcap] at hgen
        exact Except.noConfusion hgen
      · rw [if_neg hcap] at hgen
        have hloop := Except.ok.inj hgen
        exact solvable_verify (genLoop_solvable maxAttempts 0 hloop)
  · intro hnp
    subst hnp
    unfold generate_kuboble_level at hgen
    rw [if_pos rfl] at hgen
    have h2 := Except.ok.inj hgen
    have h3 := Option.some_inj.mp h2
    rw [Prod.ext_iff] at h3
    obtain ⟨hlvl, hsol⟩ := h3
    dsimp only at hlvl hsol
    refine ⟨hsol.symm, ?_⟩
    rw [← hsol, ← hlvl]
    rw [verify_nil_sol]
    have hpieces : (mkGame (_coords_to_level_string w h [] [] [])).pieces = [] :=
      parse_no_upper (coords_empty_no_upper w h)
    rw [is_win_empty hpieces]

theorem C1_witness :
    generate_kuboble_level 2 1 1 0 1 5 true
        (fun _ => [((0 : Int), (0 : Int)), (0, 1)]) 100 =
      .ok (some ("a A", "A left")) ∧
    verify_kuboble_solution "a A" "A left" = some true := by
  have hgen : generate_kuboble_level 2 1 1 0 1 5 true
      (fun _ => [((0 : Int), (0 : Int)), (0, 1)]) 100 =
      .ok (some ("a A", "A left")) := by rfl
  exact ⟨hgen,
    (C1_amended 2 1 1 0 1 5 true (fun _ => [((0 : Int), (0 : Int)), (0, 1)]) 100
      "a A" "A left" hgen).1 (by decide)⟩

/-! ## BFS optimality: visited-key injectivity on good states -/

/-- A winning move chain: each move drawn from get_possible_moves of the
state it is applied to, ending in a won state. -/
def IsWinChain : KubobleGame → List (Char × Pos × String) → Prop
  | g, [] => is_win g = true
  | g, m :: ms => m ∈ get_possible_moves g ∧
      match apply_move g m.1 m.2.1 with
      | none => False
      | some g' => IsWinChain g' ms

/-- The fields of the state that every move preserves, relative to the BFS
start state; together with the grid cache they make the sorted pieces list a
faithful key. -/
def SameSig (g0 u : KubobleGame) : Prop :=
  u.targets = g0.targets ∧ u.width = g0.width ∧ u.height = g0.height ∧
    keysOf u.pieces = keysOf g0.pieces

theorem sameSig_refl (g0 : KubobleGame) : SameSig g0 g0 := ⟨rfl, rfl, rfl, rfl⟩

theorem sameSig_step {g0 u u' : KubobleGame} {B : List (List Char)}
    (hg : GoodState u B) (hs : SameSig g0 u) {p : Char} {land : Pos} {dir : String}
    (hm : (p, land, dir) ∈ get_possible_moves u)
    (happ : apply_move u p land = some u') : SameSig g0 u' := by
  obtain ⟨g2, happ2, _, hpieces, htg, hw, hh⟩ := good_step hg hm
  rw [happ2] at happ
  obtain rfl := Option.some_inj.mp happ
  obtain ⟨rc, hget, _, _⟩ := gpm_spec hg.2.1 hm
  refine ⟨htg.trans hs.1, hw.trans hs.2.1, hh.trans hs.2.2.1, ?_⟩
  show keysOf g2.pieces = _
  rw [hpieces]
  show (dictSet u.pieces p land).map Prod.fst = _
  rw [dictSet_map_fst u.pieces p land (by rw [hget]; exact Option.noConfusion)]
  exact hs.2.2.2

theorem insPair_perm (a : Char × Pos) :
    ∀ l : List (Char × Pos), List.Perm (insPair a l) (a :: l) := by
  intro l
  induction l with
  | nil => exact List.Perm.refl _
  | cons b t ih =>
    unfold insPair
    by_cases h : pairLe a b
    · rw [if_pos h]
    · rw [if_neg h]
      exact (List.Perm.cons b ih).trans (List.Perm.swap a b t)

theorem sortPairs_perm : ∀ l : List (Char × Pos), List.Perm (sortPairs l) l := by
  intro l
  induction l with
  | nil => exact List.Perm.refl _
  | cons a t ih =>
    show List.Perm (insPair a (sortPairs t)) _
    exact (insPair_perm a (sortPairs t)).trans (List.Perm.cons a ih)

theorem mem_iff_of_sortPairs_eq {l1 l2 : List (Char × Pos)}
    (h : sortPairs l1 = sortPairs l2) : ∀ x, x ∈ l1 ↔ x ∈ l2 := by
  intro x
  rw [← (sortPairs_perm l1).mem_iff, h, (sortPairs_perm l2).mem_iff]

theorem eq_of_mem_iff_of_keys :
    ∀ {l1 l2 : List (Char × Pos)}, l1.map Prod.fst = l2.map Prod.fst →
      (l1.map Prod.fst).Nodup → (∀ x, x ∈ l1 ↔ x ∈ l2) → l1 = l2 := by
  intro l1
  induction l1 with
  | nil =>
    intro l2 hk _ _
    cases l2 with
    | nil => rfl
    | cons b t => simp at hk
  | cons a t1 ih =>
    intro l2 hk hnd hmem
    cases l2 with
    | nil => simp at hk
    | cons b t2 =>
      rw [List.map_cons, List.map_cons] at hk
      have hk1 : a.1 = b.1 := (List.cons.injEq _ _ _ _ ▸ hk).1
      have hk2 : t1.map Prod.fst = t2.map Prod.fst := (List.cons.injEq _ _ _ _ ▸ hk).2
      rw [List.map_cons, List.nodup_cons] at hnd
      have hab : a = b := by
        have ha2 : a ∈ b :: t2 := (hmem a).mp (List.mem_cons_self _ _)
        rcases List.mem_cons.mp ha2 with h | h
        · exact h
        · exfalso
          apply hnd.1
          rw [hk2]
          exact List.mem_map.mpr ⟨a, h, rfl⟩
      subst hab
      have htail : ∀ x, x ∈ t1 ↔ x ∈ t2 := by
        intro x
        constructor
        · intro hx
          have := (hmem x).mp (List.mem_cons_of_mem _ hx)
          rcases List.mem_cons.mp this with h | h
          · exfalso
            apply hnd.1
            subst h
            exact List.mem_map.mpr ⟨x, hx, rfl⟩
          · exact h
        · intro hx
          have := (hmem x).mpr (List.mem_cons_of_mem _ hx)
          rcases List.mem_cons.mp this with h | h
          · exfalso
            apply hnd.1
            subst h
            rw [hk2]
            exact List.mem_map.mpr ⟨x, hx, rfl⟩
          · exact h
      rw [ih hk2 hnd.2 htail]

/-- Two good states with the BFS-preserved signature and the same sorted
pieces key are equal: the visited-set key is injective on the states the
search can reach. -/
theorem state_eq_of_key_eq {g0 u v : KubobleGame} {B : List (List Char)}
    (hu : GoodState u B) (hv : GoodState v B) (hsu : SameSig g0 u)
    (hsv : SameSig g0 v) (hkey : sortPairs u.pieces = sortPairs v.pieces) :
    u = v := by
  have hkeys : u.pieces.map Prod.fst = v.pieces.map Prod.fst := by
    have h1 : keysOf u.pieces = keysOf v.pieces := hsu.2.2.2.trans hsv.2.2.2.symm
    exact h1
  have hpieces : u.pieces = v.pieces :=
    eq_of_mem_iff_of_keys hkeys hu.2.1 (mem_iff_of_sortPairs_eq hkey)
  have hw : u.width = v.width := hsu.2.1.trans hsv.2.1.symm
  have hh : u.height = v.height := hsu.2.2.1.trans hsv.2.2.1.symm
  have htg : u.targets = v.targets := hsu.1.trans hsv.1.symm
  have hgrid : u.grid = v.grid := by
    rw [hu.2.2.2.2.2.2, hv.2.2.2.2.2.2, hpieces, hw, hh]
  cases u
  cases v
  dsimp only at hpieces hw hh htg hgrid
  subst hpieces
  subst hw
  subst hh
  subst htg
  subst hgrid
  rfl

/-- The per-expansion bookkeeping for the optimality proof: queued additions
are good, non-winning, depth-d+1 successors with paths of length d+1, the
visited list grows in lockstep with the additions, and every successor of an
expanded move is non-winning with its key visited. -/
theorem bfsExpand_opt {g0 cur : KubobleGame} {B : List (List Char)}
    {path : List (List Char)} {d : Nat}
    (hcur : GoodState cur B) (hsig : SameSig g0 cur) (hlen : path.length = d) :
    ∀ (ms : List (Char × Pos × String)) (vis0 vis : List (List (Char × Pos)))
      (adds : List QEntry),
      (∀ m ∈ ms, m ∈ get_possible_moves cur) →
      (∀ e ∈ adds, GoodState e.1 B ∧ SameSig g0 e.1 ∧ is_win e.1 = false ∧
        e.2.2 = d + 1 ∧ e.2.1.length = d + 1) →
      vis = vis0 ++ adds.map (fun e => sortPairs e.1.pieces) →
      (match bfsExpand cur path d ms vis adds with
       | .found π2 => π2.length = d + 1
       | .next vis2 adds2 =>
           (∀ e ∈ adds2, GoodState e.1 B ∧ SameSig g0 e.1 ∧ is_win e.1 = false ∧
             e.2.2 = d + 1 ∧ e.2.1.length = d + 1) ∧
           vis2 = vis0 ++ adds2.map (fun e => sortPairs e.1.pieces) ∧
           (∀ m ∈ ms, ∀ u', apply_move cur m.1 m.2.1 = some u' →
             is_win u' = false ∧ sortPairs u'.pieces ∈ vis2) ∧
           (∀ e ∈ adds, e ∈ adds2)
       | .err => False) := by
  intro ms
  induction ms with
  | nil =>
    intro vis0 vis adds _ hadds hvis
    exact ⟨hadds, hvis, fun m hm => absurd hm (List.not_mem_nil m), fun e he => he⟩
  | cons mv rest ih =>
    intro vis0 vis adds hsub hadds hvis
    obtain ⟨p, np, dn⟩ := mv
    have hmv : (p, np, dn) ∈ get_possible_moves cur := hsub _ (List.mem_cons_self _ _)
    have hrest : ∀ m ∈ rest, m ∈ get_possible_moves cur :=
      fun m hm => hsub m (List.mem_cons_of_mem _ hm)
    obtain ⟨nxt, happ, hnxt, _, _, _, _⟩ := good_step hcur hmv
    have hnsig : SameSig g0 nxt := sameSig_step hcur hsig hmv happ
    simp only [bfsExpand, happ]
    by_cases hwin : is_win nxt = true
    · rw [if_pos hwin]
      simp [hlen]
    · rw [if_neg hwin]
      have hwinf : is_win nxt = false := by
        rwa [Bool.not_eq_true] at hwin
      by_cases hkey : sortPairs nxt.pieces ∈ vis
      · rw [if_pos hkey]
        have hrec := ih vis0 vis adds hrest hadds hvis
        cases hbe : bfsExpand cur path d rest vis adds with
        | found π2 =>
          rw [hbe] at hrec
          exact hrec
        | err =>
          rw [hbe] at hrec
          exact hrec
        | next vis2 adds2 =>
          rw [hbe] at hrec
          obtain ⟨ha2, hv2, hsucc, hmono⟩ := hrec
          refine ⟨ha2, hv2, ?_, hmono⟩
          intro m hm u' happ'
          rcases List.mem_cons.mp hm with rfl | hm
          · rw [happ] at happ'
            obtain rfl := Option.some_inj.mp happ'
            refine ⟨hwinf, ?_⟩
            rw [hvis] at hkey
            rw [hv2]
            rcases List.mem_append.mp hkey with h | h
            · exact List.mem_append_left _ h
            · apply List.mem_append_right
              obtain ⟨e, he, heq⟩ := List.mem_map.mp h
              exact List.mem_map.mpr ⟨e, hmono e he, heq⟩
          · exact hsucc m hm u' happ'
      · rw [if_neg hkey]
        have hadds' : ∀ e ∈ adds ++ [(nxt, path ++ [p :: ' ' :: dn.data], d + 1)],
            GoodState e.1 B ∧ SameSig g0 e.1 ∧ is_win e.1 = false ∧
              e.2.2 = d + 1 ∧ e.2.1.length = d + 1 := by
          intro e he
          rcases List.mem_append.mp he with h | h
          · exact hadds e h
          · rw [List.mem_singleton] at h
            subst h
            exact ⟨hnxt, hnsig, hwinf, rfl, by simp [hlen]⟩
        have hvis' : vis ++ [sortPairs nxt.pieces] =
            vis0 ++ (adds ++ [(nxt, path ++ [p :: ' ' :: dn.data], d + 1)]).map
              (fun e => sortPairs e.1.pieces) := by
          rw [hvis, List.map_append]
          simp
        have hrec := ih vis0 (vis ++ [sortPairs nxt.pieces])
          (adds ++ [(nxt, path ++ [p :: ' ' :: dn.data], d + 1)]) hrest hadds' hvis'
        cases hbe : bfsExpand cur path d rest (vis ++ [sortPairs nxt.pieces])
            (adds ++ [(nxt, path ++ [p :: ' ' :: dn.data], d + 1)]) with
        | found π2 =>
          rw [hbe] at hrec
          exact hrec
        | err =>
          rw [hbe] at hrec
          exact hrec
        | next vis2 adds2 =>
          rw [hbe] at hrec
          obtain ⟨ha2, hv2, hsucc, hmono⟩ := hrec
          refine ⟨ha2, hv2, ?_, fun e he => hmono e (List.mem_append_left _ he)⟩
          intro m hm u' happ'
          rcases List.mem_cons.mp hm with rfl | hm
          · rw [happ] at happ'
            obtain rfl := Option.some_inj.mp happ'
            refine ⟨hwinf, ?_⟩
            rw [hv2]
            apply List.mem_append_right
            apply List.mem_map.mpr
            refine ⟨(nxt, path ++ [p :: ' ' :: dn.data], d + 1), ?_, rfl⟩
            exact hmono _ (List.mem_append_right _ (List.mem_singleton.mpr rfl))
          · exact hsucc m hm u' happ'

/-- The BFS optimality invariant over the queue, the visited list, and a
ghost list VS of all states ever marked visited with the depth at which they
were marked. Every ghost entry is good, signature-preserving and
non-winning, and is either still queued at its depth, fully expanded
(closed: all successors non-winning and visited at depth at most one more),
or discarded at the depth cap. The queue agrees with the ghost list, visited
keys are exactly the ghost keys in order, queue depths are nondecreasing,
and all recorded depths are within one of every queued depth. -/
def OptInv (g0 : KubobleGame) (B : List (List Char)) (maxd : Nat)
    (q : List QEntry) (vis : List (List (Char × Pos)))
    (VS : List (KubobleGame × Nat)) : Prop :=
  (∀ e ∈ VS, GoodState e.1 B ∧ SameSig g0 e.1 ∧ is_win e.1 = false ∧
    ((∃ pth, (e.1, pth, e.2) ∈ q) ∨
     (∀ m ∈ get_possible_moves e.1, ∀ u', apply_move e.1 m.1 m.2.1 = some u' →
        is_win u' = false ∧ ∃ du', (u', du') ∈ VS ∧ du' ≤ e.2 + 1) ∨
     maxd ≤ e.2)) ∧
  (∀ f ∈ q, (f.1, f.2.2) ∈ VS ∧ f.2.1.length = f.2.2) ∧
  vis = VS.map (fun e => sortPairs e.1.pieces) ∧
  List.Sorted (· ≤ ·) (q.map fun x => x.2.2) ∧
  (∀ e ∈ VS, ∀ f ∈ q, e.2 ≤ f.2.2 + 1)

theorem sorted_const {c : Nat} :
    ∀ {L : List Nat}, (∀ x ∈ L, x = c) → List.Sorted (· ≤ ·) L := by
  intro L
  induction L with
  | nil => intro _; exact List.sorted_nil
  | cons a t ih =>
    intro h
    rw [List.sorted_cons]
    refine ⟨?_, ih fun x hx => h x (List.mem_cons_of_mem _ hx)⟩
    intro b hb
    rw [h a (List.mem_cons_self _ _), h b (List.mem_cons_of_mem _ hb)]

/-- Any ghost entry with a winning continuation within the depth cap can be
re-anchored at a still-queued entry with a continuation at most as long in
total depth. -/
theorem bfs_anchor {g0 : KubobleGame} {B : List (List Char)} {maxd : Nat}
    {q : List QEntry} {vis : List (List (Char × Pos))}
    {VS : List (KubobleGame × Nat)}
    (hinv : OptInv g0 B maxd q vis VS) :
    ∀ (l : Nat) (u : KubobleGame) (du : Nat) (C : List (Char × Pos × String)),
      C.length = l → (u, du) ∈ VS → IsWinChain u C → du + l < maxd →
      ∃ t pt dt C2, (t, pt, dt) ∈ q ∧ IsWinChain t C2 ∧
        dt + C2.length ≤ du + l := by
  intro l
  induction l using Nat.strong_induction_on with
  | _ l ih =>
    intro u du C hC hmem hwin hlt
    obtain ⟨_, _, hnw, hstatus⟩ := hinv.1 (u, du) hmem
    rcases hstatus with ⟨pth, hq⟩ | hcl | hdi
    · exact ⟨u, pth, du, C, hq, hwin, by omega⟩
    · cases C with
      | nil =>
        simp only [IsWinChain] at hwin
        rw [hwin] at hnw
        exact Bool.noConfusion hnw
      | cons m C2 =>
        simp only [IsWinChain] at hwin
        obtain ⟨hm, hrest⟩ := hwin
        cases happ : apply_move u m.1 m.2.1 with
        | none =>
          rw [happ] at hrest
          exact hrest.elim
        | some u' =>
          rw [happ] at hrest
          obtain ⟨_, du', hdu'mem, hdu'le⟩ := hcl m hm u' happ
          have hl : l = C2.length + 1 := by rw [← hC]; simp
          have hrec := ih (l - 1) (by omega) u' du' C2 (by omega) hdu'mem hrest
            (by omega)
          obtain ⟨t, pt, dt, C3, h1, h2, h3⟩ := hrec
          exact ⟨t, pt, dt, C3, h1, h2, by omega⟩
    · exact absurd hlt (by omega)

theorem bfsLoop_opt {g0 : KubobleGame} {B : List (List Char)} {maxd : Nat} :
    ∀ (fuel : Nat) (q : List QEntry) (vis : List (List (Char × Pos)))
      (VS : List (KubobleGame × Nat)) (π : List (List Char)),
      OptInv g0 B maxd q vis VS → bfsLoop maxd fuel q vis = some π →
      π.length ≤ maxd ∧
      ∀ u du C, (u, du) ∈ VS → IsWinChain u C → du + C.length < maxd →
        π.length ≤ du + C.length := by
  intro fuel
  induction fuel with
  | zero => intro q vis VS π _ h; simp [bfsLoop] at h
  | succ n ih =>
    intro q vis VS π hinv h
    cases q with
    | nil => simp [bfsLoop] at h
    | cons f rest =>
      obtain ⟨s, p, d⟩ := f
      simp only [bfsLoop] at h
      obtain ⟨hinv1, hinv2, hinv3, hinv4, hinv5⟩ := hinv
      obtain ⟨hheadVS, hheadlen⟩ := hinv2 (s, p, d) (List.mem_cons_self _ _)
      obtain ⟨hsgood, hssig, hsnw, _⟩ := hinv1 (s, d) hheadVS
      have hsorted : List.Sorted (· ≤ ·) (d :: rest.map fun x => x.2.2) := hinv4
      have hhead_le : ∀ b ∈ rest.map (fun x => x.2.2), d ≤ b :=
        (List.sorted_cons.mp hsorted).1
      have hrest_sorted := (List.sorted_cons.mp hsorted).2
      by_cases hd : maxd ≤ d
      · rw [if_pos hd] at h
        have hinv' : OptInv g0 B maxd rest vis VS := by
          refine ⟨?_, fun f hf => hinv2 f (List.mem_cons_of_mem _ hf), hinv3,
            hrest_sorted, fun e he f hf => hinv5 e he f (List.mem_cons_of_mem _ hf)⟩
          intro e he
          obtain ⟨h1, h2, h3, h4⟩ := hinv1 e he
          refine ⟨h1, h2, h3, ?_⟩
          rcases h4 with ⟨pth, hq⟩ | hcl | hdi
          · rcases List.mem_cons.mp hq with heq | hq
            · right; right
              have he2 : e.2 = d := congrArg (fun x => x.2.2) heq
              omega
            · exact Or.inl ⟨pth, hq⟩
          · exact Or.inr (Or.inl hcl)
          · exact Or.inr (Or.inr hdi)
        exact ih rest vis VS π hinv' h
      · rw [if_neg hd] at h
        have hexp := bfsExpand_opt hsgood hssig hheadlen (get_possible_moves s)
          vis vis [] (fun m hm => hm) (fun e he => absurd he (List.not_mem_nil e))
          (by simp)
        cases hbe : bfsExpand s p d (get_possible_moves s) vis [] with
        | found π2 =>
          rw [hbe] at h hexp
          dsimp only at h hexp
          obtain rfl := Option.some_inj.mp h
          constructor
          · omega
          · intro u du C hmem hchain hlt
            obtain ⟨t, pt, dt, C2, htq, htchain, htle⟩ :=
              bfs_anchor ⟨hinv1, hinv2, hinv3, hinv4, hinv5⟩ C.length u du C rfl
                hmem hchain hlt
            obtain ⟨htVS, _⟩ := hinv2 (t, pt, dt) htq
            have htnw := (hinv1 (t, dt) htVS).2.2.1
            have hC2len : 1 ≤ C2.length := by
              cases C2 with
              | nil =>
                simp only [IsWinChain] at htchain
                rw [htchain] at htnw
                exact Bool.noConfusion htnw
              | cons a b => simp
            rcases List.mem_cons.mp htq with heq | hq
            · have hdt : dt = d := congrArg (fun x => x.2.2) heq
              omega
            · have hdt : d ≤ dt :=
                hhead_le dt (List.mem_map.mpr ⟨(t, pt, dt), hq, rfl⟩)
              omega
        | err =>
          rw [hbe] at hexp
          exact hexp.elim
        | next vis2 adds2 =>
          rw [hbe] at h hexp
          dsimp only at h hexp
          obtain ⟨ha2, hv2, hsucc, _⟩ := hexp
          have hkeyres : ∀ u', GoodState u' B → SameSig g0 u' →
              sortPairs u'.pieces ∈ vis2 →
              ∃ du', (u', du') ∈ VS ++ adds2.map (fun e => (e.1, e.2.2)) ∧
                du' ≤ d + 1 := by
            intro u' hgood' hsig' hkey
            rw [hv2] at hkey
            rcases List.mem_append.mp hkey with hk | hk
            · rw [hinv3] at hk
              obtain ⟨e, he, heq⟩ := List.mem_map.mp hk
              obtain ⟨heg, hes, _, _⟩ := hinv1 e he
              have heq1 : e.1 = u' := state_eq_of_key_eq heg hgood' hes hsig' heq
              refine ⟨e.2, ?_, hinv5 e he (s, p, d) (List.mem_cons_self _ _)⟩
              rw [← heq1, show (e.1, e.2) = e from rfl]
              exact List.mem_append_left _ he
            · obtain ⟨e, he, heq⟩ := List.mem_map.mp hk
              obtain ⟨heg, hes, _, hed, _⟩ := ha2 e he
              have heq1 : e.1 = u' := state_eq_of_key_eq heg hgood' hes hsig' heq
              refine ⟨d + 1, ?_, le_refl _⟩
              rw [← heq1]
              apply List.mem_append_right
              apply List.mem_map.mpr
              refine ⟨e, he, ?_⟩
              rw [hed]
          have hinv' : OptInv g0 B maxd (rest ++ adds2) vis2
              (VS ++ adds2.map (fun e => (e.1, e.2.2))) := by
            refine ⟨?_, ?_, ?_, ?_, ?_⟩
            · intro e he
              rcases List.mem_append.mp he with he | he
              · obtain ⟨h1, h2, h3, h4⟩ := hinv1 e he
                refine ⟨h1, h2, h3, ?_⟩
                rcases h4 with ⟨pth, hq⟩ | hcl | hdi
                · rcases List.mem_cons.mp hq with heq | hq
                  · right; left
                    have he1 : e.1 = s := congrArg (fun x => x.1) heq
                    have he2 : e.2 = d := congrArg (fun x => x.2.2) heq
                    intro m hm u' happ'
                    rw [he1] at hm happ'
                    have hs' := hsucc m hm u' happ'
                    refine ⟨hs'.1, ?_⟩
                    obtain ⟨g2, happ2, hg2, _, _, _, _⟩ := good_step hsgood hm
                    rw [happ2] at happ'
                    obtain rfl := Option.some_inj.mp happ'
                    obtain ⟨du', hmem', hle'⟩ := hkeyres g2 hg2
                      (sameSig_step hsgood hssig hm happ2) hs'.2
                    exact ⟨du', hmem', by omega⟩
                  · exact Or.inl ⟨pth, List.mem_append_left _ hq⟩
                · right; left
                  intro m hm u' happ'
                  obtain ⟨hw', du', hmem', hle'⟩ := hcl m hm u' happ'
                  exact ⟨hw', du', List.mem_append_left _ hmem', hle'⟩
                · exact Or.inr (Or.inr hdi)
              · obtain ⟨e0, he0, heq⟩ := List.mem_map.mp he
                subst heq
                obtain ⟨h1, h2, h3, hd0, hl0⟩ := ha2 e0 he0
                refine ⟨h1, h2, h3, Or.inl ⟨e0.2.1, ?_⟩⟩
                apply List.mem_append_right
                rw [show (e0.1, e0.2.1, e0.2.2) = e0 from rfl]
                exact he0
            · intro f hf
              rcases List.mem_append.mp hf with hf | hf
              · obtain ⟨hfv, hfl⟩ := hinv2 f (List.mem_cons_of_mem _ hf)
                exact ⟨List.mem_append_left _ hfv, hfl⟩
              · obtain ⟨_, _, _, hd0, hl0⟩ := ha2 f hf
                refine ⟨?_, by rw [hl0, hd0]⟩
                apply List.mem_append_right
                exact List.mem_map.mpr ⟨f, hf, rfl⟩
            · rw [hv2, hinv3, List.map_append, List.map_map]
              rfl
            · rw [List.map_append]
              apply List.pairwise_append.mpr
              refine ⟨hrest_sorted, ?_, ?_⟩
              · apply sorted_const
                intro x hx
                obtain ⟨e, he, heq⟩ := List.mem_map.mp hx
                rw [← heq, (ha2 e he).2.2.2.1]
              · intro a ha b hb
                obtain ⟨fa, hfa, hfaeq⟩ := List.mem_map.mp ha
                obtain ⟨fb, hfb, hfbeq⟩ := List.mem_map.mp hb
                have h1 : a ≤ d + 1 := by
                  rw [← hfaeq]
                  exact hinv5 (fa.1, fa.2.2) (hinv2 fa (List.mem_cons_of_mem _ hfa)).1
                    (s, p, d) (List.mem_cons_self _ _)
                have h2 : b = d + 1 := by
                  rw [← hfbeq, (ha2 fb hfb).2.2.2.1]
                omega
            · intro e he f hf
              have he2 : e.2 ≤ d + 1 := by
                rcases List.mem_append.mp he with he | he
                · exact hinv5 e he (s, p, d) (List.mem_cons_self _ _)
                · obtain ⟨e0, he0, heq⟩ := List.mem_map.mp he
                  rw [← heq]
                  rw [(ha2 e0 he0).2.2.2.1]
              rcases List.mem_append.mp hf with hf | hf
              · have hfd : d ≤ f.2.2 :=
                  hhead_le f.2.2 (List.mem_map.mpr ⟨f, hf, rfl⟩)
                omega
              · have hfd : f.2.2 = d + 1 := (ha2 f hf).2.2.2.1
                omega
          have hres := ih (rest ++ adds2) vis2 (VS ++ adds2.map (fun e => (e.1, e.2.2)))
            π hinv' h
          exact ⟨hres.1, fun u du C hmem hchain hlt =>
            hres.2 u du C (List.mem_append_left _ hmem) hchain hlt⟩

/-- C3 (confirmed): whenever the BFS solver returns a move sequence for a
good start state, its length is at most the length of every winning move
chain from that state (each move drawn from get_possible_moves of the state
it is applied to); and if the start state is already won the solver
immediately returns the empty solution. -/
theorem C3_bfs_shortest (g : KubobleGame) (B : List (List Char)) (maxd fuel : Nat)
    (hg : GoodState g B) :
    (∀ π, _is_solvable_bfs_list g maxd fuel = some π →
      ∀ C, IsWinChain g C → π.length ≤ C.length) ∧
    (is_win g = true → _is_solvable_bfs g maxd fuel = some "") := by
  constructor
  · intro π hπ C hC
    unfold _is_solvable_bfs_list at hπ
    by_cases hwin : is_win g = true
    · rw [if_pos hwin] at hπ
      obtain rfl := Option.some_inj.mp hπ
      simp
    · rw [if_neg hwin] at hπ
      have hwinf : is_win g = false := by rwa [Bool.not_eq_true] at hwin
      have hinv : OptInv g B maxd [(g, [], 0)] [sortPairs g.pieces] [(g, 0)] := by
        refine ⟨?_, ?_, rfl, ?_, ?_⟩
        · intro e he
          rw [List.mem_singleton] at he
          subst he
          exact ⟨hg, sameSig_refl g, hwinf, Or.inl ⟨[], List.mem_singleton.mpr rfl⟩⟩
        · intro f hf
          rw [List.mem_singleton] at hf
          subst hf
          exact ⟨List.mem_singleton.mpr rfl, rfl⟩
        · exact List.sorted_singleton _
        · intro e he f hf
          rw [List.mem_singleton] at he hf
          subst he
          subst hf
          exact Nat.le_succ 0
      obtain ⟨hmaxd, hopt⟩ := bfsLoop_opt fuel _ _ _ π hinv hπ
      by_cases hlt : 0 + C.length < maxd
      · have := hopt g 0 C (List.mem_singleton.mpr rfl) hC hlt
        omega
      · omega
  · intro hwin
    unfold _is_solvable_bfs _is_solvable_bfs_list
    rw [if_pos hwin]
    rfl

theorem C3_witness :
    is_win (mkGame "Aa") = true ∧ _is_solvable_bfs (mkGame "Aa") 3 10 = some "" :=
  ⟨by rfl, (C3_bfs_shortest (mkGame "Aa") (stripPieces (mkGame "Aa")) 3 10
      (parse_good _)).2 (by rfl)⟩

/-! ## Serialisation round trip: character class facts -/

theorem upper_enum {c : Char} (h : 'A' ≤ c ∧ c ≤ 'Z') :
    c ∈ ['A', 'B', 'C', 'D', 'E', 'F', 'G', 'H', 'I', 'J', 'K', 'L', 'M',
         'N', 'O', 'P', 'Q', 'R', 'S', 'T', 'U', 'V', 'W', 'X', 'Y', 'Z'] := by
  obtain ⟨h1, h2⟩ := h
  rw [Char.le_def] at h1 h2
  have hn1 : 65 ≤ c.toNat := h1
  have hn2 : c.toNat ≤ 90 := h2
  have hof := Char.ofNat_toNat c
  set n := c.toNat with hn
  interval_cases n <;> (rw [← hof]; decide)

theorem lower_enum {c : Char} (h : 'a' ≤ c ∧ c ≤ 'z') :
    c ∈ ['a', 'b', 'c', 'd', 'e', 'f', 'g', 'h', 'i', 'j', 'k', 'l', 'm',
         'n', 'o', 'p', 'q', 'r', 's', 't', 'u', 'v', 'w', 'x', 'y', 'z'] := by
  obtain ⟨h1, h2⟩ := h
  rw [Char.le_def] at h1 h2
  have hn1 : 97 ≤ c.toNat := h1
  have hn2 : c.toNat ≤ 122 := h2
  have hof := Char.ofNat_toNat c
  set n := c.toNat with hn
  interval_cases n <;> (rw [← hof]; decide)

theorem toLower_inj_upper {c1 c2 : Char} (h1 : 'A' ≤ c1 ∧ c1 ≤ 'Z')
    (h2 : 'A' ≤ c2 ∧ c2 ≤ 'Z') (heq : c1.toLower = c2.toLower) : c1 = c2 :=
  (by decide : ∀ x ∈ ['A', 'B', 'C', 'D', 'E', 'F', 'G', 'H', 'I', 'J', 'K',
      'L', 'M', 'N', 'O', 'P', 'Q', 'R', 'S', 'T', 'U', 'V', 'W', 'X', 'Y', 'Z'],
    ∀ y ∈ ['A', 'B', 'C', 'D', 'E', 'F', 'G', 'H', 'I', 'J', 'K', 'L', 'M',
      'N', 'O', 'P', 'Q', 'R', 'S', 'T', 'U', 'V', 'W', 'X', 'Y', 'Z'],
    x.toLower = y.toLower → x = y) c1 (upper_enum h1) c2 (upper_enum h2) heq

theorem toLower_upper_range {c : Char} (h : 'A' ≤ c ∧ c ≤ 'Z') :
    'a' ≤ c.toLower ∧ c.toLower ≤ 'z' :=
  (by decide : ∀ x ∈ ['A', 'B', 'C', 'D', 'E', 'F', 'G', 'H', 'I', 'J', 'K',
      'L', 'M', 'N', 'O', 'P', 'Q', 'R', 'S', 'T', 'U', 'V', 'W', 'X', 'Y', 'Z'],
    'a' ≤ x.toLower ∧ x.toLower ≤ 'z') c (upper_enum h)

theorem lower_facts {c : Char} (h : 'a' ≤ c ∧ c ≤ 'z') :
    c ≠ 'X' ∧ c ≠ '.' ∧ c ≠ ';' ∧ pyIsSpace c = false ∧
      ¬('A' ≤ c ∧ c ≤ 'Z') :=
  (by decide : ∀ x ∈ ['a', 'b', 'c', 'd', 'e', 'f', 'g', 'h', 'i', 'j', 'k',
      'l', 'm', 'n', 'o', 'p', 'q', 'r', 's', 't', 'u', 'v', 'w', 'x', 'y', 'z'],
    x ≠ 'X' ∧ x ≠ '.' ∧ x ≠ ';' ∧ pyIsSpace x = false ∧
      ¬('A' ≤ x ∧ x ≤ 'Z')) c (lower_enum h)

theorem upper_facts {c : Char} (h : 'A' ≤ c ∧ c ≤ 'Z') :
    c ≠ '.' ∧ c ≠ ';' ∧ pyIsSpace c = false ∧ ¬('a' ≤ c ∧ c ≤ 'z') :=
  (by decide : ∀ x ∈ ['A', 'B', 'C', 'D', 'E', 'F', 'G', 'H', 'I', 'J', 'K',
      'L', 'M', 'N', 'O', 'P', 'Q', 'R', 'S', 'T', 'U', 'V', 'W', 'X', 'Y', 'Z'],
    x ≠ '.' ∧ x ≠ ';' ∧ pyIsSpace x = false ∧ ¬('a' ≤ x ∧ x ≤ 'z')) c
    (upper_enum h)

/-! ## Token grid reads and writes -/

theorem tokSet_length (g : List (List (List Char))) (r c : Nat) (tok : List Char) :
    (tokSet g r c tok).length = g.length := by
  simp [tokSet]

theorem tokSet_rows (g : List (List (List Char))) (w : Nat) (r c : Nat)
    (tok : List Char) (hw : ∀ row ∈ g, row.length = w) :
    ∀ row ∈ tokSet g r c tok, row.length = w := by
  by_cases hr : r < g.length
  · intro row hrow
    rcases List.mem_or_eq_of_mem_set hrow with h | h
    · exact hw row h
    · subst h
      simp only [List.length_set]
      exact hw _ (getD_mem_of_lt _ _ _ hr)
  · intro row hrow
    rw [tokSet, List.set_eq_of_length_le (by omega)] at hrow
    exact hw row hrow

theorem tokAt_tokSet_self (g : List (List (List Char))) (r c : Nat)
    (tok : List Char) (hr : r < g.length) (hc : c < (g.getD r []).length) :
    tokAt (tokSet g r c tok) r c = tok := by
  unfold tokAt tokSet
  rw [getD_set_self _ _ _ _ (by simpa using hr)]
  exact getD_set_self _ _ _ _ (by simpa using hc)

theorem tokAt_tokSet_ne (g : List (List (List Char))) (r c r' c' : Nat)
    (tok : List Char) (h : r ≠ r' ∨ c ≠ c') :
    tokAt (tokSet g r' c' tok) r c = tokAt g r c := by
  unfold tokAt tokSet
  rcases h with h | h
  · rw [getD_set_ne _ _ _ _ _ (Ne.symm h)]
  · by_cases hr : r = r'
    · subst hr
      by_cases hlen : r < g.length
      · rw [getD_set_self _ _ _ _ (by simpa using hlen)]
        exact getD_set_ne _ _ _ _ _ (Ne.symm h)
      · rw [List.set_eq_of_length_le (by omega)]
    · rw [getD_set_ne _ _ _ _ _ (Ne.symm hr)]

/-! ## The serialiser's three folds, named -/

/-- The obstacle-writing step of _coords_to_level_string. -/
def obsWrite (h w : Nat) (g : List (List (List Char))) (rc : Pos) :
    List (List (List Char)) :=
  if 0 ≤ rc.1 ∧ rc.1 < (h : Int) ∧ 0 ≤ rc.2 ∧ rc.2 < (w : Int)
  then tokSet g rc.1.toNat rc.2.toNat ['X'] else g

/-- The piece-writing step: merge the piece's own target into its token when
the target sits exactly on the piece. -/
def pieceWrite (h w : Nat) (acc : List (List (List Char)) × List (Char × Pos))
    (pr : Char × Pos) : List (List (List Char)) × List (Char × Pos) :=
  if 0 ≤ pr.2.1 ∧ pr.2.1 < (h : Int) ∧ 0 ≤ pr.2.2 ∧ pr.2.2 < (w : Int) then
    let tch := pr.1.toLower
    if dictGet acc.2 tch = some pr.2 then
      (tokSet acc.1 pr.2.1.toNat pr.2.2.toNat [pr.1, tch], dictDel acc.2 tch)
    else (tokSet acc.1 pr.2.1.toNat pr.2.2.toNat [pr.1], acc.2)
  else acc

/-- The target-writing step: only empty cells receive a target token. -/
def targWrite (h w : Nat) (g : List (List (List Char))) (tr : Char × Pos) :
    List (List (List Char)) :=
  if 0 ≤ tr.2.1 ∧ tr.2.1 < (h : Int) ∧ 0 ≤ tr.2.2 ∧ tr.2.2 < (w : Int) then
    if tokAt g tr.2.1.toNat tr.2.2.toNat = ['.']
    then tokSet g tr.2.1.toNat tr.2.2.toNat [tr.1] else g
  else g

def grid1Of (width height : Nat) (obstacles : List Pos) : List (List (List Char)) :=
  obstacles.foldl (obsWrite height width)
    (List.replicate height (List.replicate width (['.'] : List Char)))

def gtOf (width height : Nat) (pieces targets : List (Char × Pos))
    (obstacles : List Pos) : List (List (List Char)) × List (Char × Pos) :=
  pieces.foldl (pieceWrite height width) (grid1Of width height obstacles, targets)

def grid3Of (width height : Nat) (pieces targets : List (Char × Pos))
    (obstacles : List Pos) : List (List (List Char)) :=
  (gtOf width height pieces targets obstacles).2.foldl (targWrite height width)
    (gtOf width height pieces targets obstacles).1

theorem coords_unfold (width height : Nat) (pieces targets : List (Char × Pos))
    (obstacles : List Pos) :
    _coords_to_level_string width height pieces targets obstacles =
      String.mk (joinSep ';'
        ((grid3Of width height pieces targets obstacles).map
          fun row => joinSep ' ' row)) := rfl

/-! ## Round-trip invariants and the reference token of a cell -/

/-- Well-formed target dictionary relative to the obstacle skeleton. -/
def TargetsOk (s : KubobleGame) (B : List (List Char)) : Prop :=
  (keysOf s.targets).Nodup ∧
  (∀ k ∈ keysOf s.targets, 'a' ≤ k ∧ k ≤ 'z') ∧
  (∀ e ∈ s.targets, inBoard s.height s.width e.2 = true) ∧
  DistinctPos s.targets ∧
  (∀ e ∈ s.targets, cellAt B e.2.1.toNat e.2.2.toNat ≠ 'X')

/-- No piece rests on a foreign target: any piece sharing a target's cell is
that target's own piece. -/
def NoForeign (s : KubobleGame) : Prop :=
  ∀ t ∈ s.targets, ∀ p ∈ s.pieces, p.2 = t.2 → p.1.toLower = t.1

/-- The obstacle list passed to the serialiser is exactly the 'X' cells of
the skeleton. -/
def ObsOk (obs : List Pos) (B : List (List Char)) (h w : Nat) : Prop :=
  (∀ rc ∈ obs, inBoard h w rc = true ∧ cellAt B rc.1.toNat rc.2.toNat = 'X') ∧
  (∀ r < h, ∀ c < w, cellAt B r c = 'X' → ((r : Int), (c : Int)) ∈ obs)

/-- The token the serialiser should produce for one cell. -/
def refTok (s : KubobleGame) (B : List (List Char)) (r c : Nat) : List Char :=
  if cellAt B r c = 'X' then ['X']
  else
    match pieceAt s.pieces ((r : Int), (c : Int)) with
    | some P =>
      if dictGet s.targets P.toLower = some ((r : Int), (c : Int))
      then [P, P.toLower] else [P]
    | none =>
      match pieceAt s.targets ((r : Int), (c : Int)) with
      | some t => [t]
      | none => ['.']

theorem tokAt_replicate {h w : Nat} {r c : Nat} (hr : r < h) (hc : c < w) :
    tokAt (List.replicate h (List.replicate w (['.'] : List Char))) r c = ['.'] := by
  unfold tokAt
  have h1 : (List.replicate h (List.replicate w (['.'] : List Char))).getD r []
      = List.replicate w ['.'] := by
    rw [List.getD_eq_getElem?_getD, List.getElem?_replicate, if_pos hr]
    rfl
  rw [h1, List.getD_eq_getElem?_getD, List.getElem?_replicate, if_pos hc]
  rfl

theorem inb_toNat {h w : Nat} {pos : Pos} (hin : inBoard h w pos = true) :
    pos.1.toNat < h ∧ pos.2.toNat < w ∧
      pos = ((pos.1.toNat : Int), (pos.2.toNat : Int)) := by
  obtain ⟨h1, h2, h3, h4⟩ := inBoard_iff.mp hin
  refine ⟨by omega, by omega, ?_⟩
  have e1 : (pos.1.toNat : Int) = pos.1 := Int.toNat_of_nonneg h1
  have e2 : (pos.2.toNat : Int) = pos.2 := Int.toNat_of_nonneg h3
  rw [show pos = (pos.1, pos.2) from rfl]
  rw [e1, e2]

theorem fold_obstacles {h w : Nat} :
    ∀ (l : List Pos) (g : List (List (List Char))),
      g.length = h → (∀ row ∈ g, row.length = w) →
      (∀ rc ∈ l, inBoard h w rc = true) →
      (l.foldl (obsWrite h w) g).length = h ∧
      (∀ row ∈ l.foldl (obsWrite h w) g, row.length = w) ∧
      (∀ r c : Nat, r < h → c < w →
        tokAt (l.foldl (obsWrite h w) g) r c =
          if ((r : Int), (c : Int)) ∈ l then ['X'] else tokAt g r c) := by
  intro l
  induction l with
  | nil =>
    intro g hl hw _
    exact ⟨hl, hw, fun r c _ _ => by simp⟩
  | cons rc t ih =>
    intro g hl hw hall
    have hin := hall rc (List.mem_cons_self _ _)
    obtain ⟨hr1, hc1, hpos⟩ := inb_toNat hin
    have hcond : 0 ≤ rc.1 ∧ rc.1 < (h : Int) ∧ 0 ≤ rc.2 ∧ rc.2 < (w : Int) := by
      obtain ⟨a, b, c', d⟩ := inBoard_iff.mp hin
      exact ⟨a, b, c', d⟩
    have hstep : obsWrite h w g rc = tokSet g rc.1.toNat rc.2.toNat ['X'] := by
      unfold obsWrite
      rw [if_pos hcond]
    have hl' : (tokSet g rc.1.toNat rc.2.toNat ['X']).length = h := by
      rw [tokSet_length, hl]
    have hw' := tokSet_rows g w rc.1.toNat rc.2.toNat ['X'] hw
    obtain ⟨ihl, ihw, ihtok⟩ := ih (tokSet g rc.1.toNat rc.2.toNat ['X']) hl' hw'
      (fun x hx => hall x (List.mem_cons_of_mem _ hx))
    rw [show List.foldl (obsWrite h w) g (rc :: t) =
      List.foldl (obsWrite h w) (obsWrite h w g rc) t from rfl, hstep]
    refine ⟨ihl, ihw, ?_⟩
    intro r c hr hc
    rw [ihtok r c hr hc]
    by_cases hmem : ((r : Int), (c : Int)) ∈ t
    · rw [if_pos hmem, if_pos (List.mem_cons_of_mem _ hmem)]
    · rw [if_neg hmem]
      by_cases heq : rc = ((r : Int), (c : Int))
      · rw [if_pos (heq ▸ List.mem_cons_self _ _)]
        have hrr : rc.1.toNat = r := by rw [heq]; simp
        have hcc : rc.2.toNat = c := by rw [heq]; simp
        rw [hrr, hcc]
        exact tokAt_tokSet_self g r c ['X'] (by omega)
          (by rw [hw _ (getD_mem_of_lt _ _ _ (by omega))]; omega)
      · rw [if_neg (by
          intro hcon
          rcases List.mem_cons.mp hcon with hcon | hcon
          · exact heq hcon.symm
          · exact hmem hcon)]
        apply tokAt_tokSet_ne
        by_cases hrr : r = rc.1.toNat
        · right
          intro hcc
          apply heq
          rw [hpos, ← hrr, ← hcc]
        · exact Or.inl hrr

theorem dictDel_cons_self {α : Type} {e : Char × α} {t : List (Char × α)}
    {k : Char} (he : e.1 = k) : dictDel (e :: t) k = dictDel t k := by
  unfold dictDel
  rw [List.filter_cons, if_neg (by simp [he])]

theorem dictDel_cons_ne {α : Type} {e : Char × α} {t : List (Char × α)}
    {k : Char} (he : ¬e.1 = k) : dictDel (e :: t) k = e :: dictDel t k := by
  unfold dictDel
  rw [List.filter_cons, if_pos (by simp [he])]

theorem dictGet_dictDel_self {α : Type} (d : List (Char × α)) (k : Char) :
    dictGet (dictDel d k) k = none := by
  induction d with
  | nil => rfl
  | cons e t ih =>
    by_cases he : e.1 = k
    · rw [dictDel_cons_self he]
      exact ih
    · rw [dictDel_cons_ne he]
      simp [dictGet, he, ih]

theorem dictGet_dictDel_ne {α : Type} (d : List (Char × α)) (k k' : Char)
    (h : k' ≠ k) : dictGet (dictDel d k) k' = dictGet d k' := by
  induction d with
  | nil => rfl
  | cons e t ih =>
    by_cases he : e.1 = k
    · rw [dictDel_cons_self he, ih]
      have hne : e.1 ≠ k' := by rw [he]; exact Ne.symm h
      simp [dictGet, hne]
    · rw [dictDel_cons_ne he]
      by_cases he' : e.1 = k'
      · simp [dictGet, he']
      · simp [dictGet, he', ih]

/-- Characterisation of the serialiser's piece fold: piece cells receive
their token (merged with the own target exactly when that target sits on the
piece), all other cells are untouched, and the working target dict only
loses the merged keys. -/
theorem fold_pieces {h w : Nat} {targets0 : List (Char × Pos)} :
    ∀ (todo : List (Char × Pos)) (g : List (List (List Char)))
      (tg : List (Char × Pos)),
      g.length = h → (∀ row ∈ g, row.length = w) →
      (∀ pr ∈ todo, inBoard h w pr.2 = true) →
      (∀ pr ∈ todo, 'A' ≤ pr.1 ∧ pr.1 ≤ 'Z') →
      (keysOf todo).Nodup → DistinctPos todo →
      (keysOf tg).Nodup →
      (∀ e ∈ tg, e ∈ targets0) →
      (∀ pr ∈ todo, dictGet tg pr.1.toLower = dictGet targets0 pr.1.toLower) →
      ((todo.foldl (pieceWrite h w) (g, tg)).1.length = h ∧
       (∀ row ∈ (todo.foldl (pieceWrite h w) (g, tg)).1, row.length = w) ∧
       (∀ r c : Nat, r < h → c < w →
         (∀ pr ∈ todo, pr.2 ≠ ((r : Int), (c : Int))) →
         tokAt (todo.foldl (pieceWrite h w) (g, tg)).1 r c = tokAt g r c) ∧
       (∀ pr ∈ todo, tokAt (todo.foldl (pieceWrite h w) (g, tg)).1
           pr.2.1.toNat pr.2.2.toNat =
         if dictGet targets0 pr.1.toLower = some pr.2
         then [pr.1, pr.1.toLower] else [pr.1]) ∧
       (keysOf (todo.foldl (pieceWrite h w) (g, tg)).2).Nodup ∧
       (∀ e ∈ (todo.foldl (pieceWrite h w) (g, tg)).2, e ∈ tg) ∧
       (∀ k, dictGet tg k = none →
         dictGet (todo.foldl (pieceWrite h w) (g, tg)).2 k = none) ∧
       (∀ k, (∀ pr ∈ todo, pr.1.toLower = k → dictGet targets0 k ≠ some pr.2) →
         dictGet (todo.foldl (pieceWrite h w) (g, tg)).2 k = dictGet tg k) ∧
       (∀ pr ∈ todo, dictGet targets0 pr.1.toLower = some pr.2 →
         dictGet (todo.foldl (pieceWrite h w) (g, tg)).2 pr.1.toLower = none)) := by
  intro todo
  induction todo with
  | nil =>
    intro g tg hl hw _ _ _ _ hndtg hsub _
    exact ⟨hl, hw, fun r c _ _ _ => rfl, fun pr hpr => absurd hpr (List.not_mem_nil pr),
      hndtg, fun e he => he, fun k hk => hk, fun k _ => rfl,
      fun pr hpr => absurd hpr (List.not_mem_nil pr)⟩
  | cons pr rest ih =>
    intro g tg hl hw hinb hrange hnd hdist hndtg hsub hget
    have hin := hinb pr (List.mem_cons_self _ _)
    obtain ⟨hr1, hc1, hpos⟩ := inb_toNat hin
    have hcond : 0 ≤ pr.2.1 ∧ pr.2.1 < (h : Int) ∧ 0 ≤ pr.2.2 ∧ pr.2.2 < (w : Int) := by
      obtain ⟨a, b, c', d⟩ := inBoard_iff.mp hin
      exact ⟨a, b, c', d⟩
    have hup := hrange pr (List.mem_cons_self _ _)
    have hrestne : ∀ q ∈ rest, q.2 ≠ pr.2 := by
      intro q hq hcon
      have hkne : q.1 ≠ pr.1 := by
        intro hk
        rw [keysOf, List.map_cons, List.nodup_cons] at hnd
        exact hnd.1 (hk ▸ List.mem_map.mpr ⟨q, hq, rfl⟩)
      exact hdist q (List.mem_cons_of_mem _ hq) pr (List.mem_cons_self _ _) hkne hcon
    have hgetpr := hget pr (List.mem_cons_self _ _)
    have hrestfacts : ∀ (tg' : List (Char × Pos)),
        (keysOf tg').Nodup → (∀ e ∈ tg', e ∈ tg) →
        (∀ q ∈ rest, dictGet tg' q.1.toLower = dictGet tg q.1.toLower) →
        ∀ (g' : List (List (List Char))), g'.length = h →
        (∀ row ∈ g', row.length = w) →
        ((rest.foldl (pieceWrite h w) (g', tg')).1.length = h ∧
         (∀ row ∈ (rest.foldl (pieceWrite h w) (g', tg')).1, row.length = w) ∧
         (∀ r c : Nat, r < h → c < w →
           (∀ q ∈ rest, q.2 ≠ ((r : Int), (c : Int))) →
           tokAt (rest.foldl (pieceWrite h w) (g', tg')).1 r c = tokAt g' r c) ∧
         (∀ q ∈ rest, tokAt (rest.foldl (pieceWrite h w) (g', tg')).1
             q.2.1.toNat q.2.2.toNat =
           if dictGet targets0 q.1.toLower = some q.2
           then [q.1, q.1.toLower] else [q.1]) ∧
         (keysOf (rest.foldl (pieceWrite h w) (g', tg')).2).Nodup ∧
         (∀ e ∈ (rest.foldl (pieceWrite h w) (g', tg')).2, e ∈ tg') ∧
         (∀ k, dictGet tg' k = none →
           dictGet (rest.foldl (pieceWrite h w) (g', tg')).2 k = none) ∧
         (∀ k, (∀ q ∈ rest, q.1.toLower = k → dictGet targets0 k ≠ some q.2) →
           dictGet (rest.foldl (pieceWrite h w) (g', tg')).2 k = dictGet tg' k) ∧
         (∀ q ∈ rest, dictGet targets0 q.1.toLower = some q.2 →
           dictGet (rest.foldl (pieceWrite h w) (g', tg')).2 q.1.toLower = none)) := by
      intro tg' hnd' hsub' hget' g' hl' hw'
      have a1 : ∀ q ∈ rest, inBoard h w q.2 = true :=
        fun q hq => hinb q (List.mem_cons_of_mem _ hq)
      have a2 : ∀ q ∈ rest, 'A' ≤ q.1 ∧ q.1 ≤ 'Z' :=
        fun q hq => hrange q (List.mem_cons_of_mem _ hq)
      have a3 : (keysOf rest).Nodup := by
        rw [keysOf, List.map_cons, List.nodup_cons] at hnd
        exact hnd.2
      have a4 : DistinctPos rest := fun a ha b hb =>
        hdist a (List.mem_cons_of_mem _ ha) b (List.mem_cons_of_mem _ hb)
      have a5 : ∀ e ∈ tg', e ∈ targets0 := fun e he => hsub e (hsub' e he)
      have a6 : ∀ q ∈ rest, dictGet tg' q.1.toLower = dictGet targets0 q.1.toLower := by
        intro q hq
        rw [hget' q hq]
        exact hget q (List.mem_cons_of_mem _ hq)
      exact ih g' tg' hl' hw' a1 a2 a3 a4 hnd' a5 a6
    by_cases hmerge : dictGet tg pr.1.toLower = some pr.2
    · have hstep : pieceWrite h w (g, tg) pr =
          (tokSet g pr.2.1.toNat pr.2.2.toNat [pr.1, pr.1.toLower],
           dictDel tg pr.1.toLower) := by
        unfold pieceWrite
        rw [if_pos hcond]
        dsimp only
        rw [if_pos hmerge]
      rw [show List.foldl (pieceWrite h w) (g, tg) (pr :: rest) =
        List.foldl (pieceWrite h w) (pieceWrite h w (g, tg) pr) rest from rfl, hstep]
      have hg'l : (tokSet g pr.2.1.toNat pr.2.2.toNat [pr.1, pr.1.toLower]).length = h := by
        rw [tokSet_length, hl]
      have hg'w := tokSet_rows g w pr.2.1.toNat pr.2.2.toNat [pr.1, pr.1.toLower] hw
      have hget'' : ∀ q ∈ rest, dictGet (dictDel tg pr.1.toLower) q.1.toLower =
          dictGet tg q.1.toLower := by
        intro q hq
        apply dictGet_dictDel_ne
        intro hcon
        have hkne : q.1 ≠ pr.1 := by
          intro hk
          rw [keysOf, List.map_cons, List.nodup_cons] at hnd
          exact hnd.1 (hk ▸ List.mem_map.mpr ⟨q, hq, rfl⟩)
        exact hkne (toLower_inj_upper (hrange q (List.mem_cons_of_mem _ hq)) hup hcon)
      obtain ⟨ih1, ih2, ih3, ih4, ih5, ih6, ih7, ih8, ih9⟩ :=
        hrestfacts (dictDel tg pr.1.toLower)
          (nodup_keys_dictDel _ hndtg)
          (fun e he => (mem_dictDel_iff.mp he).1)
          hget'' _ hg'l hg'w
      refine ⟨ih1, ih2, ?_, ?_, ih5, fun e he => (mem_dictDel_iff.mp (ih6 e he)).1,
        ?_, ?_, ?_⟩
      · intro r c hr hc havoid
        rw [ih3 r c hr hc (fun q hq => havoid q (List.mem_cons_of_mem _ hq))]
        apply tokAt_tokSet_ne
        by_cases hrr : r = pr.2.1.toNat
        · right
          intro hcc
          exact havoid pr (List.mem_cons_self _ _) (by rw [hpos, ← hrr, ← hcc])
        · exact Or.inl hrr
      · intro q hq
        rcases List.mem_cons.mp hq with rfl | hq
        · rw [ih3 _ _ hr1 hc1 (by
            intro q' hq'
            rw [← hpos]
            exact hrestne q' hq')]
          rw [tokAt_tokSet_self g _ _ _ (by omega)
            (by rw [hw _ (getD_mem_of_lt _ _ _ (by omega))]; omega)]
          rw [if_pos (by rw [← hgetpr]; exact hmerge)]
        · exact ih4 q hq
      · intro k hk
        apply ih7
        by_cases hkl : k = pr.1.toLower
        · subst hkl
          exact dictGet_dictDel_self _ _
        · rw [dictGet_dictDel_ne _ _ _ hkl]
          exact hk
      · intro k hguard
        have hkne : k ≠ pr.1.toLower := by
          intro hk
          apply hguard pr (List.mem_cons_self _ _) hk.symm
          rw [hk, ← hgetpr]
          exact hmerge
        rw [ih8 k (fun q hq hql => hguard q (List.mem_cons_of_mem _ hq) hql)]
        exact dictGet_dictDel_ne _ _ _ hkne
      · intro q hq hq0
        rcases List.mem_cons.mp hq with rfl | hq
        · apply ih7
          exact dictGet_dictDel_self _ _
        · exact ih9 q hq hq0
    · have hstep : pieceWrite h w (g, tg) pr =
          (tokSet g pr.2.1.toNat pr.2.2.toNat [pr.1], tg) := by
        unfold pieceWrite
        rw [if_pos hcond]
        dsimp only
        rw [if_neg hmerge]
      rw [show List.foldl (pieceWrite h w) (g, tg) (pr :: rest) =
        List.foldl (pieceWrite h w) (pieceWrite h w (g, tg) pr) rest from rfl, hstep]
      have hg'l : (tokSet g pr.2.1.toNat pr.2.2.toNat [pr.1]).length = h := by
        rw [tokSet_length, hl]
      have hg'w := tokSet_rows g w pr.2.1.toNat pr.2.2.toNat [pr.1] hw
      obtain ⟨ih1, ih2, ih3, ih4, ih5, ih6, ih7, ih8, ih9⟩ :=
        hrestfacts tg hndtg (fun e he => he) (fun q _ => rfl) _ hg'l hg'w
      refine ⟨ih1, ih2, ?_, ?_, ih5, ih6, ih7, ?_, ?_⟩
      · intro r c hr hc havoid
        rw [ih3 r c hr hc (fun q hq => havoid q (List.mem_cons_of_mem _ hq))]
        apply tokAt_tokSet_ne
        by_cases hrr : r = pr.2.1.toNat
        · right
          intro hcc
          exact havoid pr (List.mem_cons_self _ _) (by rw [hpos, ← hrr, ← hcc])
        · exact Or.inl hrr
      · intro q hq
        rcases List.mem_cons.mp hq with rfl | hq
        · rw [ih3 _ _ hr1 hc1 (by
            intro q' hq'
            rw [← hpos]
            exact hrestne q' hq')]
          rw [tokAt_tokSet_self g _ _ _ (by omega)
            (by rw [hw _ (getD_mem_of_lt _ _ _ (by omega))]; omega)]
          rw [if_neg (by rw [← hgetpr]; exact hmerge)]
        · exact ih4 q hq
      · intro k hguard
        exact ih8 k (fun q hq hql => hguard q (List.mem_cons_of_mem _ hq) hql)
      · intro q hq hq0
        rcases List.mem_cons.mp hq with rfl | hq
        · exact absurd (hgetpr.trans hq0) hmerge
        · exact ih9 q hq hq0

/-- Characterisation of the serialiser's target fold: a remaining target is
written onto its cell exactly when that cell is still empty, and no other
cell changes. -/
theorem fold_targets {h w : Nat} :
    ∀ (l : List (Char × Pos)) (g : List (List (List Char))),
      g.length = h → (∀ row ∈ g, row.length = w) →
      (∀ e ∈ l, inBoard h w e.2 = true) →
      DistinctPos l → (keysOf l).Nodup →
      ((l.foldl (targWrite h w) g).length = h ∧
       (∀ row ∈ l.foldl (targWrite h w) g, row.length = w) ∧
       (∀ r c : Nat, r < h → c < w → (∀ e ∈ l, e.2 ≠ ((r : Int), (c : Int))) →
          tokAt (l.foldl (targWrite h w) g) r c = tokAt g r c) ∧
       (∀ e ∈ l, tokAt (l.foldl (targWrite h w) g) e.2.1.toNat e.2.2.toNat =
          if tokAt g e.2.1.toNat e.2.2.toNat = ['.'] then [e.1]
          else tokAt g e.2.1.toNat e.2.2.toNat)) := by
  intro l
  induction l with
  | nil =>
    intro g hl hw _ _ _
    exact ⟨hl, hw, fun r c _ _ _ => rfl,
      fun e he => absurd he (List.not_mem_nil e)⟩
  | cons e t ih =>
    intro g hl hw hinb hdist hnd
    have hin := hinb e (List.mem_cons_self _ _)
    obtain ⟨hr1, hc1, hpos⟩ := inb_toNat hin
    have hcond : 0 ≤ e.2.1 ∧ e.2.1 < (h : Int) ∧ 0 ≤ e.2.2 ∧ e.2.2 < (w : Int) := by
      obtain ⟨a, b, c', d⟩ := inBoard_iff.mp hin
      exact ⟨a, b, c', d⟩
    have htne : ∀ q ∈ t, q.2 ≠ e.2 := by
      intro q hq hcon
      have hkne : q.1 ≠ e.1 := by
        intro hk
        rw [keysOf, List.map_cons, List.nodup_cons] at hnd
        exact hnd.1 (hk ▸ List.mem_map.mpr ⟨q, hq, rfl⟩)
      exact hdist q (List.mem_cons_of_mem _ hq) e (List.mem_cons_self _ _) hkne hcon
    have hndt : (keysOf t).Nodup := by
      rw [keysOf, List.map_cons, List.nodup_cons] at hnd
      exact hnd.2
    have hdistt : DistinctPos t := fun a ha b hb =>
      hdist a (List.mem_cons_of_mem _ ha) b (List.mem_cons_of_mem _ hb)
    have hinbt : ∀ q ∈ t, inBoard h w q.2 = true :=
      fun q hq => hinb q (List.mem_cons_of_mem _ hq)
    rw [show List.foldl (targWrite h w) g (e :: t) =
      List.foldl (targWrite h w) (targWrite h w g e) t from rfl]
    by_cases hdot : tokAt g e.2.1.toNat e.2.2.toNat = ['.']
    · have hstep : targWrite h w g e = tokSet g e.2.1.toNat e.2.2.toNat [e.1] := by
        unfold targWrite
        rw [if_pos hcond, if_pos hdot]
      rw [hstep]
      have hg'l : (tokSet g e.2.1.toNat e.2.2.toNat [e.1]).length = h := by
        rw [tokSet_length, hl]
      have hg'w := tokSet_rows g w e.2.1.toNat e.2.2.toNat [e.1] hw
      obtain ⟨ih1, ih2, ih3, ih4⟩ := ih _ hg'l hg'w hinbt hdistt hndt
      refine ⟨ih1, ih2, ?_, ?_⟩
      · intro r c hr hc havoid
        rw [ih3 r c hr hc (fun q hq => havoid q (List.mem_cons_of_mem _ hq))]
        apply tokAt_tokSet_ne
        by_cases hrr : r = e.2.1.toNat
        · right
          intro hcc
          exact havoid e (List.mem_cons_self _ _) (by rw [hpos, ← hrr, ← hcc])
        · exact Or.inl hrr
      · intro q hq
        rcases List.mem_cons.mp hq with rfl | hq
        · rw [ih3 _ _ hr1 hc1 (by
            intro q' hq'
            rw [← hpos]
            exact htne q' hq')]
          rw [tokAt_tokSet_self g _ _ _ (by omega)
            (by rw [hw _ (getD_mem_of_lt _ _ _ (by omega))]; omega)]
          rw [if_pos hdot]
        · rw [ih4 q hq]
          have hq2 : tokAt (tokSet g e.2.1.toNat e.2.2.toNat [e.1])
              q.2.1.toNat q.2.2.toNat = tokAt g q.2.1.toNat q.2.2.toNat := by
            apply tokAt_tokSet_ne
            obtain ⟨hqr, hqc, hqpos⟩ := inb_toNat (hinbt q hq)
            by_cases hrr : q.2.1.toNat = e.2.1.toNat
            · right
              intro hcc
              exact htne q hq (by rw [hqpos, hrr, hcc, ← hpos])
            · exact Or.inl hrr
          rw [hq2]
    · have hstep : targWrite h w g e = g := by
        unfold targWrite
        rw [if_pos hcond, if_neg hdot]
      rw [hstep]
      obtain ⟨ih1, ih2, ih3, ih4⟩ := ih g hl hw hinbt hdistt hndt
      refine ⟨ih1, ih2, ?_, ?_⟩
      · intro r c hr hc havoid
        exact ih3 r c hr hc (fun q hq => havoid q (List.mem_cons_of_mem _ hq))
      · intro q hq
        rcases List.mem_cons.mp hq with rfl | hq
        · rw [ih3 _ _ hr1 hc1 (by
            intro q' hq'
            rw [← hpos]
            exact htne q' hq')]
          rw [if_neg hdot]
        · exact ih4 q hq

/-- The serialised token grid holds exactly the reference token of every
cell. -/
theorem grid3_spec {s : KubobleGame} {B : List (List Char)} {obs : List Pos}
    (hg : GoodState s B) (ht : TargetsOk s B) (hnf : NoForeign s)
    (hobs : ObsOk obs B s.height s.width) :
    (grid3Of s.width s.height s.pieces s.targets obs).length = s.height ∧
    (∀ row ∈ grid3Of s.width s.height s.pieces s.targets obs,
      row.length = s.width) ∧
    (∀ r c : Nat, r < s.height → c < s.width →
      tokAt (grid3Of s.width s.height s.pieces s.targets obs) r c =
        refTok s B r c) := by
  obtain ⟨hB, hndP, hrangeP, hinbP, hdistP, hnotXP, hgrid⟩ := hg
  obtain ⟨hndT, hrangeT, hinbT, hdistT, hnotXT⟩ := ht
  have hrangeP' : ∀ pr ∈ s.pieces, 'A' ≤ pr.1 ∧ pr.1 ≤ 'Z' := by
    intro pr hpr
    have := hrangeP pr.1 (List.mem_map.mpr ⟨pr, hpr, rfl⟩)
    exact ⟨this.1, this.2.1⟩
  -- grid1
  obtain ⟨h1l, h1w, h1tok⟩ := fold_obstacles obs
    (List.replicate s.height (List.replicate s.width (['.'] : List Char)))
    (by simp) (by
      intro row hrow
      rw [List.eq_of_mem_replicate hrow]
      simp)
    (fun rc hrc => (hobs.1 rc hrc).1)
  have h1cell : ∀ r c : Nat, r < s.height → c < s.width →
      tokAt (grid1Of s.width s.height obs) r c =
        if cellAt B r c = 'X' then ['X'] else ['.'] := by
    intro r c hr hc
    rw [show grid1Of s.width s.height obs = obs.foldl (obsWrite s.height s.width)
      (List.replicate s.height (List.replicate s.width ['.'])) from rfl]
    rw [h1tok r c hr hc, tokAt_replicate hr hc]
    by_cases hX : cellAt B r c = 'X'
    · rw [if_pos hX, if_pos (hobs.2 r hr c hc hX)]
    · rw [if_neg hX, if_neg (by
        intro hcon
        have := (hobs.1 _ hcon).2
        simp only [Int.toNat_ofNat] at this
        exact hX this)]
  -- gt
  obtain ⟨h2l, h2w, h2avoid, h2cell, h2nd, h2sub, h2none, h2same, h2merged⟩ :=
    @fold_pieces s.height s.width s.targets s.pieces (grid1Of s.width s.height obs)
      s.targets
      (by rw [show grid1Of s.width s.height obs = obs.foldl (obsWrite s.height s.width)
          (List.replicate s.height (List.replicate s.width ['.'])) from rfl]
          exact h1l)
      (by rw [show grid1Of s.width s.height obs = obs.foldl (obsWrite s.height s.width)
          (List.replicate s.height (List.replicate s.width ['.'])) from rfl]
          exact h1w)
      hinbP hrangeP' hndP hdistP hndT (fun e he => he) (fun pr _ => rfl)
  have hgt : s.pieces.foldl (pieceWrite s.height s.width)
      (grid1Of s.width s.height obs, s.targets) =
      gtOf s.width s.height s.pieces s.targets obs := rfl
  rw [hgt] at h2l h2w h2avoid h2cell h2nd h2sub h2none h2same h2merged
  -- grid3
  have h3inb : ∀ e ∈ (gtOf s.width s.height s.pieces s.targets obs).2,
      inBoard s.height s.width e.2 = true := fun e he => hinbT e (h2sub e he)
  have h3dist : DistinctPos (gtOf s.width s.height s.pieces s.targets obs).2 :=
    fun a ha b hb => hdistT a (h2sub a ha) b (h2sub b hb)
  obtain ⟨h3l, h3w, h3avoid, h3cell⟩ := fold_targets
    (gtOf s.width s.height s.pieces s.targets obs).2
    (gtOf s.width s.height s.pieces s.targets obs).1 h2l h2w h3inb h3dist h2nd
  have hg3 : (gtOf s.width s.height s.pieces s.targets obs).2.foldl
      (targWrite s.height s.width)
      (gtOf s.width s.height s.pieces s.targets obs).1 =
      grid3Of s.width s.height s.pieces s.targets obs := rfl
  rw [hg3] at h3l h3w h3avoid h3cell
  refine ⟨h3l, h3w, ?_⟩
  intro r c hr hc
  by_cases hpiece : pieceAt s.pieces ((r : Int), (c : Int)) = none
  · have hnopiece : ∀ pr ∈ s.pieces, pr.2 ≠ ((r : Int), (c : Int)) :=
      pieceAt_eq_none_iff.mp hpiece
    by_cases hX : cellAt B r c = 'X'
    · -- obstacle cell: untouched by both folds
      have hnotarg : ∀ e ∈ (gtOf s.width s.height s.pieces s.targets obs).2,
          e.2 ≠ ((r : Int), (c : Int)) := by
        intro e he hcon
        apply hnotXT e (h2sub e he)
        rw [hcon]
        simpa using hX
      rw [h3avoid r c hr hc hnotarg, h2avoid r c hr hc hnopiece,
        h1cell r c hr hc, if_pos hX]
      unfold refTok
      rw [if_pos hX]
    · by_cases htarg : pieceAt s.targets ((r : Int), (c : Int)) = none
      · -- empty cell
        have hnotarg : ∀ e ∈ (gtOf s.width s.height s.pieces s.targets obs).2,
            e.2 ≠ ((r : Int), (c : Int)) := by
          intro e he hcon
          exact (pieceAt_eq_none_iff.mp htarg) e (h2sub e he) hcon
        rw [h3avoid r c hr hc hnotarg, h2avoid r c hr hc hnopiece,
          h1cell r c hr hc, if_neg hX]
        unfold refTok
        rw [if_neg hX, hpiece, htarg]
      · -- target-only cell
        obtain ⟨tc, htc⟩ := Option.ne_none_iff_exists'.mp htarg
        have htmem : (tc, ((r : Int), (c : Int))) ∈ s.targets := pieceAt_mem htc
        have hget0 : dictGet s.targets tc = some ((r : Int), (c : Int)) :=
          dictGet_of_mem_nodup htmem hndT
        have hsame : dictGet (gtOf s.width s.height s.pieces s.targets obs).2 tc =
            dictGet s.targets tc := by
          apply h2same tc
          intro pr hpr _ hcon
          rw [hget0] at hcon
          exact hnopiece pr hpr (Option.some_inj.mp hcon).symm
        have htentry : ((tc, ((r : Int), (c : Int))) : Char × Pos) ∈
            (gtOf s.width s.height s.pieces s.targets obs).2 :=
          mem_of_dictGet (by rw [hsame, hget0])
        have h3c := h3cell (tc, ((r : Int), (c : Int))) htentry
        simp only [Int.toNat_ofNat] at h3c
        rw [h3c]
        have hdotcell : tokAt (gtOf s.width s.height s.pieces s.targets obs).1 r c
            = ['.'] := by
          rw [h2avoid r c hr hc hnopiece, h1cell r c hr hc, if_neg hX]
        rw [hdotcell]
        rw [if_pos rfl]
        unfold refTok
        rw [if_neg hX, hpiece, htc]
  · obtain ⟨P, hP⟩ := Option.ne_none_iff_exists'.mp hpiece
    have hPmem : (P, ((r : Int), (c : Int))) ∈ s.pieces := pieceAt_mem hP
    have hnoX : cellAt B r c ≠ 'X' := by
      have := hnotXP (P, ((r : Int), (c : Int))) hPmem
      simpa using this
    have hnotarg : ∀ e ∈ (gtOf s.width s.height s.pieces s.targets obs).2,
        e.2 ≠ ((r : Int), (c : Int)) := by
      intro e he hcon
      have heT : e ∈ s.targets := h2sub e he
      have hlow : P.toLower = e.1 :=
        hnf e heT (P, ((r : Int), (c : Int))) hPmem hcon.symm
      have hgetE : dictGet s.targets e.1 = some e.2 := by
        have : (e.1, e.2) ∈ s.targets := by
          rw [show (e.1, e.2) = e from rfl]
          exact heT
        exact dictGet_of_mem_nodup this hndT
      have hmerged := h2merged (P, ((r : Int), (c : Int))) hPmem (by
        show dictGet s.targets P.toLower = some ((r : Int), (c : Int))
        rw [hlow, hgetE, hcon])
      have : dictGet (gtOf s.width s.height s.pieces s.targets obs).2 e.1 =
          some e.2 := by
        have : (e.1, e.2) ∈ (gtOf s.width s.height s.pieces s.targets obs).2 := by
          rw [show (e.1, e.2) = e from rfl]
          exact he
        exact dictGet_of_mem_nodup this h2nd
      rw [← hlow] at this
      rw [hmerged] at this
      exact Option.noConfusion this
    rw [h3avoid r c hr hc hnotarg]
    have h2c := h2cell (P, ((r : Int), (c : Int))) hPmem
    simp only [Int.toNat_ofNat] at h2c
    rw [h2c]
    unfold refTok
    rw [if_neg hnoX, hP]

/-! ## Parsing the serialised string back into the token grid -/

/-- The five token shapes the serialiser can emit. -/
def LegalTok (tok : List Char) : Prop :=
  tok = ['X'] ∨ tok = ['.'] ∨
  (∃ P, tok = [P] ∧ ('A' ≤ P ∧ P ≤ 'Z') ∧ P ≠ 'X') ∨
  (∃ t, tok = [t] ∧ 'a' ≤ t ∧ t ≤ 'z') ∨
  (∃ P, tok = [P, P.toLower] ∧ ('A' ≤ P ∧ P ≤ 'Z') ∧ P ≠ 'X')

theorem legalTok_ne_nil {tok : List Char} (h : LegalTok tok) : tok ≠ [] := by
  rcases h with rfl | rfl | ⟨P, rfl, _⟩ | ⟨t, rfl, _⟩ | ⟨P, rfl, _⟩ <;> simp

theorem legalTok_chars {tok : List Char} (h : LegalTok tok) :
    ∀ ch ∈ tok, pyIsSpace ch = false ∧ ch ≠ ';' := by
  rcases h with rfl | rfl | ⟨P, rfl, hP, _⟩ | ⟨t, rfl, ht⟩ | ⟨P, rfl, hP, _⟩ <;>
    intro ch hch
  · rw [List.mem_singleton] at hch
    subst hch
    exact ⟨by decide, by decide⟩
  · rw [List.mem_singleton] at hch
    subst hch
    exact ⟨by decide, by decide⟩
  · rw [List.mem_singleton] at hch
    subst hch
    exact ⟨(upper_facts hP).2.2.1, (upper_facts hP).2.1⟩
  · rw [List.mem_singleton] at hch
    subst hch
    exact ⟨(lower_facts ht).2.2.2.1, (lower_facts ht).2.2.1⟩
  · rcases List.mem_cons.mp hch with rfl | hch
    · exact ⟨(upper_facts hP).2.2.1, (upper_facts hP).2.1⟩
    · rw [List.mem_singleton] at hch
      subst hch
      have hlow := toLower_upper_range hP
      exact ⟨(lower_facts hlow).2.2.2.1, (lower_facts hlow).2.2.1⟩

theorem legalTok_no_dot_of_ne {tok : List Char} (h : LegalTok tok)
    (hne : tok ≠ ['.']) : ∀ ch ∈ tok, ch ≠ '.' := by
  rcases h with rfl | rfl | ⟨P, rfl, hP, _⟩ | ⟨t, rfl, ht⟩ | ⟨P, rfl, hP, _⟩ <;>
    intro ch hch
  · rw [List.mem_singleton] at hch
    subst hch
    decide
  · exact absurd rfl hne
  · rw [List.mem_singleton] at hch
    subst hch
    exact (upper_facts hP).1
  · rw [List.mem_singleton] at hch
    subst hch
    exact (lower_facts ht).2.1
  · rcases List.mem_cons.mp hch with rfl | hch
    · exact (upper_facts hP).1
    · rw [List.mem_singleton] at hch
      subst hch
      exact (lower_facts (toLower_upper_range hP)).2.1

theorem head?_append_left {α : Type} (l1 l2 : List α) (h : l1 ≠ []) :
    (l1 ++ l2).head? = l1.head? := by
  cases l1 with
  | nil => exact absurd rfl h
  | cons a t => rfl

theorem getLast?_cons_of_ne {α : Type} (a : α) (l : List α) (h : l ≠ []) :
    (a :: l).getLast? = l.getLast? := by
  cases l with
  | nil => exact absurd rfl h
  | cons b t => exact List.getLast?_cons_cons

theorem getLast?_append_right {α : Type} (l1 l2 : List α) (h : l2 ≠ []) :
    (l1 ++ l2).getLast? = l2.getLast? := by
  rw [List.getLast?_append]
  cases hl : l2.getLast? with
  | none => exact absurd (List.getLast?_eq_none_iff.mp hl) h
  | some a => rfl

theorem joinSep_ne_nil {sep : Char} {ls : List (List Char)} (hne : ls ≠ [])
    (hall : ∀ t ∈ ls, t ≠ []) : joinSep sep ls ≠ [] := by
  cases ls with
  | nil => exact absurd rfl hne
  | cons t rest =>
    cases rest with
    | nil => exact hall t (List.mem_cons_self _ _)
    | cons t2 rest2 =>
      show t ++ sep :: joinSep sep (t2 :: rest2) ≠ []
      simp

theorem head?_joinSep {sep : Char} {ls : List (List Char)} {t0 : List Char}
    (h0 : ls.head? = some t0) (hne : t0 ≠ []) :
    (joinSep sep ls).head? = t0.head? := by
  cases ls with
  | nil => exact Option.noConfusion h0
  | cons t rest =>
    obtain rfl := Option.some_inj.mp h0
    cases rest with
    | nil => rfl
    | cons t2 rest2 =>
      show (t ++ sep :: joinSep sep (t2 :: rest2)).head? = _
      exact head?_append_left _ _ hne

theorem getLast?_joinSep {sep : Char} :
    ∀ {ls : List (List Char)} {tN : List Char}, (∀ t ∈ ls, t ≠ []) →
      ls.getLast? = some tN →
      (joinSep sep ls).getLast? = tN.getLast? := by
  intro ls
  induction ls with
  | nil => intro tN _ h; exact Option.noConfusion h
  | cons t rest ih =>
    intro tN hall hlast
    cases rest with
    | nil =>
      have htn : tN = t := by
        simp only [List.getLast?_singleton] at hlast
        exact (Option.some_inj.mp hlast).symm
      subst htn
      rfl
    | cons t2 rest2 =>
      rw [getLast?_cons_of_ne _ _ (by simp)] at hlast
      show (t ++ sep :: joinSep sep (t2 :: rest2)).getLast? = _
      rw [getLast?_append_right _ _ (by simp)]
      rw [getLast?_cons_of_ne _ _
        (joinSep_ne_nil (by simp) (fun x hx => hall x (List.mem_cons_of_mem _ hx)))]
      exact ih (fun x hx => hall x (List.mem_cons_of_mem _ hx)) hlast

/-- Tokenising a space-joined row of legal tokens recovers the tokens. -/
theorem rowTokens_join {toks : List (List Char)} (hne : toks ≠ [])
    (hleg : ∀ tok ∈ toks, LegalTok tok) :
    rowTokens (joinSep ' ' toks) = toks := by
  have hallne : ∀ t ∈ toks, t ≠ [] := fun t ht => legalTok_ne_nil (hleg t ht)
  have hjoinne : joinSep ' ' toks ≠ [] := joinSep_ne_nil hne hallne
  have hstrip : pyStrip (joinSep ' ' toks) = joinSep ' ' toks := by
    apply pyStrip_eq_self
    · intro c hc
      obtain ⟨t0, rest, rfl⟩ : ∃ t0 rest, toks = t0 :: rest := by
        cases toks with
        | nil => exact absurd rfl hne
        | cons a b => exact ⟨a, b, rfl⟩
      rw [head?_joinSep (show (t0 :: rest).head? = some t0 from rfl)
        (hallne t0 (List.mem_cons_self _ _))] at hc
      have hcmem : c ∈ t0 := by
        cases t0 with
        | nil => exact Option.noConfusion hc
        | cons a b =>
          obtain rfl := Option.some_inj.mp hc
          exact List.mem_cons_self _ _
      exact (legalTok_chars (hleg t0 (List.mem_cons_self _ _)) c hcmem).1
    · intro c hc
      obtain ⟨tN, htN⟩ : ∃ tN, toks.getLast? = some tN := by
        cases hx : toks.getLast? with
        | none => exact absurd (List.getLast?_eq_none_iff.mp hx) hne
        | some a => exact ⟨a, rfl⟩
      have hmemN : tN ∈ toks := List.mem_of_getLast?_eq_some htN
      rw [getLast?_joinSep hallne htN] at hc
      have hcmem : c ∈ tN := List.mem_of_getLast?_eq_some hc
      exact (legalTok_chars (hleg tN hmemN) c hcmem).1
  simp only [rowTokens]
  rw [hstrip, if_neg hjoinne]
  cases toks with
  | nil => exact absurd rfl hne
  | cons t0 rest =>
    cases rest with
    | cons t1 rest2 =>
      have hsp : (joinSep ' ' (t0 :: t1 :: rest2)).contains ' ' = true := by
        apply List.elem_eq_true_of_mem
        show ' ' ∈ t0 ++ ' ' :: joinSep ' ' (t1 :: rest2)
        exact List.mem_append_right _ (List.mem_cons_self _ _)
      rw [if_pos hsp]
      have hsplit : splitSep ' ' (joinSep ' ' (t0 :: t1 :: rest2)) =
          t0 :: t1 :: rest2 := by
        apply splitSep_joinSep (by simp)
        intro r hr c hc
        simp only [eq_iff_iff, iff_false]
        intro hcon
        subst hcon
        have := (legalTok_chars (hleg r hr) _ hc).1
        exact absurd this (by decide)
      rw [hsplit]
      apply List.filter_eq_self.mpr
      intro x hx
      simpa using hallne x hx
    | nil =>
      have hlegt0 := hleg t0 (List.mem_cons_self _ _)
      have hnosp : (joinSep ' ' [t0]).contains ' ' = false := by
        show t0.contains ' ' = false
        have hnot : ' ' ∉ t0 := by
          intro hmem
          exact absurd ((legalTok_chars hlegt0 ' ' hmem).1) (by decide)
        simpa using hnot
      rw [if_neg (by rw [hnosp]; exact Bool.false_ne_true)]
      by_cases hdot : t0 = ['.']
      · subst hdot
        rfl
      · have hnod : (joinSep ' ' [t0]).contains '.' = false := by
          show t0.contains '.' = false
          have hnot : '.' ∉ t0 := by
            intro hmem
            exact legalTok_no_dot_of_ne hlegt0 hdot '.' hmem rfl
          simpa using hnot
        rw [if_neg (by rw [hnod]; exact Bool.false_ne_true)]
        rfl

/-- The maximum row length over an all-w list is w. -/
theorem foldl_max_const {w : Nat} :
    ∀ {l : List Nat}, l ≠ [] → (∀ x ∈ l, x = w) → l.foldl Nat.max 0 = w := by
  intro l hne hall
  apply Nat.le_antisymm
  · have hle : ∀ (a : Nat) (l' : List Nat), a ≤ w → (∀ x ∈ l', x ≤ w) →
        l'.foldl Nat.max a ≤ w := by
      intro a l'
      induction l' generalizing a with
      | nil => intro ha _; exact ha
      | cons b t ih =>
        intro ha hall'
        apply ih
        · exact Nat.max_le.mpr ⟨ha, hall' b (List.mem_cons_self _ _)⟩
        · exact fun x hx => hall' x (List.mem_cons_of_mem _ hx)
    exact hle 0 l (Nat.zero_le w) (fun x hx => Nat.le_of_eq (hall x hx))
  · obtain ⟨x0, hx0⟩ : ∃ x0, x0 ∈ l := by
      cases l with
      | nil => exact absurd rfl hne
      | cons a t => exact ⟨a, List.mem_cons_self _ _⟩
    have := (le_foldl_max l 0).2 x0 hx0
    rw [hall x0 hx0] at this
    exact this

theorem serialized_strip {rows : List (List (List Char))} {w : Nat}
    (hne : rows ≠ []) (hw : ∀ row ∈ rows, row.length = w) (hwge : 1 ≤ w)
    (hleg : ∀ row ∈ rows, ∀ tok ∈ row, LegalTok tok) :
    pyStrip (joinSep ';' (rows.map fun row => joinSep ' ' row)) =
      joinSep ';' (rows.map fun row => joinSep ' ' row) := by
  have hrowne : ∀ row ∈ rows, row ≠ [] := by
    intro row hrow hcon
    have := hw row hrow
    rw [hcon] at this
    simp at this
    omega
  have hallne : ∀ t ∈ rows, ∀ tok ∈ t, tok ≠ [] :=
    fun t ht tok htok => legalTok_ne_nil (hleg t ht tok htok)
  have hrsne : ∀ rs ∈ rows.map (fun row => joinSep ' ' row), rs ≠ [] := by
    intro rs hrs
    obtain ⟨row, hrow, rfl⟩ := List.mem_map.mp hrs
    exact joinSep_ne_nil (hrowne row hrow) (hallne row hrow)
  apply pyStrip_eq_self
  · intro c hc
    obtain ⟨r0, rrest, rfl⟩ : ∃ r0 rrest, rows = r0 :: rrest := by
      cases rows with
      | nil => exact absurd rfl hne
      | cons a b => exact ⟨a, b, rfl⟩
    rw [List.map_cons] at hc
    rw [head?_joinSep (show ((joinSep ' ' r0) :: rrest.map (fun row => joinSep ' ' row)).head?
        = some (joinSep ' ' r0) from rfl)
      (hrsne _ (List.mem_map.mpr ⟨r0, List.mem_cons_self _ _, rfl⟩))] at hc
    obtain ⟨t0, trest, hr0⟩ : ∃ t0 trest, r0 = t0 :: trest := by
      cases hx : r0 with
      | nil => exact absurd hx (hrowne r0 (List.mem_cons_self _ _))
      | cons a b => exact ⟨a, b, rfl⟩
    rw [hr0] at hc
    rw [head?_joinSep (show (t0 :: trest).head? = some t0 from rfl)
      (hallne r0 (List.mem_cons_self _ _) t0 (by rw [hr0]; exact List.mem_cons_self _ _))] at hc
    have hcmem : c ∈ t0 := by
      cases t0 with
      | nil => exact Option.noConfusion hc
      | cons a b =>
        obtain rfl := Option.some_inj.mp hc
        exact List.mem_cons_self _ _
    exact (legalTok_chars (hleg r0 (List.mem_cons_self _ _) t0
      (by rw [hr0]; exact List.mem_cons_self _ _)) c hcmem).1
  · intro c hc
    obtain ⟨rsN, hrsN⟩ : ∃ rsN, (rows.map fun row => joinSep ' ' row).getLast? = some rsN := by
      cases hx : (rows.map fun row => joinSep ' ' row).getLast? with
      | none =>
        have := List.getLast?_eq_none_iff.mp hx
        rw [List.map_eq_nil] at this
        exact absurd this hne
      | some a => exact ⟨a, rfl⟩
    obtain ⟨rowN, hrowN, rfl⟩ := List.mem_map.mp (List.mem_of_getLast?_eq_some hrsN)
    rw [getLast?_joinSep hrsne hrsN] at hc
    obtain ⟨tokN, htokN⟩ : ∃ tokN, rowN.getLast? = some tokN := by
      cases hx : rowN.getLast? with
      | none => exact absurd (List.getLast?_eq_none_iff.mp hx) (hrowne rowN hrowN)
      | some a => exact ⟨a, rfl⟩
    rw [getLast?_joinSep (hallne rowN hrowN) htokN] at hc
    have htokmem : tokN ∈ rowN := List.mem_of_getLast?_eq_some htokN
    have hcmem : c ∈ tokN := List.mem_of_getLast?_eq_some hc
    exact (legalTok_chars (hleg rowN hrowN tokN htokmem) c hcmem).1

/-- Parsing the serialised string of an h-by-w legal token grid recovers the
token grid itself. -/
theorem parse_serialized {rows : List (List (List Char))} {h w : Nat}
    (hl : rows.length = h) (hw : ∀ row ∈ rows, row.length = w)
    (hh : 1 ≤ h) (hwge : 1 ≤ w)
    (hleg : ∀ row ∈ rows, ∀ tok ∈ row, LegalTok tok) :
    _parse_level (joinSep ';' (rows.map fun row => joinSep ' ' row)) =
      ⟨overlayPieces (baseGridOf h w rows) h w (collectPT w rows).1,
       dictDel (collectPT w rows).1 'X', (collectPT w rows).2, w, h⟩ := by
  have hne : rows ≠ [] := by
    intro hcon
    rw [hcon] at hl
    simp at hl
    omega
  have hstrip := serialized_strip hne hw hwge hleg
  have hsplit : splitSep ';' (joinSep ';' (rows.map fun row => joinSep ' ' row)) =
      rows.map (fun row => joinSep ' ' row) := by
    apply splitSep_joinSep (by simpa using hne)
    intro r hr c hc
    obtain ⟨row, hrow, rfl⟩ := List.mem_map.mp hr
    rcases mem_joinSep_sub hc with rfl | ⟨tok, htok, hctok⟩
    · simp
    · have := (legalTok_chars (hleg row hrow tok htok) c hctok).2
      simp [this]
  have hproc : (rows.map fun row => joinSep ' ' row).map rowTokens = rows := by
    rw [List.map_map]
    have : ∀ row ∈ rows, (rowTokens ∘ fun r => joinSep ' ' r) row = id row := by
      intro row hrow
      show rowTokens (joinSep ' ' row) = row
      apply rowTokens_join
      · intro hcon
        have := hw row hrow
        rw [hcon] at this
        simp at this
        omega
      · exact hleg row hrow
    rw [List.map_congr_left this, List.map_id]
  have hwidth : ((rows.map List.length).foldl Nat.max 0) = w := by
    apply foldl_max_const (by simpa using hne)
    intro x hx
    obtain ⟨row, hrow, rfl⟩ := List.mem_map.mp hx
    exact hw row hrow
  have hheight : (rows.map fun row => joinSep ' ' row).length = h := by
    rw [List.length_map, hl]
  simp only [_parse_level]
  rw [hstrip, hsplit, hheight]
  rw [if_neg (by omega)]
  rw [hproc, hwidth]

/-! ## Reading the collected dicts off the token grid -/

theorem foldl_reach {α β : Type} (P : β → Prop) (f : β → α → β) :
    ∀ (l : List α) (init : β) (a : α), a ∈ l → (∀ b, P (f b a)) →
      (∀ b x, x ∈ l → P b → P (f b x)) → P (l.foldl f init) := by
  intro l
  induction l with
  | nil => intro init a ha; simp at ha
  | cons hd t ih =>
    intro init a ha hset hkeep
    rcases List.mem_cons.mp ha with rfl | ha
    · exact foldl_preserve P f t (f init a) (hset init)
        (fun b x hx hb => hkeep b x (List.mem_cons_of_mem _ hx) hb)
    · exact ih (f init hd) a ha hset
        (fun b x hx hb => hkeep b x (List.mem_cons_of_mem _ hx) hb)

theorem enum_mem_of_lt {α : Type} (l : List α) (i : Nat) (d : α)
    (h : i < l.length) : (i, l.getD i d) ∈ l.enum := by
  rw [List.mem_enum_iff_getElem?, List.getD_eq_getElem?_getD]
  cases hx : l[i]? with
  | none =>
    rw [List.getElem?_eq_none_iff] at hx
    omega
  | some a => rfl

theorem classify_single_upper {P : Char} (h : 'A' ≤ P ∧ P ≤ 'Z') (hX : P ≠ 'X') :
    classifyToken [P] = (some P, none) := by
  unfold classifyToken
  rw [if_neg (by
    intro hcon
    rcases hcon with hcon | hcon
    · exact hX (List.cons.injEq _ _ _ _ ▸ hcon).1
    · exact (upper_facts h).1 (List.cons.injEq _ _ _ _ ▸ hcon).1)]
  dsimp only
  rw [if_neg (upper_facts h).2.2.2, if_pos h]

theorem classify_single_lower {t : Char} (h : 'a' ≤ t ∧ t ≤ 'z') :
    classifyToken [t] = (none, some t) := by
  unfold classifyToken
  rw [if_neg (by
    intro hcon
    rcases hcon with hcon | hcon
    · exact (lower_facts h).1 (List.cons.injEq _ _ _ _ ▸ hcon).1
    · exact (lower_facts h).2.1 (List.cons.injEq _ _ _ _ ▸ hcon).1)]
  dsimp only
  rw [if_pos h]

theorem classify_dot : classifyToken ['.'] = (none, none) := by
  unfold classifyToken
  rw [if_pos (Or.inr rfl)]

theorem classify_obstacle : classifyToken ['X'] = (none, none) := by
  unfold classifyToken
  rw [if_pos (Or.inl rfl)]

theorem classify_pair {P : Char} (h : 'A' ≤ P ∧ P ≤ 'Z') :
    classifyToken [P, P.toLower] = (some P, some P.toLower) := by
  have hlow := toLower_upper_range h
  unfold classifyToken
  rw [if_neg (by intro hcon; rcases hcon with hcon | hcon <;> simp at hcon)]
  show List.foldl _ (none, none) [P, P.toLower] = _
  rw [List.foldl_cons, List.foldl_cons, List.foldl_nil]
  rw [if_neg (upper_facts h).2.2.2, if_pos h]
  rw [if_pos hlow]

theorem collect_pieces_none {rows : List (List (List Char))} {w : Nat} {k : Char}
    (hnone : ∀ rt ∈ rows.enum, ∀ ct ∈ rt.2.enum, ct.1 < w →
      (classifyToken ct.2).1 ≠ some k) :
    dictGet (collectPT w rows).1 k = none := by
  unfold collectPT
  apply foldl_preserve (fun acc : List (Char × Pos) × List (Char × Pos) =>
    dictGet acc.1 k = none)
  · rfl
  · intro b rt hrt hb
    apply foldl_preserve (fun acc : List (Char × Pos) × List (Char × Pos) => dictGet acc.1 k = none) _ _ _ hb
    intro b' ct hct hb'
    by_cases hcw : w ≤ ct.1
    · rw [if_pos hcw]
      exact hb'
    · rw [if_neg hcw]
      cases hcls : (classifyToken ct.2).1 with
      | none =>
        simp only [hcls]
        exact hb'
      | some k' =>
        simp only [hcls]
        have hk : k' ≠ k := by
          intro hcon
          exact hnone rt hrt ct hct (by omega) (by rw [hcls, hcon])
        try dsimp only
        rw [dictGet_dictSet_ne _ _ _ _ (Ne.symm hk)]
        exact hb'

theorem collect_pieces_get {rows : List (List (List Char))} {h w : Nat}
    (hl : rows.length = h) {k : Char} {r0 c0 : Nat}
    (hr0 : r0 < h) (hc0 : c0 < w)
    (huniq : ∀ rt ∈ rows.enum, ∀ ct ∈ rt.2.enum, ct.1 < w →
      ((classifyToken ct.2).1 = some k ↔ (rt.1 = r0 ∧ ct.1 = c0)))
    (hc0row : c0 < (rows.getD r0 []).length) :
    dictGet (collectPT w rows).1 k = some ((r0 : Int), (c0 : Int)) := by
  unfold collectPT
  apply foldl_reach (fun acc : List (Char × Pos) × List (Char × Pos) =>
    dictGet acc.1 k = some ((r0 : Int), (c0 : Int)))
    _ _ _ (r0, rows.getD r0 []) (enum_mem_of_lt rows r0 [] (by omega))
  · intro b
    try dsimp only
    apply foldl_reach (fun acc : List (Char × Pos) × List (Char × Pos) => dictGet acc.1 k = some ((r0 : Int), (c0 : Int))) _ _ _ (c0, (rows.getD r0 []).getD c0 [])
      (enum_mem_of_lt _ c0 [] hc0row)
    · intro b'
      have hcls : (classifyToken ((rows.getD r0 []).getD c0 [])).1 = some k := by
        rw [huniq (r0, rows.getD r0 []) (enum_mem_of_lt rows r0 [] (by omega))
          (c0, (rows.getD r0 []).getD c0 []) (enum_mem_of_lt _ c0 [] hc0row) hc0]
        exact ⟨rfl, rfl⟩
      rw [if_neg (by omega)]
      simp only [hcls]
      try dsimp only
      exact dictGet_dictSet_self _ _ _
    · intro b' ct hct hb'
      by_cases hcw : w ≤ ct.1
      · rw [if_pos hcw]
        exact hb'
      · rw [if_neg hcw]
        cases hcls : (classifyToken ct.2).1 with
        | none =>
          simp only [hcls]
          exact hb'
        | some k' =>
          simp only [hcls]
          by_cases hk : k' = k
          · subst hk
            have := (huniq (r0, rows.getD r0 []) (enum_mem_of_lt rows r0 [] (by omega))
              ct hct (by omega)).mp hcls
            try dsimp only
            rw [this.2, dictGet_dictSet_self]
          · dsimp only
            rw [dictGet_dictSet_ne _ _ _ _ (Ne.symm hk)]
            exact hb'
  · intro b rt hrt hb
    try dsimp only
    apply foldl_preserve (fun acc : List (Char × Pos) × List (Char × Pos) => dictGet acc.1 k = some ((r0 : Int), (c0 : Int))) _ _ _ hb
    intro b' ct hct hb'
    by_cases hcw : w ≤ ct.1
    · rw [if_pos hcw]
      exact hb'
    · rw [if_neg hcw]
      cases hcls : (classifyToken ct.2).1 with
      | none =>
        simp only [hcls]
        exact hb'
      | some k' =>
        simp only [hcls]
        by_cases hk : k' = k
        · subst hk
          have := (huniq rt hrt ct hct (by omega)).mp hcls
          try dsimp only
          rw [this.1, this.2, dictGet_dictSet_self]
        · dsimp only
          rw [dictGet_dictSet_ne _ _ _ _ (Ne.symm hk)]
          exact hb'

theorem collect_targets_none {rows : List (List (List Char))} {w : Nat} {k : Char}
    (hnone : ∀ rt ∈ rows.enum, ∀ ct ∈ rt.2.enum, ct.1 < w →
      (classifyToken ct.2).2 ≠ some k) :
    dictGet (collectPT w rows).2 k = none := by
  unfold collectPT
  apply foldl_preserve (fun acc : List (Char × Pos) × List (Char × Pos) =>
    dictGet acc.2 k = none)
  · rfl
  · intro b rt hrt hb
    apply foldl_preserve (fun acc : List (Char × Pos) × List (Char × Pos) => dictGet acc.2 k = none) _ _ _ hb
    intro b' ct hct hb'
    by_cases hcw : w ≤ ct.1
    · rw [if_pos hcw]
      exact hb'
    · rw [if_neg hcw]
      cases hcls : (classifyToken ct.2).2 with
      | none =>
        simp only [hcls]
        exact hb'
      | some k' =>
        simp only [hcls]
        have hk : k' ≠ k := by
          intro hcon
          exact hnone rt hrt ct hct (by omega) (by rw [hcls, hcon])
        try dsimp only
        rw [dictGet_dictSet_ne _ _ _ _ (Ne.symm hk)]
        exact hb'

theorem collect_targets_get {rows : List (List (List Char))} {h w : Nat}
    (hl : rows.length = h) {k : Char} {r0 c0 : Nat}
    (hr0 : r0 < h) (hc0 : c0 < w)
    (huniq : ∀ rt ∈ rows.enum, ∀ ct ∈ rt.2.enum, ct.1 < w →
      ((classifyToken ct.2).2 = some k ↔ (rt.1 = r0 ∧ ct.1 = c0)))
    (hc0row : c0 < (rows.getD r0 []).length) :
    dictGet (collectPT w rows).2 k = some ((r0 : Int), (c0 : Int)) := by
  unfold collectPT
  apply foldl_reach (fun acc : List (Char × Pos) × List (Char × Pos) =>
    dictGet acc.2 k = some ((r0 : Int), (c0 : Int)))
    _ _ _ (r0, rows.getD r0 []) (enum_mem_of_lt rows r0 [] (by omega))
  · intro b
    try dsimp only
    apply foldl_reach (fun acc : List (Char × Pos) × List (Char × Pos) => dictGet acc.2 k = some ((r0 : Int), (c0 : Int))) _ _ _ (c0, (rows.getD r0 []).getD c0 [])
      (enum_mem_of_lt _ c0 [] hc0row)
    · intro b'
      have hcls : (classifyToken ((rows.getD r0 []).getD c0 [])).2 = some k := by
        rw [huniq (r0, rows.getD r0 []) (enum_mem_of_lt rows r0 [] (by omega))
          (c0, (rows.getD r0 []).getD c0 []) (enum_mem_of_lt _ c0 [] hc0row) hc0]
        exact ⟨rfl, rfl⟩
      rw [if_neg (by omega)]
      simp only [hcls]
      try dsimp only
      exact dictGet_dictSet_self _ _ _
    · intro b' ct hct hb'
      by_cases hcw : w ≤ ct.1
      · rw [if_pos hcw]
        exact hb'
      · rw [if_neg hcw]
        cases hcls : (classifyToken ct.2).2 with
        | none =>
          simp only [hcls]
          exact hb'
        | some k' =>
          simp only [hcls]
          by_cases hk : k' = k
          · subst hk
            have := (huniq (r0, rows.getD r0 []) (enum_mem_of_lt rows r0 [] (by omega))
              ct hct (by omega)).mp hcls
            try dsimp only
            rw [this.2, dictGet_dictSet_self]
          · dsimp only
            rw [dictGet_dictSet_ne _ _ _ _ (Ne.symm hk)]
            exact hb'
  · intro b rt hrt hb
    try dsimp only
    apply foldl_preserve (fun acc : List (Char × Pos) × List (Char × Pos) => dictGet acc.2 k = some ((r0 : Int), (c0 : Int))) _ _ _ hb
    intro b' ct hct hb'
    by_cases hcw : w ≤ ct.1
    · rw [if_pos hcw]
      exact hb'
    · rw [if_neg hcw]
      cases hcls : (classifyToken ct.2).2 with
      | none =>
        simp only [hcls]
        exact hb'
      | some k' =>
        simp only [hcls]
        by_cases hk : k' = k
        · subst hk
          have := (huniq rt hrt ct hct (by omega)).mp hcls
          try dsimp only
          rw [this.1, this.2, dictGet_dictSet_self]
        · dsimp only
          rw [dictGet_dictSet_ne _ _ _ _ (Ne.symm hk)]
          exact hb'

theorem cellAt_baseGridOf {h w : Nat} {rows : List (List (List Char))}
    {r c : Nat} (hr : r < h) (hc : c < w) :
    cellAt (baseGridOf h w rows) r c =
      if r < rows.length ∧ c < (rows.getD r []).length ∧
         (rows.getD r []).getD c [] = ['X'] then 'X' else '.' := by
  unfold cellAt baseGridOf
  have h1 : (((List.range h).map fun r => (List.range w).map fun c =>
      if r < rows.length ∧ c < (rows.getD r []).length ∧
         (rows.getD r []).getD c [] = ['X'] then 'X' else '.')).getD r [] =
      (List.range w).map fun c =>
        if r < rows.length ∧ c < (rows.getD r []).length ∧
           (rows.getD r []).getD c [] = ['X'] then 'X' else '.' := by
    rw [List.getD_eq_getElem?_getD, List.getElem?_map, List.getElem?_range hr]
    rfl
  rw [h1, List.getD_eq_getElem?_getD, List.getElem?_map, List.getElem?_range hc]
  rfl

theorem pieces_range' {s : KubobleGame} {B : List (List Char)} (hg : GoodState s B) :
    ∀ pr ∈ s.pieces, ('A' ≤ pr.1 ∧ pr.1 ≤ 'Z') ∧ pr.1 ≠ 'X' := by
  intro pr hpr
  have := hg.2.2.1 pr.1 (List.mem_map.mpr ⟨pr, hpr, rfl⟩)
  exact ⟨⟨this.1, this.2.1⟩, this.2.2⟩

theorem targets_range' {s : KubobleGame} {B : List (List Char)} (ht : TargetsOk s B) :
    ∀ e ∈ s.targets, 'a' ≤ e.1 ∧ e.1 ≤ 'z' := by
  intro e he
  exact ht.2.1 e.1 (List.mem_map.mpr ⟨e, he, rfl⟩)

theorem refTok_legal {s : KubobleGame} {B : List (List Char)} (hg : GoodState s B)
    (ht : TargetsOk s B) (r c : Nat) : LegalTok (refTok s B r c) := by
  unfold refTok
  by_cases hX : cellAt B r c = 'X'
  · rw [if_pos hX]
    exact Or.inl rfl
  · rw [if_neg hX]
    cases hp : pieceAt s.pieces ((r : Int), (c : Int)) with
    | some P =>
      dsimp only
      have hPr := pieces_range' hg _ (pieceAt_mem hp)
      by_cases hm : dictGet s.targets P.toLower = some ((r : Int), (c : Int))
      · rw [if_pos hm]
        exact Or.inr (Or.inr (Or.inr (Or.inr ⟨P, rfl, hPr.1, hPr.2⟩)))
      · rw [if_neg hm]
        exact Or.inr (Or.inr (Or.inl ⟨P, rfl, hPr.1, hPr.2⟩))
    | none =>
      cases htc : pieceAt s.targets ((r : Int), (c : Int)) with
      | some t =>
        exact Or.inr (Or.inr (Or.inr (Or.inl
          ⟨t, rfl, targets_range' ht _ (pieceAt_mem htc)⟩)))
      | none => exact Or.inr (Or.inl rfl)

theorem refTok_X_iff {s : KubobleGame} {B : List (List Char)} (hg : GoodState s B)
    (ht : TargetsOk s B) (r c : Nat) :
    refTok s B r c = ['X'] ↔ cellAt B r c = 'X' := by
  constructor
  · intro heq
    by_contra hX
    unfold refTok at heq
    rw [if_neg hX] at heq
    revert heq
    cases hp : pieceAt s.pieces ((r : Int), (c : Int)) with
    | some P =>
      dsimp only
      have hPr := pieces_range' hg _ (pieceAt_mem hp)
      by_cases hm : dictGet s.targets P.toLower = some ((r : Int), (c : Int))
      · rw [if_pos hm]
        simp
      · rw [if_neg hm]
        intro heq
        exact hPr.2 (List.cons.injEq _ _ _ _ ▸ heq).1
    | none =>
      cases htc : pieceAt s.targets ((r : Int), (c : Int)) with
      | some t =>
        dsimp only
        intro heq
        exact (lower_facts (targets_range' ht _ (pieceAt_mem htc))).1
          (List.cons.injEq _ _ _ _ ▸ heq).1
      | none =>
        dsimp only
        intro heq
        exact absurd (List.cons.injEq _ _ _ _ ▸ heq).1 (by decide)
  · intro hX
    unfold refTok
    rw [if_pos hX]

/-- Classifying a reference token reads back exactly the piece at that
cell. -/
theorem refTok_class_piece {s : KubobleGame} {B : List (List Char)}
    (hg : GoodState s B) (ht : TargetsOk s B) (r c : Nat) :
    (classifyToken (refTok s B r c)).1 = pieceAt s.pieces ((r : Int), (c : Int)) := by
  unfold refTok
  by_cases hX : cellAt B r c = 'X'
  · rw [if_pos hX, classify_obstacle]
    cases hp : pieceAt s.pieces ((r : Int), (c : Int)) with
    | some P =>
      exact absurd (by simpa using hX) (hg.2.2.2.2.2.1 _ (pieceAt_mem hp))
    | none => rfl
  · rw [if_neg hX]
    cases hp : pieceAt s.pieces ((r : Int), (c : Int)) with
    | some P =>
      dsimp only
      have hPr := pieces_range' hg _ (pieceAt_mem hp)
      by_cases hm : dictGet s.targets P.toLower = some ((r : Int), (c : Int))
      · rw [if_pos hm, classify_pair hPr.1]
      · rw [if_neg hm, classify_single_upper hPr.1 hPr.2]
    | none =>
      cases htc : pieceAt s.targets ((r : Int), (c : Int)) with
      | some t =>
        dsimp only
        rw [classify_single_lower (targets_range' ht _ (pieceAt_mem htc))]
      | none =>
        dsimp only
        rw [classify_dot]

/-- Classifying a reference token reads back exactly the target at that
cell. -/
theorem refTok_class_target {s : KubobleGame} {B : List (List Char)}
    (hg : GoodState s B) (ht : TargetsOk s B) (hnf : NoForeign s) (r c : Nat) :
    (classifyToken (refTok s B r c)).2 = pieceAt s.targets ((r : Int), (c : Int)) := by
  unfold refTok
  by_cases hX : cellAt B r c = 'X'
  · rw [if_pos hX, classify_obstacle]
    cases htc : pieceAt s.targets ((r : Int), (c : Int)) with
    | some t =>
      exact absurd (by simpa using hX) (ht.2.2.2.2 _ (pieceAt_mem htc))
    | none => rfl
  · rw [if_neg hX]
    cases hp : pieceAt s.pieces ((r : Int), (c : Int)) with
    | some P =>
      dsimp only
      have hPr := pieces_range' hg _ (pieceAt_mem hp)
      by_cases hm : dictGet s.targets P.toLower = some ((r : Int), (c : Int))
      · rw [if_pos hm, classify_pair hPr.1]
        have hmem : (P.toLower, ((r : Int), (c : Int))) ∈ s.targets :=
          mem_of_dictGet hm
        rw [pieceAt_of_mem_unique ht.1 ht.2.2.2.1 hmem]
      · rw [if_neg hm, classify_single_upper hPr.1 hPr.2]
        cases htc : pieceAt s.targets ((r : Int), (c : Int)) with
        | some t =>
          exfalso
          have htmem := pieceAt_mem htc
          have hlow : P.toLower = t :=
            hnf (t, ((r : Int), (c : Int))) htmem (P, ((r : Int), (c : Int)))
              (pieceAt_mem hp) rfl
          apply hm
          rw [hlow]
          exact dictGet_of_mem_nodup htmem ht.1
        | none => rfl
    | none =>
      cases htc : pieceAt s.targets ((r : Int), (c : Int)) with
      | some t =>
        dsimp only
        rw [classify_single_lower (targets_range' ht _ (pieceAt_mem htc))]
      | none =>
        dsimp only
        rw [classify_dot]

/-- C4 (corrected): the serialise/parse round trip holds for states with
well-formed pieces and targets in which no piece rests on a foreign target:
parsing the serialisation restores the dimensions, the piece map, the target
map, and the obstacle cells. -/
theorem C4_amended (s : KubobleGame) (B : List (List Char)) (obs : List Pos)
    (hg : GoodState s B) (ht : TargetsOk s B) (hnf : NoForeign s)
    (hobs : ObsOk obs B s.height s.width)
    (hh : 1 ≤ s.height) (hwge : 1 ≤ s.width) :
    (mkGame (_coords_to_level_string s.width s.height s.pieces s.targets obs)).width
      = s.width ∧
    (mkGame (_coords_to_level_string s.width s.height s.pieces s.targets obs)).height
      = s.height ∧
    (∀ k, dictGet (mkGame (_coords_to_level_string s.width s.height s.pieces
      s.targets obs)).pieces k = dictGet s.pieces k) ∧
    (∀ k, dictGet (mkGame (_coords_to_level_string s.width s.height s.pieces
      s.targets obs)).targets k = dictGet s.targets k) ∧
    (∀ r c : Nat, cellAt (mkGame (_coords_to_level_string s.width s.height s.pieces
      s.targets obs)).grid r c = 'X' ↔ cellAt s.grid r c = 'X') := by
  obtain ⟨hRl, hRw, hRtok⟩ := grid3_spec hg ht hnf hobs
  set rows := grid3Of s.width s.height s.pieces s.targets obs with hrows
  have hleg : ∀ row ∈ rows, ∀ tok ∈ row, LegalTok tok := by
    intro row hrow tok htok
    obtain ⟨r, hrlt, hre⟩ := List.mem_iff_getElem.mp hrow
    obtain ⟨c, hclt, hce⟩ := List.mem_iff_getElem.mp htok
    have hr : r < s.height := by rw [← hRl]; exact hrlt
    have hc : c < s.width := by rw [← hRw row hrow]; exact hclt
    have h1 : rows.getD r [] = row := by
      rw [List.getD_eq_getElem?_getD, List.getElem?_eq_getElem hrlt]
      simp only [Option.getD_some]
      exact hre
    have htokat : tokAt rows r c = tok := by
      rw [show tokAt rows r c = (rows.getD r []).getD c [] from rfl, h1]
      rw [List.getD_eq_getElem?_getD, List.getElem?_eq_getElem hclt]
      simp only [Option.getD_some]
      exact hce
    rw [← htokat, hRtok r c hr hc]
    exact refTok_legal hg ht r c
  have hmk : mkGame (_coords_to_level_string s.width s.height s.pieces s.targets obs) =
      ⟨overlayPieces (baseGridOf s.height s.width rows) s.height s.width
        (collectPT s.width rows).1,
       dictDel (collectPT s.width rows).1 'X', (collectPT s.width rows).2,
       s.width, s.height⟩ := by
    rw [coords_unfold]
    show _parse_level (joinSep ';' (rows.map fun row => joinSep ' ' row)) = _
    exact parse_serialized hRl hRw hh hwge hleg
  have htoks : ∀ rt ∈ rows.enum, ∀ ct ∈ rt.2.enum, ct.1 < s.width →
      ct.2 = refTok s B rt.1 ct.1 ∧ rt.1 < s.height := by
    intro rt hrt ct hct hcw
    obtain ⟨hrtlt, hrtget⟩ := mem_enum_getD [] hrt
    obtain ⟨hctlt, hctget⟩ := mem_enum_getD [] hct
    have hr : rt.1 < s.height := by rw [← hRl]; exact hrtlt
    have htokat : tokAt rows rt.1 ct.1 = ct.2 := by
      rw [show tokAt rows rt.1 ct.1 = (rows.getD rt.1 []).getD ct.1 [] from rfl,
        hrtget, hctget]
    exact ⟨by rw [← htokat, hRtok rt.1 ct.1 hr hcw], hr⟩
  have hPieces : ∀ k, dictGet (collectPT s.width rows).1 k = dictGet s.pieces k := by
    intro k
    cases hk : dictGet s.pieces k with
    | some pos =>
      have hkm : (k, pos) ∈ s.pieces := mem_of_dictGet hk
      have hinb := hg.2.2.2.1 (k, pos) hkm
      obtain ⟨hr0, hc0, hpos⟩ := inb_toNat hinb
      have huniq : ∀ rt ∈ rows.enum, ∀ ct ∈ rt.2.enum, ct.1 < s.width →
          ((classifyToken ct.2).1 = some k ↔
            (rt.1 = pos.1.toNat ∧ ct.1 = pos.2.toNat)) := by
        intro rt hrt ct hct hcw
        obtain ⟨htokeq, hr⟩ := htoks rt hrt ct hct hcw
        rw [htokeq, refTok_class_piece hg ht]
        constructor
        · intro hsome
          have heq := mem_entry_unique hg.2.1 hkm (pieceAt_mem hsome)
          constructor
          · rw [heq]; simp
          · rw [heq]; simp
        · rintro ⟨h1, h2⟩
          rw [h1, h2, ← hpos]
          exact pieceAt_of_mem_unique hg.2.1 hg.2.2.2.2.1 hkm
      have hc0row : pos.2.toNat < (rows.getD pos.1.toNat []).length := by
        rw [hRw _ (getD_mem_of_lt _ _ _ (by rw [hRl]; exact hr0))]
        exact hc0
      rw [collect_pieces_get hRl hr0 hc0 huniq hc0row, ← hpos]
    | none =>
      apply collect_pieces_none
      intro rt hrt ct hct hcw hcon
      obtain ⟨htokeq, hr⟩ := htoks rt hrt ct hct hcw
      rw [htokeq, refTok_class_piece hg ht] at hcon
      have := dictGet_of_mem_nodup (pieceAt_mem hcon) hg.2.1
      rw [hk] at this
      exact Option.noConfusion this
  have hTargets : ∀ k, dictGet (collectPT s.width rows).2 k = dictGet s.targets k := by
    intro k
    cases hk : dictGet s.targets k with
    | some pos =>
      have hkm : (k, pos) ∈ s.targets := mem_of_dictGet hk
      have hinb := ht.2.2.1 (k, pos) hkm
      obtain ⟨hr0, hc0, hpos⟩ := inb_toNat hinb
      have huniq : ∀ rt ∈ rows.enum, ∀ ct ∈ rt.2.enum, ct.1 < s.width →
          ((classifyToken ct.2).2 = some k ↔
            (rt.1 = pos.1.toNat ∧ ct.1 = pos.2.toNat)) := by
        intro rt hrt ct hct hcw
        obtain ⟨htokeq, hr⟩ := htoks rt hrt ct hct hcw
        rw [htokeq, refTok_class_target hg ht hnf]
        constructor
        · intro hsome
          have heq := mem_entry_unique ht.1 hkm (pieceAt_mem hsome)
          constructor
          · rw [heq]; simp
          · rw [heq]; simp
        · rintro ⟨h1, h2⟩
          rw [h1, h2, ← hpos]
          exact pieceAt_of_mem_unique ht.1 ht.2.2.2.1 hkm
      have hc0row : pos.2.toNat < (rows.getD pos.1.toNat []).length := by
        rw [hRw _ (getD_mem_of_lt _ _ _ (by rw [hRl]; exact hr0))]
        exact hc0
      rw [collect_targets_get hRl hr0 hc0 huniq hc0row, ← hpos]
    | none =>
      apply collect_targets_none
      intro rt hrt ct hct hcw hcon
      obtain ⟨htokeq, hr⟩ := htoks rt hrt ct hct hcw
      rw [htokeq, refTok_class_target hg ht hnf] at hcon
      have := dictGet_of_mem_nodup (pieceAt_mem hcon) ht.1
      rw [hk] at this
      exact Option.noConfusion this
  have hbase := baseGridOf_shape s.height s.width rows
  refine ⟨by rw [hmk], by rw [hmk], ?_, ?_, ?_⟩
  · intro k
    rw [hmk]
    show dictGet (dictDel (collectPT s.width rows).1 'X') k = _
    by_cases hkX : k = 'X'
    · subst hkX
      rw [dictGet_dictDel_self]
      cases hx : dictGet s.pieces 'X' with
      | none => rfl
      | some v => exact absurd rfl (pieces_range' hg _ (mem_of_dictGet hx)).2
    · rw [dictGet_dictDel_ne _ _ _ hkX]
      exact hPieces k
  · intro k
    rw [hmk]
    exact hTargets k
  · intro r c
    rw [hmk]
    show cellAt (overlayPieces (baseGridOf s.height s.width rows) s.height s.width
      (collectPT s.width rows).1) r c = 'X' ↔ _
    by_cases hin : r < s.height ∧ c < s.width
    · rw [cellAt_overlayPieces s.height s.width _ _ hbase.1 hbase.2.1 r c hin.1 hin.2]
      have hbX : cellAt (baseGridOf s.height s.width rows) r c = 'X' ↔
          cellAt B r c = 'X' := by
        rw [cellAt_baseGridOf hin.1 hin.2]
        constructor
        · intro hxx
          by_cases hcond : r < rows.length ∧ c < (rows.getD r []).length ∧
              (rows.getD r []).getD c [] = ['X']
          · have htokX : tokAt rows r c = ['X'] := hcond.2.2
            rw [hRtok r c hin.1 hin.2] at htokX
            exact (refTok_X_iff hg ht r c).mp htokX
          · rw [if_neg hcond] at hxx
            exact absurd hxx (by decide)
        · intro hBX
          rw [if_pos ?_]
          refine ⟨by rw [hRl]; exact hin.1, ?_, ?_⟩
          · rw [hRw _ (getD_mem_of_lt _ _ _ (by rw [hRl]; exact hin.1))]
            exact hin.2
          · show tokAt rows r c = ['X']
            rw [hRtok r c hin.1 hin.2]
            exact (refTok_X_iff hg ht r c).mpr hBX
      cases hpa : pieceAt (collectPT s.width rows).1 ((r : Int), (c : Int)) with
      | some p =>
        have hgp : dictGet (collectPT s.width rows).1 p = some ((r : Int), (c : Int)) :=
          dictGet_of_mem_nodup (pieceAt_mem hpa) (collectPT_inv rows s.width).1
        rw [hPieces p] at hgp
        have hmems : (p, ((r : Int), (c : Int))) ∈ s.pieces := mem_of_dictGet hgp
        have hpX : p ≠ 'X' := (pieces_range' hg _ hmems).2
        have hBnX : cellAt B r c ≠ 'X' := by
          have := hg.2.2.2.2.2.1 _ hmems
          simpa using this
        simp only [Option.getD_some]
        constructor
        · intro hcon
          exact absurd hcon hpX
        · intro hcon
          exact absurd ((good_X_cells hg r c).mp hcon) hBnX
      | none =>
        simp only [Option.getD_none]
        rw [hbX, good_X_cells hg r c]
    · have hov1 : (overlayPieces (baseGridOf s.height s.width rows) s.height s.width
          (collectPT s.width rows).1).length = s.height := by
        rw [overlayPieces_length, hbase.1]
      have hov2 := overlayPieces_rows (baseGridOf s.height s.width rows) s.height
        s.width s.width (collectPT s.width rows).1 hbase.2.1
      rw [cellAt_oob hov1 hov2 (by omega)]
      have hsl : s.grid.length = s.height := by
        rw [hg.2.2.2.2.2.2, overlayPieces_length, hg.1.1]
      have hsw : ∀ row ∈ s.grid, row.length = s.width := by
        rw [hg.2.2.2.2.2.2]
        exact overlayPieces_rows _ _ _ _ _ hg.1.2.1
      rw [cellAt_oob hsl hsw (by omega)]

/-- C4 (counterexample to the claim as stated): the generator emits the
level "A . b;B . a" with a four-move solution, "A right" is a generated
legal move on it, and after applying it piece A rests on target b's cell, so
the serialiser silently drops target b: the reserialised level parses with
no 'b' target while the state still has one. The round trip therefore fails
on a generator-reachable state. -/
theorem C4_counterexample :
    generate_kuboble_level 3 2 2 0 1 6 true
        (fun _ => [((0 : Int), (1 : Int)), (1, 1), (0, 2), (1, 0), (1, 2), (0, 0)])
        1000 =
      .ok (some ("A . b;B . a", "A right;A down;B up;B right")) ∧
    ('A', ((0 : Int), (2 : Int)), "right") ∈
      get_possible_moves (mkGame "A . b;B . a") ∧
    (apply_move (mkGame "A . b;B . a") 'A' (0, 2)).map
        (fun st => dictGet st.targets 'b') = some (some (0, 2)) ∧
    (apply_move (mkGame "A . b;B . a") 'A' (0, 2)).map
        (fun st => dictGet (mkGame (_coords_to_level_string st.width st.height
          st.pieces st.targets [])).targets 'b') = some none := by
  refine ⟨by rfl, by decide, by rfl, by rfl⟩

theorem C4_witness :
    (mkGame (_coords_to_level_string (mkGame "a A").width (mkGame "a A").height
      (mkGame "a A").pieces (mkGame "a A").targets [])).width = (mkGame "a A").width ∧
    (mkGame (_coords_to_level_string (mkGame "a A").width (mkGame "a A").height
      (mkGame "a A").pieces (mkGame "a A").targets [])).height = (mkGame "a A").height ∧
    (∀ k, dictGet (mkGame (_coords_to_level_string (mkGame "a A").width
      (mkGame "a A").height (mkGame "a A").pieces (mkGame "a A").targets [])).pieces k =
      dictGet (mkGame "a A").pieces k) ∧
    (∀ k, dictGet (mkGame (_coords_to_level_string (mkGame "a A").width
      (mkGame "a A").height (mkGame "a A").pieces (mkGame "a A").targets [])).targets k =
      dictGet (mkGame "a A").targets k) ∧
    (∀ r c : Nat, cellAt (mkGame (_coords_to_level_string (mkGame "a A").width
      (mkGame "a A").height (mkGame "a A").pieces (mkGame "a A").targets [])).grid r c
      = 'X' ↔ cellAt (mkGame "a A").grid r c = 'X') :=
  C4_amended (mkGame "a A") (stripPieces (mkGame "a A")) []
    (parse_good _) (by unfold TargetsOk DistinctPos; decide)
    (by unfold NoForeign; decide) (by unfold ObsOk; decide)
    (by decide) (by decide)

end Kuboble
